import Mathlib

/-!
Shallow embedding of `src/topcorr/topcorr.py` (the `topcorr` library) and
proofs about it.

Modelling conventions:
* numpy floating point arrays are modelled as exact rational matrices: a
  `Mat` is a size `p` together with a total entry function `ℕ → ℕ → ℚ`.
* `networkx.Graph` (the graph collaborator of spec §6) is modelled as
  `NXGraph`: a node list plus an edge list of weighted unordered pairs,
  with `add_edge` idempotent on duplicate insertion (it updates the weight)
  and inserting missing endpoints, exactly as networkx does.
* `np.argsort` is quicksort based and makes no tie-order guarantee; we model
  it deterministically as a stable ascending merge sort on (key, index),
  mirroring the spec's remark that the tie rule is implementation defined.
  No theorem below depends on the tie order.
* Python exceptions become an `Err` inductive; the `Except Err _` monad
  models fallible functions.  `np.sqrt` (used only inside partial
  correlations, never validated by the code) is an external numeric
  collaborator and is passed in as an explicit function parameter.
-/

namespace Topcorr

/-- A numpy square array: its shape `p` and its (total) entry function. -/
@[ext] structure Mat where
  p : ℕ
  entry : ℕ → ℕ → ℚ

/-- Python exceptions surfaced by the library, as an inductive.
`valueError` carries the message of the corresponding `raise` in the source;
`indexError` is numpy's out-of-bounds `IndexError` (raised by `ind[3]` during
tmfg seeding when `p < 4`, the failure the spec's taxonomy names
`InvalidInput`); `typeError` is the `TypeError` raised by `set(-1)` at
`starters_set.union(set(max_i))` when the tmfg greedy selection finds no
candidate; `singularMatrix` is the linear-algebra collaborator's failure on a
non-invertible matrix (spec §6/§7: `SingularMatrixError`). -/
inductive Err where
  | valueError (msg : String)
  | indexError
  | typeError
  | singularMatrix
  | fuelExhausted
  deriving DecidableEq, Repr

/-- The elementwise action of `threshold` on one entry: zero it if its
(optionally absolute) value is below the threshold `t`, then if `binary` set
it to 1 when its absolute value is strictly positive. -/
def thresholdEntry (t : ℚ) (binary absolute : Bool) (x : ℚ) : ℚ :=
  let y := if absolute then (if |x| < t then 0 else x)
           else (if x < t then 0 else x)
  if binary then (if 0 < |y| then 1 else y) else y

/-- Embedding of `threshold(corr, threshold, binary=False, absolute=True)`
(lines 258-287).  The source copies the matrix, zeroes entries whose
(optionally absolute) value is below the threshold, then optionally sets the
entries of strictly positive absolute value to 1.  Both numpy masked
assignments are elementwise, so the copy-then-mutate sequence is the
pointwise function below. -/
def threshold (corr : Mat) (t : ℚ) (binary : Bool) (absolute : Bool) : Mat :=
  { p := corr.p
    entry := fun i j => thresholdEntry t binary absolute (corr.entry i j) }

/-- The concrete 1×1 matrix `[[2]]` (allowed input: the spec's data model
does not restrict entries to `[-1,1]`). -/
def matTwo : Mat := { p := 1, entry := fun _ _ => 2 }

/-! ### The graph collaborator

`networkx.Graph` restricted to the capabilities the spec's §6 lists:
`add_node` (idempotent), `add_edge(u, v, weight)` (inserts missing
endpoints; on duplicate insertion it only updates the stored weight),
`remove_edge`, `has_edge`, edge and node enumeration. -/

/-- A weighted undirected networkx graph: insertion-ordered node list and
edge list.  An edge `(u, v, w)` is the unordered pair `{u, v}` with weight
`w`. -/
structure NXGraph where
  nodes : List ℕ
  edges : List (ℕ × ℕ × ℚ)
  deriving DecidableEq, Repr

/-- The empty graph `nx.Graph()`. -/
def NXGraph.emptyGraph : NXGraph := ⟨[], []⟩

/-- Does the stored edge `e` represent the unordered pair `{u, v}`? -/
def edgeMatches (u v : ℕ) (e : ℕ × ℕ × ℚ) : Bool :=
  (e.1 = u && e.2.1 = v) || (e.1 = v && e.2.1 = u)

/-- `G.has_edge(u, v)`. -/
def NXGraph.hasEdgeB (G : NXGraph) (u v : ℕ) : Bool :=
  G.edges.any (edgeMatches u v)

/-- `G.add_node(u)`: appends `u` unless already present. -/
def NXGraph.addNode (G : NXGraph) (u : ℕ) : NXGraph :=
  if u ∈ G.nodes then G else { G with nodes := G.nodes ++ [u] }

/-- `G.add_nodes_from(l)`. -/
def NXGraph.addNodesFrom (G : NXGraph) (l : List ℕ) : NXGraph :=
  l.foldl NXGraph.addNode G

/-- `G.add_edge(u, v, weight := w)`: inserts missing endpoints as nodes; if
the unordered pair is already an edge only its weight is updated, otherwise
the edge is appended. -/
def NXGraph.addEdge (G : NXGraph) (u v : ℕ) (w : ℚ) : NXGraph :=
  let G1 := (G.addNode u).addNode v
  if G.hasEdgeB u v then
    { G1 with edges := G1.edges.map (fun e => if edgeMatches u v e then (e.1, e.2.1, w) else e) }
  else { G1 with edges := G1.edges ++ [(u, v, w)] }

/-- `G.remove_edge(u, v)` (nodes are kept, as in networkx). -/
def NXGraph.removeEdge (G : NXGraph) (u v : ℕ) : NXGraph :=
  { G with edges := G.edges.filter (fun e => !(edgeMatches u v e)) }

/-- `len(G.edges())`. -/
def NXGraph.edgeCount (G : NXGraph) : ℕ := G.edges.length

/-- The sum of the stored edge weights. -/
def NXGraph.totalWeight (G : NXGraph) : ℚ := (G.edges.map (fun e => e.2.2)).sum

/-- The unweighted structure of the graph: what `nx.check_planarity`
inspects (it ignores weights). -/
def NXGraph.skeleton (G : NXGraph) : List ℕ × List (ℕ × ℕ) :=
  (G.nodes, G.edges.map (fun e => (e.1, e.2.1)))

/-- Adjacency as a proposition. -/
def NXGraph.Adj (G : NXGraph) (u v : ℕ) : Prop := G.hasEdgeB u v = true

/-- Reachability: the reflexive transitive closure of adjacency. -/
def NXGraph.Reach (G : NXGraph) : ℕ → ℕ → Prop := Relation.ReflTransGen G.Adj

/-- The graph connects all of `{0, …, p−1}`. -/
def NXGraph.ConnectedOn (G : NXGraph) (p : ℕ) : Prop :=
  ∀ u < p, ∀ v < p, G.Reach u v

/-- Acyclicity: every edge is a bridge (removing it disconnects its
endpoints).  For finite undirected graphs this is the standard
characterization of forests. -/
def NXGraph.Acyclic (G : NXGraph) : Prop :=
  ∀ e ∈ G.edges, ¬ (G.removeEdge e.1 e.2.1).Reach e.1 e.2.1

/-! ### Partitions: the spanning-tree builder's component structure -/

/-- The `components` value of `mst`: a Python list of Python sets of node
ids. -/
abbrev Partition := List (Finset ℕ)

/-- Embedding of `_in_same_component(components, i, j)` (lines 165-187):
true iff some listed component contains both `i` and `j`. -/
def _in_same_component (components : Partition) (i j : ℕ) : Bool :=
  components.any (fun c => decide (i ∈ c ∧ j ∈ c))

/-- The index bookkeeping of `_merge_components`' scan: the loop
`for idx, c in enumerate(components): if i in c: c1_i = idx` keeps the last
matching index.  Structurally: the last index of a component containing
`i`. -/
def lastIdxContaining (components : Partition) (i : ℕ) : Option ℕ :=
  match components with
  | [] => none
  | c :: rest =>
    match lastIdxContaining rest i with
    | some k => some (k + 1)
    | none => if i ∈ c then some 0 else none

/-- Embedding of `_merge_components(components, i, j)` (lines 189-223): the
component holding `i` (in place, at its index) becomes the union with the
component holding `j`, whose entry is deleted.  When `i` or `j` is in no
component the Python code would crash on `None`; the builder never calls it
that way, and the model returns the list unchanged there. -/
def _merge_components (components : Partition) (i j : ℕ) : Partition :=
  match lastIdxContaining components i, lastIdxContaining components j with
  | some c1_i, some c2_i =>
    ((components.set c1_i ((components.getD c1_i ∅) ∪ (components.getD c2_i ∅))).eraseIdx c2_i)
  | _, _ => components

/-- The initial partition `[set([x]) for x in range(p)]`. -/
def singletonParts (p : ℕ) : Partition := (List.range p).map (fun x => {x})

/-- One candidate pair's effect on the partition: the loop body of `mst`
skips self-loops and already-connected pairs, otherwise merges.  (Also the
partition effect of processing one edge of any edge list.) -/
def partStepPair (P : Partition) (i j : ℕ) : Partition :=
  if i = j then P
  else if _in_same_component P i j then P
  else _merge_components P i j

/-- Folding a pair list into a partition from an arbitrary start. -/
def partFoldPairs (P : Partition) (l : List (ℕ × ℕ)) : Partition :=
  l.foldl (fun P e => partStepPair P e.1 e.2) P

/-- Folding a pair list into a partition, starting from singletons: the
components of the graph formed by those edges. -/
def partOfPairs (p : ℕ) (l : List (ℕ × ℕ)) : Partition :=
  partFoldPairs (singletonParts p) l

/-! ### Flat-index sorting: `np.argsort(corr.flatten())[::-1]` -/

/-- Row of a flat (row-major) index. -/
def flatI (p v : ℕ) : ℕ := v / p

/-- Column of a flat (row-major) index. -/
def flatJ (p v : ℕ) : ℕ := v % p

/-- The matrix value at a flat index. -/
def flatKey (corr : Mat) (v : ℕ) : ℚ := corr.entry (flatI corr.p v) (flatJ corr.p v)

/-- The comparator of the deterministic argsort model: ascending by value,
ties by flat index (a stable ascending sort; numpy's quicksort fixes no tie
order, and no theorem below depends on this choice). -/
def flatLe (corr : Mat) (a b : ℕ) : Prop :=
  flatKey corr a < flatKey corr b ∨ (flatKey corr a = flatKey corr b ∧ a ≤ b)

instance flatLeDecidable (corr : Mat) : DecidableRel (flatLe corr) := fun a b => by
  unfold flatLe
  infer_instance

/-- Model of `np.argsort(corr.flatten(), axis=None)[::-1]`: all `p²` flat
indices, sorted ascending by value and then reversed, so values are
nonincreasing along the result. -/
def argsortFlatDesc (corr : Mat) : List ℕ :=
  ((List.range (corr.p * corr.p)).insertionSort (flatLe corr)).reverse

/-! ### The spanning-tree builder -/

/-- Embedding of the loop of `mst` (lines 243-254): for each flat index in
descending-value order, skip self-loops, skip pairs already in one
component, otherwise add the edge and merge; stop as soon as `p − 1` edges
are present. -/
def mstLoop (corr : Mat) : List ℕ → Partition → NXGraph → NXGraph
  | [], _, G => G
  | v :: rest, components, G =>
    let i := flatI corr.p v
    let j := flatJ corr.p v
    if i = j then mstLoop corr rest components G
    else if _in_same_component components i j then mstLoop corr rest components G
    else
      let G' := G.addEdge i j (corr.entry i j)
      let components' := _merge_components components i j
      if G'.edgeCount = corr.p - 1 then G' else mstLoop corr rest components' G'

/-- Embedding of `mst(corr)` (lines 225-256). -/
def mst (corr : Mat) : NXGraph :=
  mstLoop corr (argsortFlatDesc corr) (singletonParts corr.p) NXGraph.emptyGraph

/-- The `mst` loop without its early break: used to analyse the loop (the
break fires exactly when the partition has become a single component, after
which every further candidate is skipped, so both compute the same
graph). -/
def kruskalNoBreak (corr : Mat) : List ℕ → Partition → NXGraph → NXGraph
  | [], _, G => G
  | v :: rest, components, G =>
    let i := flatI corr.p v
    let j := flatJ corr.p v
    if i = j then kruskalNoBreak corr rest components G
    else if _in_same_component components i j then kruskalNoBreak corr rest components G
    else
      kruskalNoBreak corr rest (_merge_components components i j)
        (G.addEdge i j (corr.entry i j))

/-- The flat indices the greedy loop accepts, in order. -/
def acceptedFrom (corr : Mat) : List ℕ → Partition → List ℕ
  | [], _ => []
  | v :: rest, components =>
    let i := flatI corr.p v
    let j := flatJ corr.p v
    if i = j then acceptedFrom corr rest components
    else if _in_same_component components i j then acceptedFrom corr rest components
    else v :: acceptedFrom corr rest (_merge_components components i j)

/-- The partition after the greedy loop has processed `vs`. -/
def partsAfter (corr : Mat) (vs : List ℕ) (P : Partition) : Partition :=
  vs.foldl (fun P v => partStepPair P (flatI corr.p v) (flatJ corr.p v)) P

/-! ### The TMFG builder -/

/-- A Python value passed as the `new` argument of
`_add_triangular_face`: either a scalar node id or a sized collection
(`isinstance(new, collections.Sized)`). -/
inductive PyVal where
  | int (n : ℕ)
  | arr (xs : List ℕ)
  deriving DecidableEq, Repr

/-- `faces.add(f)`: Python set insertion (model: append unless present). -/
def faceAdd (faces : List (Finset ℕ)) (f : Finset ℕ) : List (Finset ℕ) :=
  if f ∈ faces then faces else faces ++ [f]

/-- Embedding of `_calculate_new_faces(faces, new, old_set)` (lines 5-27):
removes the consumed face and adds the three faces the new node forms with
each pair of the old face's members (`old_set` is the list Python indexes;
out-of-range defaults never arise in the builder's calls, which pass
3-element lists). -/
def _calculate_new_faces (faces : List (Finset ℕ)) (new : ℕ) (old_set : List ℕ) :
    List (Finset ℕ) :=
  let faces1 := faces.erase old_set.toFinset
  let faces2 := faceAdd faces1 {new, old_set.getD 1 0, old_set.getD 0 0}
  let faces3 := faceAdd faces2 {new, old_set.getD 0 0, old_set.getD 2 0}
  faceAdd faces3 {new, old_set.getD 1 0, old_set.getD 2 0}

/-- Embedding of `_add_triangular_face(G, new, old_set, C, faces)`
(lines 29-56): rejects a sized `new` (`ValueError("New should be a
scaler")`), rejects a face of more than 3 members (`ValueError("Old set is
not the right size!")`), otherwise connects `new` to every member.  The
`faces` argument is unused, as in the source. -/
def _add_triangular_face (G : NXGraph) (new : PyVal) (old_set : List ℕ) (C : Mat)
    (faces : List (Finset ℕ)) : Except Err NXGraph :=
  match new with
  | .arr _ => .error (.valueError "New should be a scaler")
  | .int n =>
    if old_set.length > 3 then .error (.valueError "Old set is not the right size!")
    else .ok (old_set.foldl (fun G j => G.addEdge n j (C.entry n j)) G)

/-- The node-selection weights: `np.abs(corr)` when `absolute`, else
`corr` (line 76-79). -/
def weightCorr (corr : Mat) (absolute : Bool) (i j : ℕ) : ℚ :=
  if absolute then |corr.entry i j| else corr.entry i j

/-- `degree_centrality = weight_corr.sum(axis=0)` (line 82): column sums. -/
def degreeCentrality (corr : Mat) (absolute : Bool) (j : ℕ) : ℚ :=
  ((List.range corr.p).map (fun i => weightCorr corr absolute i j)).sum

/-- The comparator of `np.argsort(degree_centrality)`: ascending by
centrality, ties by index (deterministic model of the unspecified numpy tie
order). -/
def centAsc (corr : Mat) (absolute : Bool) (a b : ℕ) : Prop :=
  degreeCentrality corr absolute a < degreeCentrality corr absolute b ∨
    (degreeCentrality corr absolute a = degreeCentrality corr absolute b ∧ a ≤ b)

instance centAscDecidable (corr : Mat) (absolute : Bool) :
    DecidableRel (centAsc corr absolute) := fun a b => by
  unfold centAsc
  infer_instance

/-- `ind = np.argsort(degree_centrality)[::-1]` (line 83). -/
def tmfgInd (corr : Mat) (absolute : Bool) : List ℕ :=
  ((List.range corr.p).insertionSort (centAsc corr absolute)).reverse

/-- The argmax the source takes via `np.argsort(most_related)[::-1][0]`:
the greatest value, ties resolved to the latest position (model of the
unspecified numpy tie order). -/
def argmaxLast (key : ℕ → ℚ) : List ℕ → Option (ℕ × ℚ)
  | [] => none
  | x :: xs =>
    match argmaxLast key xs with
    | none => some (x, key x)
    | some (y, ky) => if ky < key x then some (x, key x) else some (y, ky)

/-- The greedy selection of lines 107-123: for every current face, the best
not-placed node by summed selection weight to the face's members; then the
best (face, node) pair, a strict improvement over the starting sentinel
`max_corr = -1`.  Returns `none` when no pair beats the sentinel — the
source then reaches `set(max_i)` with `max_i = -1` and raises
`TypeError`. -/
def tmfgSelect (wc : ℕ → ℕ → ℚ) (not_in : List ℕ) (faces : List (Finset ℕ)) :
    Option (ℕ × List ℕ) :=
  (faces.foldl (fun acc face =>
      let ind := face.sort (· ≤ ·)
      match argmaxLast (fun c => (ind.map (fun r => wc r c)).sum) not_in with
      | none => acc
      | some (c, kc) => if acc.1 < kc then (kc, some (c, ind)) else acc)
    ((-1 : ℚ), none)).2

/-- The growth loop of `tmfg` (lines 104-128), by fuel (each genuine
iteration removes the selected node from `not_in`; the fuel supplied by
`tmfg` always suffices). -/
def tmfgLoop (corr : Mat) (wc : ℕ → ℕ → ℚ) :
    ℕ → NXGraph → List (Finset ℕ) → Finset ℕ → List ℕ → Except Err NXGraph
  | 0, _, _, _, _ => .error .fuelExhausted
  | fuel + 1, G, faces, starters, not_in =>
    if not_in.isEmpty then .ok G
    else
      match tmfgSelect wc not_in faces with
      | none => .error .typeError
      | some (max_i, ncw) =>
        let starters' := insert max_i starters
        let not_in' := not_in.filter (fun x => x ∉ starters')
        match _add_triangular_face G (.int max_i) ncw corr faces with
        | .error e => .error e
        | .ok G' => tmfgLoop corr wc fuel G' (_calculate_new_faces faces max_i ncw)
            starters' not_in'

/-- Embedding of `tmfg(corr, absolute=False)` (lines 58-130).  The seeding
accesses `ind[1]`, `ind[3]`, … (lines 94-102); for `p < 4` the first
out-of-range access raises numpy's `IndexError`, modelled by the length
test. -/
def tmfg (corr : Mat) (absolute : Bool) : Except Err NXGraph :=
  let p := corr.p
  let wc := weightCorr corr absolute
  let ind := tmfgInd corr absolute
  if 4 ≤ ind.length then
    let i0 := ind.getD 0 0
    let i1 := ind.getD 1 0
    let i2 := ind.getD 2 0
    let i3 := ind.getD 3 0
    let starters : Finset ℕ := {i0, i1, i2, i3}
    let not_in := (List.range p).filter (fun x => x ∉ starters)
    let G0 := NXGraph.emptyGraph.addNodesFrom (List.range p)
    match _add_triangular_face G0 (.int i0) [i1, i3] corr [] with
    | .error e => .error e
    | .ok G1 =>
      match _add_triangular_face G1 (.int i1) [i2, i3] corr [] with
      | .error e => .error e
      | .ok G2 =>
        match _add_triangular_face G2 (.int i0) [i2, i3] corr [] with
        | .error e => .error e
        | .ok G3 =>
          match _add_triangular_face G3 (.int i2) [i1, i3] corr [] with
          | .error e => .error e
          | .ok G4 =>
            let faces0 := faceAdd (faceAdd (faceAdd (faceAdd [] {i0, i1, i3})
              {i1, i2, i3}) {i0, i2, i3}) {i0, i1, i2}
            tmfgLoop corr wc (p + 1) G4 faces0 starters not_in
  else .error .indexError

/-! ### The PMFG builder

`nx.check_planarity` is an external collaborator (spec §2/§6: the graph
abstraction's planarity capability, "treat the planarity oracle as
infallible").  It inspects only the unweighted graph, so it is modelled as
an arbitrary boolean function of the skeleton, passed in as a parameter. -/

/-- Embedding of the loop of `pmfg` (lines 150-161): for each flat index in
descending-value order, skip the diagonal, tentatively add the edge, revert
it when the planarity test fails, and stop at `3(p−2)` edges. -/
def pmfgLoop (oracle : List ℕ × List (ℕ × ℕ) → Bool) (corr : Mat) :
    List ℕ → NXGraph → NXGraph
  | [], G => G
  | v :: rest, G =>
    let i := flatI corr.p v
    let j := flatJ corr.p v
    if i = j then pmfgLoop oracle corr rest G
    else
      let G1 := G.addEdge i j (corr.entry i j)
      let G2 := if oracle G1.skeleton then G1 else G1.removeEdge i j
      if G2.edgeCount = 3 * (corr.p - 2) then G2 else pmfgLoop oracle corr rest G2

/-- Embedding of `pmfg(corr)` (lines 132-163). -/
def pmfg (oracle : List ℕ × List (ℕ × ℕ) → Bool) (corr : Mat) : NXGraph :=
  pmfgLoop oracle corr (argsortFlatDesc corr)
    (NXGraph.emptyGraph.addNodesFrom (List.range corr.p))

/-- The intermediate graphs of the `pmfg` loop, one after each processed
candidate (after the tentative insertion and its possible revert). -/
def pmfgTrace (oracle : List ℕ × List (ℕ × ℕ) → Bool) (corr : Mat) :
    List ℕ → NXGraph → List NXGraph
  | [], _ => []
  | v :: rest, G =>
    let i := flatI corr.p v
    let j := flatJ corr.p v
    if i = j then pmfgTrace oracle corr rest G
    else
      let G1 := G.addEdge i j (corr.entry i j)
      let G2 := if oracle G1.skeleton then G1 else G1.removeEdge i j
      G2 :: (if G2.edgeCount = 3 * (corr.p - 2) then [] else pmfgTrace oracle corr rest G2)

/-! ### Spanning trees of the complete graph (the claim-side notions) -/

/-- Adjacency generated by a finite set of (canonically ordered) node
pairs. -/
def pairAdj (T : Finset (ℕ × ℕ)) (u v : ℕ) : Prop := (u, v) ∈ T ∨ (v, u) ∈ T

/-- Reachability in the graph formed by a pair set. -/
def pairReach (T : Finset (ℕ × ℕ)) : ℕ → ℕ → Prop := Relation.ReflTransGen (pairAdj T)

/-- Acyclicity of a pair set: every edge is a bridge. -/
def PairAcyclic (T : Finset (ℕ × ℕ)) : Prop :=
  ∀ e ∈ T, ¬ pairReach (T.erase e) e.1 e.2

/-- A spanning tree of the complete weighted graph on `{0, …, p−1}`: edges
are canonical pairs `(a, b)` with `a < b < p`, every two nodes below `p`
are connected, and no edge closes a cycle. -/
def IsSpanningTree (p : ℕ) (T : Finset (ℕ × ℕ)) : Prop :=
  (∀ e ∈ T, e.1 < e.2 ∧ e.2 < p) ∧
  (∀ u < p, ∀ v < p, pairReach T u v) ∧
  PairAcyclic T

/-- The total weight of a pair set under the matrix's entries. -/
def pairWeight (corr : Mat) (T : Finset (ℕ × ℕ)) : ℚ :=
  ∑ e ∈ T, corr.entry e.1 e.2

/-- The row-major flat index of a node pair. -/
def encPair (p : ℕ) (e : ℕ × ℕ) : ℕ := e.1 * p + e.2

/-- A concrete symmetric 2×2 correlation matrix (the identity). -/
def mat2ex : Mat := { p := 2, entry := fun i j => if i = j then 1 else 0 }

/-- A concrete symmetric 3×3 correlation matrix (the identity). -/
def mat3ex : Mat := { p := 3, entry := fun i j => if i = j then 1 else 0 }

/-! ### The k-nearest-neighbour builder -/

/-- The comparator of `np.argsort(corr[:, i])`: ascending by the column
entry, ties by index (deterministic model of the unspecified numpy tie
order). -/
def colAsc (corr : Mat) (i a b : ℕ) : Prop :=
  corr.entry a i < corr.entry b i ∨ (corr.entry a i = corr.entry b i ∧ a ≤ b)

instance colAscDecidable (corr : Mat) (i : ℕ) : DecidableRel (colAsc corr i) := fun a b => by
  unfold colAsc
  infer_instance

/-- `sort = np.argsort(corr[:, i])[::-1]` (line 368). -/
def knnSort (corr : Mat) (i : ℕ) : List ℕ :=
  ((List.range corr.p).insertionSort (colAsc corr i)).reverse

/-- The inner loop of `knn` (lines 369-376): walk the column's indices in
descending-value order, stop after `k` accepted edges, skip the diagonal. -/
def knnInner (corr : Mat) (k i : ℕ) : List ℕ → ℕ → NXGraph → NXGraph
  | [], _, G => G
  | j :: rest, num, G =>
    if num = k then G
    else if j = i then knnInner corr k i rest num G
    else knnInner corr k i rest (num + 1) (G.addEdge i j (corr.entry i j))

/-- Embedding of `knn(corr, k)` (lines 348-377).  The graph starts empty
and learns nodes only through `add_edge`. -/
def knn (corr : Mat) (k : ℕ) : NXGraph :=
  (List.range corr.p).foldl (fun G i => knnInner corr k i (knnSort corr i) 0 G)
    NXGraph.emptyGraph

/-! ### The partial-correlation network -/

/-- The matrix-inversion collaborator `np.linalg.inv` (spec §6): the exact
inverse on invertible input, `LinAlgError` — the spec's
`SingularMatrixError` — on singular input. -/
def npLinalgInv {p : ℕ} (A : Matrix (Fin p) (Fin p) ℚ) :
    Except Err (Matrix (Fin p) (Fin p) ℚ) :=
  if A.det = 0 then .error .singularMatrix else .ok (A.det⁻¹ • A.adjugate)

/-- Embedding of `partial_correlation(corr)` (lines 379-403) over exact
rationals: invert, form `-prec[i,j]/sqrt(prec[i,i]*prec[j,j])`, then
`np.fill_diagonal(…, 1)`.  `np.sqrt` is an external numeric collaborator
(spec §6) passed as a function parameter. -/
def partial_correlation {p : ℕ} (sqrt : ℚ → ℚ) (A : Matrix (Fin p) (Fin p) ℚ) :
    Except Err (Matrix (Fin p) (Fin p) ℚ) :=
  match npLinalgInv A with
  | .error e => .error e
  | .ok prec =>
    .ok (Matrix.of fun i j =>
      if i = j then 1 else - prec i j / sqrt (prec i i * prec j j))

/-- The concrete 1×1 rational matrix `[[c]]`. -/
def oneMat (c : ℚ) : Matrix (Fin 1) (Fin 1) ℚ := Matrix.of fun _ _ => c

/-! ### The dependency network -/

/-- Embedding of `calculate_partial_correlation(corr, i, j, k)` (lines
289-306), with `np.sqrt` passed as a function parameter. -/
def calculate_partial_correlation (sqrt : ℚ → ℚ) (corr : Mat) (i j k : ℕ) : ℚ :=
  (corr.entry i j - corr.entry i k * corr.entry k j) /
    sqrt ((1 - corr.entry i k ^ 2) * (1 - corr.entry k j ^ 2))

/-- The tensor `D` after the first triple loop of `dependency_network`
(lines 326-332): `corr[i,j] − partialcorr(i,j|k)` at pairwise-distinct
in-range triples, the allocation's zeros elsewhere. -/
def depTensor1 (sqrt : ℚ → ℚ) (corr : Mat) : ℕ → ℕ → ℕ → ℚ := fun i j k =>
  if i < corr.p ∧ j < corr.p ∧ k < corr.p then
    (if i = j ∨ i = k ∨ j = k then 0
     else corr.entry i j - calculate_partial_correlation sqrt corr i j k)
  else 0

/-- The tensor `D` after the sentinel loop (lines 334-336): `D[i,j,j] = 1`
for all in-range `i, j`, overriding the previous pass. -/
def depTensor2 (sqrt : ℚ → ℚ) (corr : Mat) : ℕ → ℕ → ℕ → ℚ := fun i j k =>
  if i < corr.p ∧ j < corr.p ∧ k = j then 1 else depTensor1 sqrt corr i j k

/-- Embedding of `dependency_network(corr)` (lines 308-346): the aggregation
`result[k, i] = D[i, i≠ind, k].sum() / (p−1)` off the diagonal, the
allocation's zeros on it. -/
def dependency_network (sqrt : ℚ → ℚ) (corr : Mat) : Mat :=
  { p := corr.p
    entry := fun k i =>
      if k < corr.p ∧ i < corr.p ∧ i ≠ k then
        (((List.range corr.p).filter (fun j => j ≠ i)).map
          (fun j => depTensor2 sqrt corr i j k)).sum / ((corr.p : ℚ) - 1)
      else 0 }

/-- The specification-side dependency tensor, written from the §4.7 text:
`D[i,j,k] = corr[i,j] − partialcorr(i,j|k)` for pairwise-distinct `i, j, k`,
with the sentinel `D[i,j,j] = 1` overriding prior values, and zero
otherwise. -/
def depD_spec (sqrt : ℚ → ℚ) (corr : Mat) (i j k : ℕ) : ℚ :=
  if j = k then 1
  else if i ≠ j ∧ i ≠ k ∧ j ≠ k then
    corr.entry i j - calculate_partial_correlation sqrt corr i j k
  else 0

/-! ### A positive-definite input on which the TMFG growth loop crashes

Nodes 1-4 form a clique of pairwise correlation 4/5; node 0 is negatively
correlated with each (−0.40, −0.39, −0.38, −0.37).  The matrix is symmetric
with unit diagonal and positive definite (Schur complement of the clique
block ≈ 0.82 > 0), yet every face-to-candidate sum is ≤ −1.14, below the
loop's `max_corr = -1` sentinel. -/

/-- The entries of the crashing matrix; for an off-diagonal pair touching
node 0 the other index is `i + j`. -/
def crashEntry (i j : ℕ) : ℚ :=
  if i = j then 1
  else if i = 0 ∨ j = 0 then (-2) / 5 + ((i + j - 1 : ℕ) : ℚ) / 100
  else 4 / 5

/-- The concrete 5×5 positive-definite correlation matrix on which
`tmfg(·, absolute=False)` raises `TypeError`. -/
def tmfgCrashMat : Mat := { p := 5, entry := crashEntry }

/-! ### The heap: numpy arrays as mutable store cells

The spec's frame claim is about mutation of the caller's arrays, so the
wrappers below make every allocation (`np.zeros`, `.copy()`) and every
in-place write (masked assignment, element assignment, `fill_diagonal`)
explicit on a store of cells.  Reading is non-destructive; the graph
builders allocate no caller-visible arrays and never assign into their
argument. -/

/-- A heap cell: a square array, a `Fin`-indexed square array, or a rank-3
tensor. -/
inductive Cell where
  | mat (m : Mat)
  | finmat (p : ℕ) (A : Matrix (Fin p) (Fin p) ℚ)
  | tensor (p : ℕ) (t : ℕ → ℕ → ℕ → ℚ)

/-- The heap: cells addressed by allocation order. -/
abbrev Store := List Cell

/-- An in-place write: replace the cell at `idx`. -/
def storeWrite (σ : Store) (idx : ℕ) (c : Cell) : Store := σ.set idx c

/-- Allocation: append a fresh cell, returning its address. -/
def storeAlloc (σ : Store) (c : Cell) : Store × ℕ := (σ ++ [c], σ.length)

/-- The matrix after the masked zeroing write of `threshold` (lines
280/282). -/
def maskLow (corr : Mat) (t : ℚ) (absolute : Bool) : Mat :=
  { p := corr.p
    entry := fun i j =>
      if (if absolute then |corr.entry i j| < t else corr.entry i j < t) then 0
      else corr.entry i j }

/-- The matrix after the binarizing write of `threshold` (line 285). -/
def binarize (corr : Mat) : Mat :=
  { p := corr.p
    entry := fun i j => if 0 < |corr.entry i j| then 1 else corr.entry i j }

/-- `threshold` on the heap (lines 258-287): copy the argument into a fresh
cell, apply the masked zeroing write and the optional binarizing write to
the copy, return the copy's address.  A non-matrix argument cell leaves the
store unchanged (the call fails before any write). -/
def thresholdSt (σ : Store) (r : ℕ) (t : ℚ) (binary absolute : Bool) : Store × ℕ :=
  match σ[r]? with
  | some (.mat corr) =>
    let a := storeAlloc σ (.mat corr)
    let σ1 := storeWrite a.1 a.2 (.mat (maskLow corr t absolute))
    let σ2 := if binary then storeWrite σ1 a.2 (.mat (binarize (maskLow corr t absolute)))
              else σ1
    (σ2, a.2)
  | _ => (σ, r)

/-- `mst` on the heap: reads its argument, allocates no caller-visible
array, writes nothing. -/
def mstSt (σ : Store) (r : ℕ) : Store × Option NXGraph :=
  match σ[r]? with
  | some (.mat corr) => (σ, some (mst corr))
  | _ => (σ, none)

/-- `pmfg` on the heap: read-only. -/
def pmfgSt (oracle : List ℕ × List (ℕ × ℕ) → Bool) (σ : Store) (r : ℕ) :
    Store × Option NXGraph :=
  match σ[r]? with
  | some (.mat corr) => (σ, some (pmfg oracle corr))
  | _ => (σ, none)

/-- `tmfg` on the heap: read-only. -/
def tmfgSt (σ : Store) (r : ℕ) (absolute : Bool) : Store × Option (Except Err NXGraph) :=
  match σ[r]? with
  | some (.mat corr) => (σ, some (tmfg corr absolute))
  | _ => (σ, none)

/-- `knn` on the heap: read-only. -/
def knnSt (σ : Store) (r : ℕ) (k : ℕ) : Store × Option NXGraph :=
  match σ[r]? with
  | some (.mat corr) => (σ, some (knn corr k))
  | _ => (σ, none)

/-- `partial_correlation` on the heap (lines 379-403): after a successful
inversion, allocate `np.zeros((p, p))`, write the loop's entries into it,
then the `fill_diagonal` write; on singular input the exception propagates
before any allocation. -/
def partial_correlationSt (sqrt : ℚ → ℚ) (σ : Store) (r : ℕ) : Store × Option ℕ :=
  match σ[r]? with
  | some (.finmat p A) =>
    match npLinalgInv A with
    | .error _ => (σ, none)
    | .ok prec =>
      let a := storeAlloc σ (.finmat p 0)
      let σ1 := storeWrite a.1 a.2
        (.finmat p (Matrix.of fun i j => - prec i j / sqrt (prec i i * prec j j)))
      let σ2 := storeWrite σ1 a.2
        (.finmat p (Matrix.of fun i j =>
          if i = j then 1 else - prec i j / sqrt (prec i i * prec j j)))
      (σ2, some a.2)
  | _ => (σ, none)

/-- `dependency_network` on the heap (lines 308-346): allocate the zero
tensor `D`, write the two passes into it, allocate the zero result matrix,
write the aggregation into it, return the result's address. -/
def dependency_networkSt (sqrt : ℚ → ℚ) (σ : Store) (r : ℕ) : Store × Option ℕ :=
  match σ[r]? with
  | some (.mat corr) =>
    let a := storeAlloc σ (.tensor corr.p (fun _ _ _ => 0))
    let σ1 := storeWrite a.1 a.2 (.tensor corr.p (depTensor1 sqrt corr))
    let σ2 := storeWrite σ1 a.2 (.tensor corr.p (depTensor2 sqrt corr))
    let b := storeAlloc σ2 (.mat { p := corr.p, entry := fun _ _ => 0 })
    let σ3 := storeWrite b.1 b.2 (.mat (dependency_network sqrt corr))
    (σ3, some b.2)
  | _ => (σ, none)

/-! ### Specification-side partition predicates -/

/-- `u` and `v` lie in one listed component. -/
def sameComp (P : Partition) (u v : ℕ) : Prop := ∃ c ∈ P, u ∈ c ∧ v ∈ c

/-- The reflexive closure of `sameComp`: the equivalence the partition
induces (reflexive also outside the carrier). -/
def PartRel (P : Partition) (u v : ℕ) : Prop := u = v ∨ sameComp P u v

/-- A well-formed partition of `{0, …, p−1}`: nonempty components of node
ids below `p`, covering all of them, pairwise disjoint. -/
def PartValid (p : ℕ) (P : Partition) : Prop :=
  (∀ c ∈ P, c.Nonempty) ∧
  (∀ c ∈ P, ∀ x ∈ c, x < p) ∧
  (∀ x, x < p → ∃ c ∈ P, x ∈ c) ∧
  P.Pairwise Disjoint

/-- The invariant the greedy spanning-tree loop maintains between its
partition and its graph: the partition is valid, reachability in the graph
is exactly the partition's equivalence, the graph is a forest whose edge
count complements the component count, edges join distinct nodes below `p`
with their matrix weight, and the node list is exactly the endpoints seen
so far (networkx only learns nodes through `add_edge`). -/
def MstInv (corr : Mat) (P : Partition) (G : NXGraph) : Prop :=
  PartValid corr.p P ∧
  (∀ u v, G.Reach u v ↔ PartRel P u v) ∧
  G.Acyclic ∧
  G.edgeCount + P.length = corr.p ∧
  (∀ e ∈ G.edges, e.1 < corr.p ∧ e.2.1 < corr.p ∧ e.1 ≠ e.2.1 ∧
    e.2.2 = corr.entry e.1 e.2.1) ∧
  (∀ u, u ∈ G.nodes ↔ ∃ e ∈ G.edges, u = e.1 ∨ u = e.2.1)

end Topcorr

namespace Topcorr

/-- C4 counterexample: `threshold` is not idempotent as claimed.  On the
matrix `[[2]]` with threshold `3/2`, `binary = true`, `absolute = true`, one
application gives `[[1]]` (2 survives the threshold and is binarized), but a
second application zeroes that 1 since `|1| < 3/2`.  -/
theorem C4_threshold_not_idempotent :
    (threshold matTwo (3/2) true true).entry 0 0 = 1 ∧
    (threshold (threshold matTwo (3/2) true true) (3/2) true true).entry 0 0 = 0 := by
  constructor <;> norm_num [threshold, thresholdEntry, matTwo, abs]

/-- One-entry idempotence of the threshold transform, under `binary = false`
or `t ≤ 1`. -/
theorem thresholdEntry_idem (t : ℚ) (binary absolute : Bool)
    (h : binary = false ∨ t ≤ 1) (x : ℚ) :
    thresholdEntry t binary absolute (thresholdEntry t binary absolute x) =
      thresholdEntry t binary absolute x := by
  cases binary with
  | false =>
    simp only [thresholdEntry, Bool.false_eq_true, if_false]
    cases absolute with
    | true =>
      simp only [if_true]
      by_cases h1 : |x| < t
      · simp only [if_pos h1, abs_zero]
        split_ifs <;> rfl
      · simp only [if_neg h1, if_neg h1]
    | false =>
      simp only [Bool.false_eq_true, if_false]
      by_cases h1 : x < t
      · simp only [if_pos h1]
        split_ifs <;> rfl
      · simp only [if_neg h1, if_neg h1]
  | true =>
    rcases h with h | h
    · exact absurd h (by simp)
    -- the first application produces 0 or 1
    have hz : thresholdEntry t true absolute x = 0 ∨
        thresholdEntry t true absolute x = 1 := by
      simp only [thresholdEntry, if_true]
      set y := if absolute then (if |x| < t then 0 else x)
               else (if x < t then 0 else x) with hy
      by_cases h0 : 0 < |y|
      · right; simp [h0]
      · left
        have : y = 0 := by
          have := abs_nonneg y
          have : |y| = 0 := le_antisymm (not_lt.mp h0) (abs_nonneg y)
          exact abs_eq_zero.mp this
        simp [h0, this]
    rcases hz with hz | hz <;> rw [hz]
    · -- second application fixes 0
      simp only [thresholdEntry, if_true]
      split_ifs <;> simp_all
    · -- second application fixes 1 since t ≤ 1 means 1 survives
      have hna : ¬|(1 : ℚ)| < t := by rw [abs_one]; linarith
      have hnp : ¬(1 : ℚ) < t := by linarith
      simp only [thresholdEntry, if_true]
      cases absolute with
      | true => rw [if_pos rfl, if_neg hna]; norm_num
      | false =>
        simp only [Bool.false_eq_true, if_false]
        rw [if_neg hnp]; norm_num

/-- C4 (amended): `threshold` is idempotent whenever `binary = false` or the
threshold is at most 1 (the counterexample forces exactly this restriction:
with `binary = true` a surviving entry becomes 1, and a threshold above 1
then zeroes it on the second pass). -/
theorem C4_threshold_idempotent (corr : Mat) (t : ℚ) (binary absolute : Bool)
    (h : binary = false ∨ t ≤ 1) :
    threshold (threshold corr t binary absolute) t binary absolute =
      threshold corr t binary absolute := by
  ext i j
  · rfl
  exact thresholdEntry_idem t binary absolute h (corr.entry i j)

/-- C4 witness: the amended idempotence at a concrete input (`[[2]]`,
threshold 1, binary and absolute both true, where `t ≤ 1` holds). -/
theorem C4_threshold_idempotent_witness :
    threshold (threshold matTwo 1 true true) 1 true true =
      threshold matTwo 1 true true :=
  C4_threshold_idempotent matTwo 1 true true (Or.inr (by norm_num))

/-! ### List permutation utilities -/

theorem perm_cons_eraseIdx {α : Type} : ∀ (L : List α) (k : ℕ) (h : k < L.length),
    L.Perm (L[k] :: L.eraseIdx k)
  | a :: tl, 0, _ => by simp
  | a :: tl, k + 1, h => by
    have hk : k < tl.length := by simpa using h
    have ih := perm_cons_eraseIdx tl k hk
    simpa using ((ih.cons a).trans (List.Perm.swap _ _ _))

theorem set_perm_cons_eraseIdx {α : Type} : ∀ (L : List α) (k : ℕ) (x : α),
    k < L.length → (L.set k x).Perm (x :: L.eraseIdx k)
  | a :: tl, 0, x, _ => by simp
  | a :: tl, k + 1, x, h => by
    have hk : k < tl.length := by simpa using h
    have ih := set_perm_cons_eraseIdx tl k x hk
    simpa using ((ih.cons a).trans (List.Perm.swap _ _ _))

theorem set_eraseIdx_perm {α : Type} : ∀ (L : List α) (a b : ℕ) (x : α)
    (ha : a < L.length) (hb : b < L.length), a ≠ b →
    ∃ rest : List α, ((L.set a x).eraseIdx b).Perm (x :: rest) ∧
      L.Perm (L[a] :: L[b] :: rest)
  | [], a, b, x, ha, _, _ => absurd ha (by simp)
  | c :: tl, 0, 0, x, _, _, hne => absurd rfl hne
  | c :: tl, 0, b + 1, x, ha, hb, _ => by
    have hb' : b < tl.length := by simpa using hb
    refine ⟨tl.eraseIdx b, ?_, ?_⟩
    · simp
    · simpa using (perm_cons_eraseIdx tl b hb').cons c
  | c :: tl, a + 1, 0, x, ha, hb, _ => by
    have ha' : a < tl.length := by simpa using ha
    refine ⟨tl.eraseIdx a, ?_, ?_⟩
    · simpa using set_perm_cons_eraseIdx tl a x ha'
    · simpa using (((perm_cons_eraseIdx tl a ha').cons c).trans (List.Perm.swap _ _ _))
  | c :: tl, a + 1, b + 1, x, ha, hb, hne => by
    have ha' : a < tl.length := by simpa using ha
    have hb' : b < tl.length := by simpa using hb
    have hne' : a ≠ b := fun h => hne (by rw [h])
    obtain ⟨rest, h1, h2⟩ := set_eraseIdx_perm tl a b x ha' hb' hne'
    refine ⟨c :: rest, ?_, ?_⟩
    · simpa using ((h1.cons c).trans (List.Perm.swap _ _ _))
    · have step1 : (c :: tl).Perm (c :: tl[a] :: tl[b] :: rest) := h2.cons c
      have step2 : (c :: tl[a] :: tl[b] :: rest).Perm (tl[a] :: c :: tl[b] :: rest) :=
        List.Perm.swap _ _ _
      have step3 : (c :: tl[b] :: rest).Perm (tl[b] :: c :: rest) := List.Perm.swap _ _ _
      simpa using (step1.trans step2).trans (step3.cons _)

/-! ### Partition lemmas -/

theorem sameComp_congr {P Q : Partition} (h : P.Perm Q) (u v : ℕ) :
    sameComp P u v ↔ sameComp Q u v := by
  unfold sameComp
  constructor <;> rintro ⟨c, hc, hu, hv⟩
  · exact ⟨c, h.mem_iff.mp hc, hu, hv⟩
  · exact ⟨c, h.mem_iff.mpr hc, hu, hv⟩

theorem sameComp_symm {P : Partition} {u v : ℕ} (h : sameComp P u v) : sameComp P v u := by
  obtain ⟨c, hc, hu, hv⟩ := h
  exact ⟨c, hc, hv, hu⟩

theorem partValid_congr {p : ℕ} {P Q : Partition} (h : P.Perm Q) :
    PartValid p P → PartValid p Q := by
  rintro ⟨h1, h2, h3, h4⟩
  refine ⟨fun c hc => h1 c (h.mem_iff.mpr hc),
    fun c hc => h2 c (h.mem_iff.mpr hc),
    fun x hx => ?_,
    ((List.Perm.pairwise_iff (fun hd => Disjoint.symm hd)) h).mp h4⟩
  obtain ⟨c, hc, hxc⟩ := h3 x hx
  exact ⟨c, h.mem_iff.mp hc, hxc⟩

/-- In a pairwise-disjoint partition, two listed components sharing an
element are equal. -/
theorem part_mem_unique {P : Partition} (hdisj : P.Pairwise Disjoint)
    {c d : Finset ℕ} {x : ℕ} (hc : c ∈ P) (hd : d ∈ P) (hxc : x ∈ c) (hxd : x ∈ d) :
    c = d := by
  by_contra hne
  rcases List.getElem_of_mem hc with ⟨k, hk, rfl⟩
  rcases List.getElem_of_mem hd with ⟨m, hm, rfl⟩
  have hkm : k ≠ m := fun h => hne (by subst h; rfl)
  rw [List.pairwise_iff_getElem] at hdisj
  rcases Nat.lt_or_ge k m with hlt | hge
  · exact (Finset.disjoint_left.mp (hdisj k m hk hm hlt)) hxc hxd
  · have hlt : m < k := lt_of_le_of_ne hge (fun h => hkm h.symm)
    exact (Finset.disjoint_left.mp (hdisj m k hm hk hlt)) hxd hxc

/-- `PartRel P` is transitive on a valid partition. -/
theorem partRel_trans {p : ℕ} {P : Partition} (hP : PartValid p P) {u v w : ℕ}
    (h1 : PartRel P u v) (h2 : PartRel P v w) : PartRel P u w := by
  rcases h1 with rfl | ⟨c, hc, huc, hvc⟩
  · exact h2
  rcases h2 with rfl | ⟨d, hd, hvd, hwd⟩
  · exact Or.inr ⟨c, hc, huc, hvc⟩
  have : c = d := part_mem_unique hP.2.2.2 hc hd hvc hvd
  subst this
  exact Or.inr ⟨c, hc, huc, hwd⟩

theorem lastIdxContaining_some {i : ℕ} : ∀ {P : Partition} {k : ℕ},
    lastIdxContaining P i = some k → ∃ h : k < P.length, i ∈ P[k]
  | [], k, h => by simp [lastIdxContaining] at h
  | c :: rest, k, h => by
    unfold lastIdxContaining at h
    cases hrec : lastIdxContaining rest i with
    | some k' =>
      rw [hrec] at h
      obtain ⟨hk', hmem⟩ := lastIdxContaining_some hrec
      cases h
      exact ⟨by simpa using hk', by simpa using hmem⟩
    | none =>
      rw [hrec] at h
      by_cases hic : i ∈ c
      · rw [if_pos hic] at h
        cases h
        exact ⟨by simp, by simpa using hic⟩
      · rw [if_neg hic] at h
        cases h

theorem lastIdxContaining_isSome {i : ℕ} {c : Finset ℕ} :
    ∀ {P : Partition}, c ∈ P → i ∈ c → (lastIdxContaining P i).isSome = true
  | [], hc, _ => by simp at hc
  | d :: rest, hc, hi => by
    unfold lastIdxContaining
    cases hrec : lastIdxContaining rest i with
    | some k' => simp
    | none =>
      rcases List.mem_cons.mp hc with rfl | hcr
      · simp [hi]
      · have := lastIdxContaining_isSome hcr hi
        rw [hrec] at this
        simp at this

/-- Structure of `_merge_components` on a valid partition with `i`, `j` in
different components: up to permutation, the components containing `i` and
`j` are replaced by their union. -/
theorem merge_struct {p : ℕ} {P : Partition} (hP : PartValid p P) {i j : ℕ}
    (hi : i < p) (hj : j < p) (hne : ¬ sameComp P i j) :
    ∃ ci cj rest, ci ∈ P ∧ cj ∈ P ∧ i ∈ ci ∧ j ∈ cj ∧
      P.Perm (ci :: cj :: rest) ∧ (_merge_components P i j).Perm ((ci ∪ cj) :: rest) := by
  obtain ⟨c, hc, hic⟩ := hP.2.2.1 i hi
  obtain ⟨d, hd, hjd⟩ := hP.2.2.1 j hj
  have hsi := lastIdxContaining_isSome hc hic
  have hsj := lastIdxContaining_isSome hd hjd
  obtain ⟨a, ha⟩ := Option.isSome_iff_exists.mp hsi
  obtain ⟨b, hb⟩ := Option.isSome_iff_exists.mp hsj
  obtain ⟨hal, hia⟩ := lastIdxContaining_some ha
  obtain ⟨hbl, hjb⟩ := lastIdxContaining_some hb
  have hab : a ≠ b := by
    rintro rfl
    exact hne ⟨P[a], List.getElem_mem hal, hia, hjb⟩
  obtain ⟨rest, hperm1, hperm2⟩ :=
    set_eraseIdx_perm P a b (P[a] ∪ P[b]) hal hbl hab
  refine ⟨P[a], P[b], rest, List.getElem_mem hal, List.getElem_mem hbl, hia, hjb, hperm2, ?_⟩
  have hmc : _merge_components P i j =
      ((P.set a ((P.getD a ∅) ∪ (P.getD b ∅))).eraseIdx b) := by
    unfold _merge_components
    rw [ha, hb]
  rw [hmc, List.getD_eq_getElem P ∅ hal, List.getD_eq_getElem P ∅ hbl]
  exact hperm1

theorem inSame_iff (P : Partition) (i j : ℕ) :
    _in_same_component P i j = true ↔ sameComp P i j := by
  simp [_in_same_component, sameComp, List.any_eq_true]

theorem merge_length {p : ℕ} {P : Partition} (hP : PartValid p P) {i j : ℕ}
    (hi : i < p) (hj : j < p) (hne : ¬ sameComp P i j) :
    (_merge_components P i j).length + 1 = P.length := by
  obtain ⟨ci, cj, rest, _, _, _, _, hp1, hp2⟩ := merge_struct hP hi hj hne
  rw [hp2.length_eq, hp1.length_eq]
  simp

theorem merge_valid {p : ℕ} {P : Partition} (hP : PartValid p P) {i j : ℕ}
    (hi : i < p) (hj : j < p) (hne : ¬ sameComp P i j) :
    PartValid p (_merge_components P i j) := by
  obtain ⟨ci, cj, rest, hciP, hcjP, hici, hjcj, hp1, hp2⟩ := merge_struct hP hi hj hne
  have hold : PartValid p (ci :: cj :: rest) := partValid_congr hp1 hP
  obtain ⟨hne', hbd, hcov, hdisj⟩ := hold
  have hdisj1 := List.pairwise_cons.mp hdisj
  have hdisj2 := List.pairwise_cons.mp hdisj1.2
  refine partValid_congr hp2.symm ⟨?_, ?_, ?_, ?_⟩
  · intro c hc
    rcases List.mem_cons.mp hc with h | hc
    · obtain ⟨y, hy⟩ := hne' ci (by simp)
      exact ⟨y, by rw [h]; exact Finset.mem_union_left _ hy⟩
    · exact hne' c (by simp [hc])
  · intro c hc x hx
    rcases List.mem_cons.mp hc with h | hc
    · rw [h] at hx
      rcases Finset.mem_union.mp hx with h' | h'
      · exact hbd ci (by simp) x h'
      · exact hbd cj (by simp) x h'
    · exact hbd c (by simp [hc]) x hx
  · intro x hx
    obtain ⟨c, hc, hxc⟩ := hcov x hx
    rcases List.mem_cons.mp hc with h | hc2
    · exact ⟨ci ∪ cj, by simp, by rw [h] at hxc; exact Finset.mem_union_left _ hxc⟩
    rcases List.mem_cons.mp hc2 with h | hc3
    · exact ⟨ci ∪ cj, by simp, by rw [h] at hxc; exact Finset.mem_union_right _ hxc⟩
    · exact ⟨c, by simp [hc3], hxc⟩
  · refine List.pairwise_cons.mpr ⟨?_, hdisj2.2⟩
    intro d hd
    exact Finset.disjoint_union_left.mpr ⟨hdisj1.1 d (by simp [hd]), hdisj2.1 d hd⟩

theorem merge_sameComp_iff {p : ℕ} {P : Partition} (hP : PartValid p P) {i j : ℕ}
    (hi : i < p) (hj : j < p) (hne : ¬ sameComp P i j) (u v : ℕ) :
    sameComp (_merge_components P i j) u v ↔
      sameComp P u v ∨ (sameComp P u i ∧ sameComp P j v) ∨
        (sameComp P u j ∧ sameComp P i v) := by
  obtain ⟨ci, cj, rest, hciP, hcjP, hici, hjcj, hp1, hp2⟩ := merge_struct hP hi hj hne
  rw [sameComp_congr hp2 u v]
  constructor
  · rintro ⟨c, hc, hu, hv⟩
    rcases List.mem_cons.mp hc with rfl | hc
    · rcases Finset.mem_union.mp hu with hu | hu <;> rcases Finset.mem_union.mp hv with hv | hv
      · exact Or.inl ⟨ci, hciP, hu, hv⟩
      · exact Or.inr (Or.inl ⟨⟨ci, hciP, hu, hici⟩, ⟨cj, hcjP, hjcj, hv⟩⟩)
      · exact Or.inr (Or.inr ⟨⟨cj, hcjP, hu, hjcj⟩, ⟨ci, hciP, hici, hv⟩⟩)
      · exact Or.inl ⟨cj, hcjP, hu, hv⟩
    · have hcP : c ∈ P := hp1.mem_iff.mpr (by simp [hc])
      exact Or.inl ⟨c, hcP, hu, hv⟩
  · rintro (⟨d, hd, hu, hv⟩ | ⟨⟨d, hd, hu, hdi⟩, ⟨e, he, hje, hv⟩⟩ |
      ⟨⟨d, hd, hu, hdj⟩, ⟨e, he, hie, hv⟩⟩)
    · have hmem : d ∈ ci :: cj :: rest := hp1.mem_iff.mp hd
      rcases List.mem_cons.mp hmem with h | hmem2
      · exact ⟨ci ∪ cj, by simp,
          Finset.mem_union_left _ (h ▸ hu), Finset.mem_union_left _ (h ▸ hv)⟩
      rcases List.mem_cons.mp hmem2 with h | hmem3
      · exact ⟨ci ∪ cj, by simp,
          Finset.mem_union_right _ (h ▸ hu), Finset.mem_union_right _ (h ▸ hv)⟩
      · exact ⟨d, by simp [hmem3], hu, hv⟩
    · have hd' : d = ci := part_mem_unique hP.2.2.2 hd hciP hdi hici
      have he' : e = cj := part_mem_unique hP.2.2.2 he hcjP hje hjcj
      exact ⟨ci ∪ cj, by simp,
        Finset.mem_union_left _ (hd' ▸ hu), Finset.mem_union_right _ (he' ▸ hv)⟩
    · have hd' : d = cj := part_mem_unique hP.2.2.2 hd hcjP hdj hjcj
      have he' : e = ci := part_mem_unique hP.2.2.2 he hciP hie hici
      exact ⟨ci ∪ cj, by simp,
        Finset.mem_union_right _ (hd' ▸ hu), Finset.mem_union_left _ (he' ▸ hv)⟩

/-! ### One greedy step on the partition -/

theorem partStepPair_skip {P : Partition} {i j : ℕ}
    (h : i = j ∨ sameComp P i j) : partStepPair P i j = P := by
  unfold partStepPair
  by_cases h1 : i = j
  · rw [if_pos h1]
  · rw [if_neg h1, if_pos]
    rcases h with h | h
    · exact absurd h h1
    · exact (inSame_iff P i j).mpr h

theorem partStepPair_accept {P : Partition} {i j : ℕ}
    (h1 : i ≠ j) (h2 : ¬ sameComp P i j) :
    partStepPair P i j = _merge_components P i j := by
  unfold partStepPair
  rw [if_neg h1, if_neg (by simpa [inSame_iff] using h2)]

theorem partStepPair_valid {p : ℕ} {P : Partition} (hP : PartValid p P) {i j : ℕ}
    (hi : i < p) (hj : j < p) : PartValid p (partStepPair P i j) := by
  by_cases h1 : i = j
  · rw [partStepPair_skip (Or.inl h1)]; exact hP
  by_cases h2 : sameComp P i j
  · rw [partStepPair_skip (Or.inr h2)]; exact hP
  · rw [partStepPair_accept h1 h2]; exact merge_valid hP hi hj h2

theorem sameComp_partStepPair_mono {p : ℕ} {P : Partition} (hP : PartValid p P) {i j : ℕ}
    (hi : i < p) (hj : j < p) {u v : ℕ} (h : sameComp P u v) :
    sameComp (partStepPair P i j) u v := by
  by_cases h1 : i = j
  · rwa [partStepPair_skip (Or.inl h1)]
  by_cases h2 : sameComp P i j
  · rwa [partStepPair_skip (Or.inr h2)]
  · rw [partStepPair_accept h1 h2, merge_sameComp_iff hP hi hj h2]
    exact Or.inl h

theorem sameComp_refl_of_lt {p : ℕ} {P : Partition} (hP : PartValid p P) {u : ℕ}
    (hu : u < p) : sameComp P u u := by
  obtain ⟨c, hc, huc⟩ := hP.2.2.1 u hu
  exact ⟨c, hc, huc, huc⟩

theorem sameComp_partStepPair_self {p : ℕ} {P : Partition} (hP : PartValid p P) {i j : ℕ}
    (hi : i < p) (hj : j < p) (hne : i ≠ j) :
    sameComp (partStepPair P i j) i j := by
  by_cases h2 : sameComp P i j
  · rwa [partStepPair_skip (Or.inr h2)]
  · rw [partStepPair_accept hne h2, merge_sameComp_iff hP hi hj h2]
    exact Or.inr (Or.inl ⟨sameComp_refl_of_lt hP hi, sameComp_refl_of_lt hP hj⟩)

/-! ### Folding edge lists into partitions -/

theorem singletonParts_valid (p : ℕ) : PartValid p (singletonParts p) := by
  refine ⟨?_, ?_, ?_, ?_⟩
  · intro c hc
    obtain ⟨x, _, rfl⟩ := List.mem_map.mp hc
    exact ⟨x, by simp⟩
  · intro c hc x hx
    obtain ⟨y, hy, rfl⟩ := List.mem_map.mp hc
    rw [Finset.mem_singleton] at hx
    subst hx
    exact List.mem_range.mp hy
  · intro x hx
    exact ⟨{x}, List.mem_map.mpr ⟨x, List.mem_range.mpr hx, rfl⟩, Finset.mem_singleton_self x⟩
  · refine List.Pairwise.map _ ?_ (List.pairwise_lt_range p)
    intro a b hab
    simpa using Ne.symm (Nat.ne_of_lt hab)

theorem sameComp_singletonParts {p u v : ℕ} :
    sameComp (singletonParts p) u v ↔ u = v ∧ u < p := by
  constructor
  · rintro ⟨c, hc, hu, hv⟩
    obtain ⟨x, hx, rfl⟩ := List.mem_map.mp hc
    rw [Finset.mem_singleton] at hu hv
    exact ⟨hu.trans hv.symm, hu ▸ List.mem_range.mp hx⟩
  · rintro ⟨rfl, hu⟩
    exact ⟨{u}, List.mem_map.mpr ⟨u, List.mem_range.mpr hu, rfl⟩, by simp, by simp⟩

theorem partFoldPairs_nil (P : Partition) : partFoldPairs P [] = P := rfl

theorem partFoldPairs_cons (P : Partition) (e : ℕ × ℕ) (l : List (ℕ × ℕ)) :
    partFoldPairs P (e :: l) = partFoldPairs (partStepPair P e.1 e.2) l := rfl

theorem partFoldPairs_append (P : Partition) (l1 l2 : List (ℕ × ℕ)) :
    partFoldPairs P (l1 ++ l2) = partFoldPairs (partFoldPairs P l1) l2 :=
  List.foldl_append _ _ _ _

theorem partFoldPairs_valid {p : ℕ} : ∀ {l : List (ℕ × ℕ)} {P : Partition},
    PartValid p P → (∀ e ∈ l, e.1 < p ∧ e.2 < p) → PartValid p (partFoldPairs P l)
  | [], P, hP, _ => hP
  | e :: l, P, hP, hb => by
    rw [partFoldPairs_cons]
    exact partFoldPairs_valid
      (partStepPair_valid hP (hb e (by simp)).1 (hb e (by simp)).2)
      (fun f hf => hb f (by simp [hf]))

theorem sameComp_partFoldPairs_mono {p : ℕ} : ∀ {l : List (ℕ × ℕ)} {P : Partition},
    PartValid p P → (∀ e ∈ l, e.1 < p ∧ e.2 < p) → ∀ {u v : ℕ},
    sameComp P u v → sameComp (partFoldPairs P l) u v
  | [], P, _, _, _, _, h => h
  | e :: l, P, hP, hb, u, v, h => by
    rw [partFoldPairs_cons]
    exact sameComp_partFoldPairs_mono
      (partStepPair_valid hP (hb e (by simp)).1 (hb e (by simp)).2)
      (fun f hf => hb f (by simp [hf]))
      (sameComp_partStepPair_mono hP (hb e (by simp)).1 (hb e (by simp)).2 h)

theorem sameComp_partFoldPairs_of_mem {p : ℕ} : ∀ {l : List (ℕ × ℕ)} {P : Partition},
    PartValid p P → (∀ e ∈ l, e.1 < p ∧ e.2 < p) → ∀ {a b : ℕ},
    (a, b) ∈ l → a ≠ b → sameComp (partFoldPairs P l) a b
  | [], _, _, _, _, _, hmem, _ => by simp at hmem
  | e :: l, P, hP, hb, a, b, hmem, hne => by
    rw [partFoldPairs_cons]
    have he1 : e.1 < p := (hb e (by simp)).1
    have he2 : e.2 < p := (hb e (by simp)).2
    have hstepv := partStepPair_valid hP he1 he2
    have hbl : ∀ f ∈ l, f.1 < p ∧ f.2 < p := fun f hf => hb f (by simp [hf])
    rcases List.mem_cons.mp hmem with h | h
    · have h1 : e.1 = a := by rw [← h]
      have h2 : e.2 = b := by rw [← h]
      subst h1; subst h2
      exact sameComp_partFoldPairs_mono hstepv hbl
        (sameComp_partStepPair_self hP he1 he2 hne)
    · exact sameComp_partFoldPairs_of_mem hstepv hbl h hne

/-! ### Reachability: adding one undirected edge -/

/-- Decomposition of reachability after one undirected edge `{i, j}` is
added to a relation: a walk either avoids the new edge or splits at it. -/
theorem rtg_insert_pair {r : ℕ → ℕ → Prop} {i j : ℕ} {u v : ℕ}
    (h : Relation.ReflTransGen (fun a b => r a b ∨ (a = i ∧ b = j) ∨ (a = j ∧ b = i)) u v) :
    Relation.ReflTransGen r u v ∨
      (Relation.ReflTransGen r u i ∧ Relation.ReflTransGen r j v) ∨
      (Relation.ReflTransGen r u j ∧ Relation.ReflTransGen r i v) := by
  induction h with
  | refl => exact Or.inl Relation.ReflTransGen.refl
  | tail hab hbc ih =>
    rcases hbc with hr | ⟨rfl, rfl⟩ | ⟨rfl, rfl⟩
    · rcases ih with h1 | ⟨h1, h2⟩ | ⟨h1, h2⟩
      · exact Or.inl (h1.tail hr)
      · exact Or.inr (Or.inl ⟨h1, h2.tail hr⟩)
      · exact Or.inr (Or.inr ⟨h1, h2.tail hr⟩)
    · rcases ih with h1 | ⟨h1, h2⟩ | ⟨h1, h2⟩
      · exact Or.inr (Or.inl ⟨h1, Relation.ReflTransGen.refl⟩)
      · exact Or.inr (Or.inl ⟨h1, Relation.ReflTransGen.refl⟩)
      · exact Or.inl h1
    · rcases ih with h1 | ⟨h1, h2⟩ | ⟨h1, h2⟩
      · exact Or.inr (Or.inr ⟨h1, Relation.ReflTransGen.refl⟩)
      · exact Or.inl h1
      · exact Or.inr (Or.inr ⟨h1, Relation.ReflTransGen.refl⟩)

theorem rtg_congr {r s : ℕ → ℕ → Prop} (h : ∀ a b, r a b ↔ s a b) {u v : ℕ} :
    Relation.ReflTransGen r u v ↔ Relation.ReflTransGen s u v :=
  ⟨Relation.ReflTransGen.mono (fun a b hr => (h a b).mp hr),
   Relation.ReflTransGen.mono (fun a b hs => (h a b).mpr hs)⟩

theorem rtg_symm_of_symm {r : ℕ → ℕ → Prop} (hs : ∀ a b, r a b → r b a) {u v : ℕ}
    (h : Relation.ReflTransGen r u v) : Relation.ReflTransGen r v u := by
  induction h with
  | refl => exact Relation.ReflTransGen.refl
  | tail _ hbc ih => exact Relation.ReflTransGen.head (hs _ _ hbc) ih

/-! ### Graph-level lemmas -/

theorem edgeMatches_swap (u v : ℕ) (e : ℕ × ℕ × ℚ) :
    edgeMatches u v e = edgeMatches v u e := by
  simp only [edgeMatches]
  rcases e with ⟨a, b, w⟩
  simp [Bool.or_comm]

theorem hasEdgeB_swap (G : NXGraph) (u v : ℕ) : G.hasEdgeB u v = G.hasEdgeB v u := by
  unfold NXGraph.hasEdgeB
  congr 1
  funext e
  exact edgeMatches_swap u v e

theorem adj_symm {G : NXGraph} {u v : ℕ} (h : G.Adj u v) : G.Adj v u := by
  unfold NXGraph.Adj at h ⊢
  rwa [hasEdgeB_swap]

theorem reach_symm {G : NXGraph} {u v : ℕ} (h : G.Reach u v) : G.Reach v u :=
  rtg_symm_of_symm (fun _ _ hr => adj_symm hr) h

theorem addNode_edges (G : NXGraph) (u : ℕ) : (G.addNode u).edges = G.edges := by
  unfold NXGraph.addNode
  split_ifs <;> rfl

theorem edgeMatches_triple (a b i j : ℕ) (w : ℚ) :
    edgeMatches a b (i, j, w) = true ↔ (a = i ∧ b = j) ∨ (a = j ∧ b = i) := by
  unfold edgeMatches
  simp only [Bool.or_eq_true, Bool.and_eq_true, decide_eq_true_eq]
  constructor <;> (rintro (⟨rfl, rfl⟩ | ⟨rfl, rfl⟩) <;> simp)

theorem edgeMatches_update (i j a b : ℕ) (w : ℚ) (e : ℕ × ℕ × ℚ) :
    edgeMatches a b (if edgeMatches i j e then (e.1, e.2.1, w) else e) = edgeMatches a b e := by
  split_ifs with h
  · rcases e with ⟨x, y, wx⟩
    rfl
  · rfl

theorem addEdge_edges (G : NXGraph) (i j : ℕ) (w : ℚ)
    (h : G.hasEdgeB i j = false) :
    (G.addEdge i j w).edges = G.edges ++ [(i, j, w)] := by
  unfold NXGraph.addEdge
  rw [if_neg (by simp [h])]
  simp [addNode_edges]

theorem addEdge_edges_update (G : NXGraph) (i j : ℕ) (w : ℚ)
    (h : G.hasEdgeB i j = true) :
    (G.addEdge i j w).edges =
      G.edges.map (fun e => if edgeMatches i j e then (e.1, e.2.1, w) else e) := by
  unfold NXGraph.addEdge
  rw [if_pos h]
  simp [addNode_edges]

theorem hasEdgeB_addEdge (G : NXGraph) (i j : ℕ) (w : ℚ) (a b : ℕ) :
    (G.addEdge i j w).hasEdgeB a b = true ↔
      G.hasEdgeB a b = true ∨ ((a = i ∧ b = j) ∨ (a = j ∧ b = i)) := by
  by_cases hij : G.hasEdgeB i j = true
  · have hG1 : (G.addEdge i j w).hasEdgeB a b = G.hasEdgeB a b := by
      show ((G.addEdge i j w).edges.any (edgeMatches a b)) = (G.edges.any (edgeMatches a b))
      rw [addEdge_edges_update G i j w hij, List.any_map]
      congr 1
      funext e
      exact edgeMatches_update i j a b w e
    rw [hG1]
    constructor
    · exact Or.inl
    · rintro (h | h)
      · exact h
      · rcases h with ⟨rfl, rfl⟩ | ⟨rfl, rfl⟩
        · exact hij
        · rwa [hasEdgeB_swap]
  · rw [Bool.not_eq_true] at hij
    show ((G.addEdge i j w).edges.any (edgeMatches a b)) = true ↔ _
    rw [addEdge_edges G i j w hij, List.any_append]
    simp only [List.any_cons, List.any_nil, Bool.or_false, Bool.or_eq_true]
    rw [edgeMatches_triple]
    rfl

theorem reach_edges_congr {G H : NXGraph} (h : G.edges = H.edges) {u v : ℕ} :
    G.Reach u v ↔ H.Reach u v := by
  unfold NXGraph.Reach
  refine rtg_congr (fun a b => ?_)
  unfold NXGraph.Adj NXGraph.hasEdgeB
  rw [h]

theorem reach_no_edges {G : NXGraph} (h : G.edges = []) {u v : ℕ} :
    G.Reach u v ↔ u = v := by
  constructor
  · intro hr
    induction hr with
    | refl => rfl
    | tail _ hbc _ =>
      unfold NXGraph.Adj NXGraph.hasEdgeB at hbc
      rw [h] at hbc
      simp at hbc
  · rintro rfl
    exact Relation.ReflTransGen.refl

theorem hasEdgeB_of_mem {G : NXGraph} {e : ℕ × ℕ × ℚ} (h : e ∈ G.edges) :
    G.hasEdgeB e.1 e.2.1 = true := by
  unfold NXGraph.hasEdgeB
  rw [List.any_eq_true]
  refine ⟨e, h, ?_⟩
  unfold edgeMatches
  simp

theorem hasEdgeB_removeEdge_le {G : NXGraph} {a b u v : ℕ}
    (h : (G.removeEdge a b).hasEdgeB u v = true) : G.hasEdgeB u v = true := by
  unfold NXGraph.hasEdgeB at h ⊢
  unfold NXGraph.removeEdge at h
  rw [List.any_eq_true] at h ⊢
  obtain ⟨e, he, hm⟩ := h
  exact ⟨e, (List.mem_filter.mp he).1, hm⟩

theorem reach_removeEdge_le {G : NXGraph} {a b u v : ℕ}
    (h : (G.removeEdge a b).Reach u v) : G.Reach u v :=
  Relation.ReflTransGen.mono (fun _ _ hr => hasEdgeB_removeEdge_le hr) h

theorem reach_addEdge_le {G : NXGraph} {i j : ℕ} {w : ℚ} {u v : ℕ}
    (h : G.Reach u v) : (G.addEdge i j w).Reach u v :=
  Relation.ReflTransGen.mono
    (fun _ _ hr => (hasEdgeB_addEdge G i j w _ _).mpr (Or.inl hr)) h

theorem edges_all_not_matching {G : NXGraph} {i j : ℕ}
    (h : G.hasEdgeB i j = false) : ∀ e ∈ G.edges, edgeMatches i j e = false := by
  intro e he
  by_contra hne
  rw [Bool.not_eq_false] at hne
  have : G.hasEdgeB i j = true := by
    unfold NXGraph.hasEdgeB
    rw [List.any_eq_true]
    exact ⟨e, he, hne⟩
  rw [h] at this
  exact absurd this (by simp)

theorem removeEdge_addEdge_new (G : NXGraph) (i j : ℕ) (w : ℚ)
    (h : G.hasEdgeB i j = false) :
    ((G.addEdge i j w).removeEdge i j).edges = G.edges := by
  show ((G.addEdge i j w).edges.filter (fun e => !(edgeMatches i j e))) = G.edges
  rw [addEdge_edges G i j w h, List.filter_append]
  have h1 : G.edges.filter (fun e => !(edgeMatches i j e)) = G.edges := by
    apply List.filter_eq_self.mpr
    intro e he
    rw [edges_all_not_matching h e he]
    rfl
  have h2 : ([(i, j, w)] : List (ℕ × ℕ × ℚ)).filter (fun e => !(edgeMatches i j e)) = [] := by
    have : edgeMatches i j (i, j, w) = true := (edgeMatches_triple i j i j w).mpr (by simp)
    simp [List.filter, this]
  rw [h1, h2, List.append_nil]

theorem removeEdge_addEdge_other (G : NXGraph) (i j a b : ℕ) (w : ℚ)
    (hnew : G.hasEdgeB i j = false) (hne : edgeMatches a b (i, j, w) = false) :
    ((G.addEdge i j w).removeEdge a b).edges = (G.removeEdge a b).edges ++ [(i, j, w)] := by
  show ((G.addEdge i j w).edges.filter (fun e => !(edgeMatches a b e))) = _
  rw [addEdge_edges G i j w hnew, List.filter_append]
  congr 1
  simp [List.filter, hne]

theorem partRel_symm {P : Partition} {u v : ℕ} (h : PartRel P u v) : PartRel P v u := by
  rcases h with rfl | h
  · exact Or.inl rfl
  · exact Or.inr (sameComp_symm h)

/-- The greedy accept step preserves the loop invariant. -/
theorem mstInv_accept {corr : Mat} {P : Partition} {G : NXGraph} (hInv : MstInv corr P G)
    {i j : ℕ} (hi : i < corr.p) (hj : j < corr.p) (hij : i ≠ j)
    (hsame : ¬ sameComp P i j) :
    MstInv corr (_merge_components P i j) (G.addEdge i j (corr.entry i j)) := by
  obtain ⟨hval, hreach, hacy, hcount, hedges, hnodes⟩ := hInv
  set w := corr.entry i j with hw
  -- the new pair is not yet an edge
  have hnew : G.hasEdgeB i j = false := by
    by_contra hc
    rw [Bool.not_eq_false] at hc
    have : G.Reach i j := Relation.ReflTransGen.single hc
    rcases (hreach i j).mp this with h | h
    · exact hij h
    · exact hsame h
  have hvalid' := merge_valid hval hi hj hsame
  have hlen := merge_length hval hi hj hsame
  -- reachability after the step
  have hadj : ∀ a b, (G.addEdge i j w).Adj a b ↔
      (G.Adj a b ∨ (a = i ∧ b = j) ∨ (a = j ∧ b = i)) := by
    intro a b
    exact hasEdgeB_addEdge G i j w a b
  have hreach' : ∀ u v, (G.addEdge i j w).Reach u v ↔
      PartRel (_merge_components P i j) u v := by
    intro u v
    constructor
    · intro h
      have hdec := rtg_insert_pair ((rtg_congr hadj).mp h)
      have hmono : ∀ x y, PartRel P x y → PartRel (_merge_components P i j) x y := by
        rintro x y (rfl | hs)
        · exact Or.inl rfl
        · exact Or.inr ((merge_sameComp_iff hval hi hj hsame x y).mpr (Or.inl hs))
      have hijrel : PartRel (_merge_components P i j) i j := by
        refine Or.inr ((merge_sameComp_iff hval hi hj hsame i j).mpr ?_)
        exact Or.inr (Or.inl ⟨sameComp_refl_of_lt hval hi, sameComp_refl_of_lt hval hj⟩)
      rcases hdec with h1 | ⟨h1, h2⟩ | ⟨h1, h2⟩
      · exact hmono _ _ ((hreach u v).mp h1)
      · exact partRel_trans hvalid' (hmono _ _ ((hreach u i).mp h1))
          (partRel_trans hvalid' hijrel (hmono _ _ ((hreach j v).mp h2)))
      · exact partRel_trans hvalid' (hmono _ _ ((hreach u j).mp h1))
          (partRel_trans hvalid' (partRel_symm hijrel) (hmono _ _ ((hreach i v).mp h2)))
    · intro h
      rcases h with rfl | hs
      · exact Relation.ReflTransGen.refl
      · rcases (merge_sameComp_iff hval hi hj hsame u v).mp hs with h1 | ⟨h1, h2⟩ | ⟨h1, h2⟩
        · exact reach_addEdge_le ((hreach u v).mpr (Or.inr h1))
        · have r1 : (G.addEdge i j w).Reach u i :=
            reach_addEdge_le ((hreach u i).mpr (Or.inr h1))
          have r2 : (G.addEdge i j w).Reach j v :=
            reach_addEdge_le ((hreach j v).mpr (Or.inr h2))
          have rstep : (G.addEdge i j w).Adj i j := (hadj i j).mpr (Or.inr (Or.inl ⟨rfl, rfl⟩))
          exact (r1.tail rstep).trans r2
        · have r1 : (G.addEdge i j w).Reach u j :=
            reach_addEdge_le ((hreach u j).mpr (Or.inr h1))
          have r2 : (G.addEdge i j w).Reach i v :=
            reach_addEdge_le ((hreach i v).mpr (Or.inr h2))
          have rstep : (G.addEdge i j w).Adj j i := (hadj j i).mpr (Or.inr (Or.inr ⟨rfl, rfl⟩))
          exact (r1.tail rstep).trans r2
  refine ⟨hvalid', hreach', ?_, ?_, ?_, ?_⟩
  · -- acyclicity
    intro e he
    rw [addEdge_edges G i j w hnew, List.mem_append] at he
    rcases he with he | he
    · -- an old edge stays a bridge
      intro hr
      have hem : edgeMatches e.1 e.2.1 (i, j, w) = false := by
        by_contra hc
        rw [Bool.not_eq_false, edgeMatches_triple] at hc
        have hadje : G.Reach e.1 e.2.1 := Relation.ReflTransGen.single (hasEdgeB_of_mem he)
        have hpr : PartRel P e.1 e.2.1 := (hreach _ _).mp hadje
        have hne := (hedges e he).2.2.1
        have hsij : sameComp P i j := by
          rcases hpr with h | h
          · exact absurd h hne
          · rcases hc with ⟨h1, h2⟩ | ⟨h1, h2⟩
            · rw [h1, h2] at h; exact h
            · rw [h1, h2] at h; exact sameComp_symm h
        exact hsame hsij
      have hedgeeq := removeEdge_addEdge_other G i j e.1 e.2.1 w hnew hem
      have hH : ((G.removeEdge e.1 e.2.1).addEdge i j w).edges =
          (G.removeEdge e.1 e.2.1).edges ++ [(i, j, w)] := by
        apply addEdge_edges
        by_contra hc
        rw [Bool.not_eq_false] at hc
        have := hasEdgeB_removeEdge_le hc
        rw [hnew] at this
        exact absurd this (by simp)
      have hr2 : ((G.removeEdge e.1 e.2.1).addEdge i j w).Reach e.1 e.2.1 :=
        (reach_edges_congr (hedgeeq.trans hH.symm)).mp hr
      have hadj2 : ∀ a b, ((G.removeEdge e.1 e.2.1).addEdge i j w).Adj a b ↔
          ((G.removeEdge e.1 e.2.1).Adj a b ∨ (a = i ∧ b = j) ∨ (a = j ∧ b = i)) :=
        fun a b => hasEdgeB_addEdge _ i j w a b
      have hdec := rtg_insert_pair ((rtg_congr hadj2).mp hr2)
      have hpre : PartRel P e.1 e.2.1 :=
        (hreach _ _).mp (Relation.ReflTransGen.single (hasEdgeB_of_mem he))
      have hne := (hedges e he).2.2.1
      rcases hdec with h1 | ⟨h1, h2⟩ | ⟨h1, h2⟩
      · exact hacy e he h1
      · -- e.1 ⇝ i and j ⇝ e.2.1 without e: forces i ≈ j
        have g1 : PartRel P e.1 i := (hreach _ _).mp (reach_removeEdge_le h1)
        have g2 : PartRel P j e.2.1 := (hreach _ _).mp (reach_removeEdge_le h2)
        have : PartRel P i j :=
          partRel_trans hval (partRel_symm g1)
            (partRel_trans hval hpre (partRel_symm g2))
        rcases this with h | h
        · exact hij h
        · exact hsame h
      · have g1 : PartRel P e.1 j := (hreach _ _).mp (reach_removeEdge_le h1)
        have g2 : PartRel P i e.2.1 := (hreach _ _).mp (reach_removeEdge_le h2)
        have : PartRel P i j :=
          partRel_trans hval g2
            (partRel_trans hval (partRel_symm hpre) g1)
        rcases this with h | h
        · exact hij h
        · exact hsame h
    · -- the new edge is a bridge
      rw [List.mem_singleton] at he
      subst he
      intro hr
      have : G.Reach i j :=
        (reach_edges_congr (removeEdge_addEdge_new G i j w hnew)).mp hr
      rcases (hreach i j).mp this with h | h
      · exact hij h
      · exact hsame h
  · -- edge count
    have : (G.addEdge i j w).edgeCount = G.edgeCount + 1 := by
      unfold NXGraph.edgeCount
      rw [addEdge_edges G i j w hnew]
      simp
    omega
  · -- edge endpoints, weights
    intro e he
    rw [addEdge_edges G i j w hnew, List.mem_append] at he
    rcases he with he | he
    · exact hedges e he
    · rw [List.mem_singleton] at he
      subst he
      exact ⟨hi, hj, hij, rfl⟩
  · -- node list is exactly the endpoints
    intro u
    have hn : (G.addEdge i j w).nodes = ((G.addNode i).addNode j).nodes := by
      unfold NXGraph.addEdge
      split_ifs <;> rfl
    have hmemadd : ∀ (H : NXGraph) (x y : ℕ), (y ∈ (H.addNode x).nodes ↔ y ∈ H.nodes ∨ y = x) := by
      intro H x y
      unfold NXGraph.addNode
      split_ifs with hx
      · constructor
        · exact Or.inl
        · rintro (h | rfl)
          · exact h
          · exact hx
      · simp
    rw [hn, hmemadd, hmemadd, hnodes u, addEdge_edges G i j w hnew]
    constructor
    · rintro ((⟨e, he, hu⟩ | hui) | huj)
      · exact ⟨e, by simp [he], hu⟩
      · exact ⟨(i, j, w), by simp, Or.inl hui⟩
      · exact ⟨(i, j, w), by simp, Or.inr huj⟩
    · rintro ⟨e, he, hu⟩
      rw [List.mem_append] at he
      rcases he with he | he
      · exact Or.inl (Or.inl ⟨e, he, hu⟩)
      · rw [List.mem_singleton] at he
        subst he
        rcases hu with rfl | rfl
        · exact Or.inl (Or.inr rfl)
        · exact Or.inr rfl

/-! ### The greedy loop: unfolding equations and the maintained invariant -/

theorem kruskalNoBreak_cons (corr : Mat) (v : ℕ) (rest : List ℕ) (P : Partition)
    (G : NXGraph) :
    kruskalNoBreak corr (v :: rest) P G =
      (if flatI corr.p v = flatJ corr.p v then kruskalNoBreak corr rest P G
       else if _in_same_component P (flatI corr.p v) (flatJ corr.p v) then
         kruskalNoBreak corr rest P G
       else kruskalNoBreak corr rest (_merge_components P (flatI corr.p v) (flatJ corr.p v))
         (G.addEdge (flatI corr.p v) (flatJ corr.p v)
           (corr.entry (flatI corr.p v) (flatJ corr.p v)))) := rfl

theorem mstLoop_cons (corr : Mat) (v : ℕ) (rest : List ℕ) (P : Partition) (G : NXGraph) :
    mstLoop corr (v :: rest) P G =
      (if flatI corr.p v = flatJ corr.p v then mstLoop corr rest P G
       else if _in_same_component P (flatI corr.p v) (flatJ corr.p v) then
         mstLoop corr rest P G
       else
         (if (G.addEdge (flatI corr.p v) (flatJ corr.p v)
               (corr.entry (flatI corr.p v) (flatJ corr.p v))).edgeCount = corr.p - 1 then
            G.addEdge (flatI corr.p v) (flatJ corr.p v)
              (corr.entry (flatI corr.p v) (flatJ corr.p v))
          else mstLoop corr rest (_merge_components P (flatI corr.p v) (flatJ corr.p v))
            (G.addEdge (flatI corr.p v) (flatJ corr.p v)
              (corr.entry (flatI corr.p v) (flatJ corr.p v))))) := rfl

theorem acceptedFrom_cons (corr : Mat) (v : ℕ) (rest : List ℕ) (P : Partition) :
    acceptedFrom corr (v :: rest) P =
      (if flatI corr.p v = flatJ corr.p v then acceptedFrom corr rest P
       else if _in_same_component P (flatI corr.p v) (flatJ corr.p v) then
         acceptedFrom corr rest P
       else v :: acceptedFrom corr rest
         (_merge_components P (flatI corr.p v) (flatJ corr.p v))) := rfl

theorem partsAfter_cons (corr : Mat) (v : ℕ) (rest : List ℕ) (P : Partition) :
    partsAfter corr (v :: rest) P =
      partsAfter corr rest (partStepPair P (flatI corr.p v) (flatJ corr.p v)) := rfl

theorem partStepPair_flat_eq {corr : Mat} {P : Partition} {v : ℕ}
    (hv : v < corr.p * corr.p) :
    partStepPair P (flatI corr.p v) (flatJ corr.p v) =
      (if flatI corr.p v = flatJ corr.p v then P
       else if _in_same_component P (flatI corr.p v) (flatJ corr.p v) then P
       else _merge_components P (flatI corr.p v) (flatJ corr.p v)) := rfl

theorem flat_bounds {p v : ℕ} (hv : v < p * p) : flatI p v < p ∧ flatJ p v < p := by
  have hp : 0 < p := by
    rcases Nat.eq_zero_or_pos p with rfl | hp
    · simp at hv
    · exact hp
  constructor
  · unfold flatI
    rwa [Nat.div_lt_iff_lt_mul hp]
  · exact Nat.mod_lt v hp

theorem singletonParts_length (p : ℕ) : (singletonParts p).length = p := by
  unfold singletonParts
  simp

/-- The invariant holds at the loop's entry. -/
theorem mstInv_base (corr : Mat) : MstInv corr (singletonParts corr.p) NXGraph.emptyGraph := by
  refine ⟨singletonParts_valid corr.p, ?_, ?_, ?_, ?_, ?_⟩
  · intro u v
    rw [reach_no_edges rfl]
    unfold PartRel
    rw [sameComp_singletonParts]
    constructor
    · exact Or.inl
    · rintro (rfl | ⟨rfl, _⟩) <;> rfl
  · intro e he
    simp [NXGraph.emptyGraph] at he
  · rw [singletonParts_length]
    simp [NXGraph.edgeCount, NXGraph.emptyGraph]
  · intro e he
    simp [NXGraph.emptyGraph] at he
  · intro u
    simp [NXGraph.emptyGraph]

/-- Processing any candidate list preserves the invariant, and the loop's
partition is the fold of the processed prefix. -/
theorem kruskalNoBreak_inv {corr : Mat} : ∀ {vs : List ℕ} {P : Partition} {G : NXGraph},
    MstInv corr P G → (∀ v ∈ vs, v < corr.p * corr.p) →
    MstInv corr (partsAfter corr vs P) (kruskalNoBreak corr vs P G)
  | [], P, G, hInv, _ => hInv
  | v :: rest, P, G, hInv, hb => by
    have hv := hb v (by simp)
    obtain ⟨hi, hj⟩ := flat_bounds hv
    have hbrest : ∀ x ∈ rest, x < corr.p * corr.p := fun x hx => hb x (by simp [hx])
    rw [kruskalNoBreak_cons, partsAfter_cons]
    by_cases h1 : flatI corr.p v = flatJ corr.p v
    · rw [if_pos h1, partStepPair_skip (Or.inl h1)]
      exact kruskalNoBreak_inv hInv hbrest
    · rw [if_neg h1]
      by_cases h2 : _in_same_component P (flatI corr.p v) (flatJ corr.p v) = true
      · rw [if_pos h2, partStepPair_skip (Or.inr ((inSame_iff _ _ _).mp h2))]
        exact kruskalNoBreak_inv hInv hbrest
      · have h2' : ¬ sameComp P (flatI corr.p v) (flatJ corr.p v) :=
          fun hc => h2 ((inSame_iff _ _ _).mpr hc)
        rw [if_neg h2, partStepPair_accept h1 h2']
        exact kruskalNoBreak_inv (mstInv_accept hInv hi hj h1 h2') hbrest

/-- Once a single component remains, every further candidate is skipped. -/
theorem kruskalNoBreak_stop {corr : Mat} : ∀ {vs : List ℕ} {P : Partition} {G : NXGraph},
    PartValid corr.p P → P.length = 1 → (∀ v ∈ vs, v < corr.p * corr.p) →
    kruskalNoBreak corr vs P G = G
  | [], _, _, _, _, _ => rfl
  | v :: rest, P, G, hval, hlen, hb => by
    have hv := hb v (by simp)
    obtain ⟨hi, hj⟩ := flat_bounds hv
    have hbrest : ∀ x ∈ rest, x < corr.p * corr.p := fun x hx => hb x (by simp [hx])
    rw [kruskalNoBreak_cons]
    by_cases h1 : flatI corr.p v = flatJ corr.p v
    · rw [if_pos h1]
      exact kruskalNoBreak_stop hval hlen hbrest
    · rw [if_neg h1]
      obtain ⟨c, hc⟩ := List.length_eq_one.mp hlen
    -- i and j are both in the unique component
      obtain ⟨ci, hci, hici⟩ := hval.2.2.1 _ hi
      obtain ⟨cj, hcj, hjcj⟩ := hval.2.2.1 _ hj
      rw [hc, List.mem_singleton] at hci hcj
      have hsame : sameComp P (flatI corr.p v) (flatJ corr.p v) :=
        ⟨c, by simp [hc], hci ▸ hici, hcj ▸ hjcj⟩
      rw [if_pos ((inSame_iff _ _ _).mpr hsame)]
      exact kruskalNoBreak_stop hval hlen hbrest

/-- A valid partition in which all of `{0,…,p−1}` is pairwise connected has
exactly one component (`p > 0`). -/
theorem part_length_one {p : ℕ} {P : Partition} (hval : PartValid p P)
    (hall : ∀ u, u < p → ∀ v, v < p → sameComp P u v) (hp : 0 < p) : P.length = 1 := by
  obtain ⟨c0, hc0, h0c0⟩ := hval.2.2.1 0 hp
  have hge : 1 ≤ P.length := by
    rcases P with _ | ⟨c, rest⟩
    · simp at hc0
    · simp
  have hle : P.length ≤ 1 := by
    by_contra hgt
    push_neg at hgt
    have h0 : 0 < P.length := by omega
    have h1 : 1 < P.length := hgt
    obtain ⟨x, hx⟩ := hval.1 P[0] (List.getElem_mem h0)
    obtain ⟨y, hy⟩ := hval.1 P[1] (List.getElem_mem h1)
    have hxp : x < p := hval.2.1 _ (List.getElem_mem h0) x hx
    have hyp : y < p := hval.2.1 _ (List.getElem_mem h1) y hy
    obtain ⟨e, he, hxe, hye⟩ := hall x hxp y hyp
    have e0 : e = P[0] := part_mem_unique hval.2.2.2 he (List.getElem_mem h0) hxe hx
    have e1 : e = P[1] := part_mem_unique hval.2.2.2 he (List.getElem_mem h1) hye hy
    have hdisj := (List.pairwise_iff_getElem.mp hval.2.2.2) 0 1 h0 h1 (by omega)
    rw [← e0, ← e1] at hdisj
    rw [disjoint_self] at hdisj
    rw [hdisj] at hxe
    exact absurd hxe (by simp)
  omega

theorem flat_encode_decode {p u v : ℕ} (hu : u < p) (hv : v < p) :
    flatI p (u * p + v) = u ∧ flatJ p (u * p + v) = v := by
  have hp : 0 < p := lt_of_le_of_lt (Nat.zero_le v) hv
  constructor
  · unfold flatI
    rw [Nat.mul_comm u p, Nat.mul_add_div hp, Nat.div_eq_of_lt hv]
    omega
  · unfold flatJ
    rw [Nat.mul_comm u p, Nat.mul_add_mod, Nat.mod_eq_of_lt hv]

theorem flat_encode_lt {p u v : ℕ} (hu : u < p) (hv : v < p) : u * p + v < p * p :=
  calc u * p + v < u * p + p := by omega
    _ = (u + 1) * p := by ring
    _ ≤ p * p := Nat.mul_le_mul_right p hu

theorem partsAfter_eq_partFoldPairs (corr : Mat) (vs : List ℕ) (P : Partition) :
    partsAfter corr vs P =
      partFoldPairs P (vs.map (fun v => (flatI corr.p v, flatJ corr.p v))) := by
  unfold partsAfter partFoldPairs
  rw [List.foldl_map]

/-- After every ordered pair has been processed, all of `{0,…,p−1}` is
pairwise connected. -/
theorem partsAfter_all_connected {corr : Mat} {vs : List ℕ} {P : Partition}
    (hval : PartValid corr.p P) (hb : ∀ v ∈ vs, v < corr.p * corr.p)
    (hall : ∀ f, f < corr.p * corr.p → f ∈ vs) :
    ∀ u, u < corr.p → ∀ v, v < corr.p → sameComp (partsAfter corr vs P) u v := by
  intro u hu v hv
  have hbp : ∀ e ∈ vs.map (fun x => (flatI corr.p x, flatJ corr.p x)),
      e.1 < corr.p ∧ e.2 < corr.p := by
    intro e he
    obtain ⟨x, hx, rfl⟩ := List.mem_map.mp he
    exact flat_bounds (hb x hx)
  rw [partsAfter_eq_partFoldPairs]
  by_cases huv : u = v
  · subst huv
    exact sameComp_partFoldPairs_mono hval hbp (sameComp_refl_of_lt hval hu)
  · have hmem : (u, v) ∈ vs.map (fun x => (flatI corr.p x, flatJ corr.p x)) := by
      refine List.mem_map.mpr ⟨u * corr.p + v, hall _ (flat_encode_lt hu hv), ?_⟩
      obtain ⟨h1, h2⟩ := flat_encode_decode hu hv
      rw [h1, h2]
    exact sameComp_partFoldPairs_of_mem hval hbp hmem huv

/-- The loop with break computes the same graph as the loop without: the
break fires exactly when the partition has shrunk to one component. -/
theorem mstLoop_eq_noBreak {corr : Mat} : ∀ {vs : List ℕ} {P : Partition} {G : NXGraph},
    MstInv corr P G → (∀ v ∈ vs, v < corr.p * corr.p) →
    mstLoop corr vs P G = kruskalNoBreak corr vs P G
  | [], _, _, _, _ => rfl
  | v :: rest, P, G, hInv, hb => by
    have hv := hb v (by simp)
    obtain ⟨hi, hj⟩ := flat_bounds hv
    have hp : 0 < corr.p := by
      rcases Nat.eq_zero_or_pos corr.p with h | h
      · rw [h] at hv; simp at hv
      · exact h
    have hbrest : ∀ x ∈ rest, x < corr.p * corr.p := fun x hx => hb x (by simp [hx])
    rw [mstLoop_cons, kruskalNoBreak_cons]
    by_cases h1 : flatI corr.p v = flatJ corr.p v
    · rw [if_pos h1, if_pos h1]
      exact mstLoop_eq_noBreak hInv hbrest
    · rw [if_neg h1, if_neg h1]
      by_cases h2 : _in_same_component P (flatI corr.p v) (flatJ corr.p v) = true
      · rw [if_pos h2, if_pos h2]
        exact mstLoop_eq_noBreak hInv hbrest
      · have h2' : ¬ sameComp P (flatI corr.p v) (flatJ corr.p v) :=
          fun hc => h2 ((inSame_iff _ _ _).mpr hc)
        rw [if_neg h2, if_neg h2]
        have hInv' := mstInv_accept hInv hi hj h1 h2'
        by_cases hbreak : (G.addEdge (flatI corr.p v) (flatJ corr.p v)
            (corr.entry (flatI corr.p v) (flatJ corr.p v))).edgeCount = corr.p - 1
        · rw [if_pos hbreak]
          have hlen1 : (_merge_components P (flatI corr.p v) (flatJ corr.p v)).length = 1 := by
            have := hInv'.2.2.2.1
            omega
          exact (kruskalNoBreak_stop hInv'.1 hlen1 hbrest).symm
        · rw [if_neg hbreak]
          exact mstLoop_eq_noBreak hInv' hbrest

theorem mstInv_not_hasEdge {corr : Mat} {P : Partition} {G : NXGraph}
    (hInv : MstInv corr P G) {i j : ℕ} (hij : i ≠ j) (hsame : ¬ sameComp P i j) :
    G.hasEdgeB i j = false := by
  by_contra hc
  rw [Bool.not_eq_false] at hc
  rcases (hInv.2.1 i j).mp (Relation.ReflTransGen.single hc) with h | h
  · exact hij h
  · exact hsame h

/-- The graph the loop builds is the starting graph plus the accepted edges
in order, each with its matrix weight. -/
theorem kruskalNoBreak_edges {corr : Mat} : ∀ {vs : List ℕ} {P : Partition} {G : NXGraph},
    MstInv corr P G → (∀ v ∈ vs, v < corr.p * corr.p) →
    (kruskalNoBreak corr vs P G).edges = G.edges ++
      (acceptedFrom corr vs P).map
        (fun v => (flatI corr.p v, flatJ corr.p v,
          corr.entry (flatI corr.p v) (flatJ corr.p v)))
  | [], P, G, _, _ => by simp [kruskalNoBreak, acceptedFrom]
  | v :: rest, P, G, hInv, hb => by
    have hv := hb v (by simp)
    obtain ⟨hi, hj⟩ := flat_bounds hv
    have hbrest : ∀ x ∈ rest, x < corr.p * corr.p := fun x hx => hb x (by simp [hx])
    rw [kruskalNoBreak_cons, acceptedFrom_cons]
    by_cases h1 : flatI corr.p v = flatJ corr.p v
    · rw [if_pos h1, if_pos h1]
      exact kruskalNoBreak_edges hInv hbrest
    · rw [if_neg h1, if_neg h1]
      by_cases h2 : _in_same_component P (flatI corr.p v) (flatJ corr.p v) = true
      · rw [if_pos h2, if_pos h2]
        exact kruskalNoBreak_edges hInv hbrest
      · have h2' : ¬ sameComp P (flatI corr.p v) (flatJ corr.p v) :=
          fun hc => h2 ((inSame_iff _ _ _).mpr hc)
        rw [if_neg h2, if_neg h2]
        have hInv' := mstInv_accept hInv hi hj h1 h2'
        rw [kruskalNoBreak_edges hInv' hbrest]
        rw [addEdge_edges _ _ _ _ (mstInv_not_hasEdge hInv h1 h2')]
        simp

/-- Accepted candidates form a sublist of the processed list. -/
theorem acceptedFrom_sublist {corr : Mat} : ∀ (vs : List ℕ) (P : Partition),
    (acceptedFrom corr vs P).Sublist vs
  | [], _ => by simp [acceptedFrom]
  | v :: rest, P => by
    rw [acceptedFrom_cons]
    split_ifs with h1 h2
    · exact (acceptedFrom_sublist rest P).cons v
    · exact (acceptedFrom_sublist rest P).cons v
    · exact (acceptedFrom_sublist rest _).cons₂ v

/-- Accepted candidates split across a list split. -/
theorem acceptedFrom_append {corr : Mat} : ∀ (l1 l2 : List ℕ) (P : Partition),
    acceptedFrom corr (l1 ++ l2) P =
      acceptedFrom corr l1 P ++ acceptedFrom corr l2 (partsAfter corr l1 P)
  | [], l2, P => by simp [acceptedFrom, partsAfter]
  | v :: rest, l2, P => by
    rw [List.cons_append, acceptedFrom_cons, acceptedFrom_cons, partsAfter_cons]
    unfold partStepPair
    split_ifs with h1 h2
    · exact acceptedFrom_append rest l2 P
    · exact acceptedFrom_append rest l2 P
    · rw [acceptedFrom_append rest l2 _]
      simp

/-- The number of accepted candidates complements the component count. -/
theorem acceptedFrom_length {corr : Mat} : ∀ {vs : List ℕ} {P : Partition},
    PartValid corr.p P → (∀ v ∈ vs, v < corr.p * corr.p) →
    (acceptedFrom corr vs P).length + (partsAfter corr vs P).length = P.length
  | [], P, _, _ => by simp [acceptedFrom, partsAfter]
  | v :: rest, P, hval, hb => by
    have hv := hb v (by simp)
    obtain ⟨hi, hj⟩ := flat_bounds hv
    have hbrest : ∀ x ∈ rest, x < corr.p * corr.p := fun x hx => hb x (by simp [hx])
    rw [acceptedFrom_cons, partsAfter_cons]
    by_cases h1 : flatI corr.p v = flatJ corr.p v
    · rw [if_pos h1, partStepPair_skip (Or.inl h1)]
      exact acceptedFrom_length hval hbrest
    · rw [if_neg h1]
      by_cases h2 : _in_same_component P (flatI corr.p v) (flatJ corr.p v) = true
      · rw [if_pos h2, partStepPair_skip (Or.inr ((inSame_iff _ _ _).mp h2))]
        exact acceptedFrom_length hval hbrest
      · have h2' : ¬ sameComp P (flatI corr.p v) (flatJ corr.p v) :=
          fun hc => h2 ((inSame_iff _ _ _).mpr hc)
        rw [if_neg h2, partStepPair_accept h1 h2']
        have hrec := acceptedFrom_length (merge_valid hval hi hj h2') hbrest
        have hlen := merge_length hval hi hj h2'
        simp only [List.length_cons]
        omega

/-! ### Facts about the argsort model -/

theorem argsortFlatDesc_perm (corr : Mat) :
    (argsortFlatDesc corr).Perm (List.range (corr.p * corr.p)) := by
  unfold argsortFlatDesc
  exact (List.reverse_perm _).trans (List.perm_insertionSort _ _)

theorem argsortFlatDesc_nodup (corr : Mat) : (argsortFlatDesc corr).Nodup :=
  (List.nodup_range _).perm (argsortFlatDesc_perm corr).symm

theorem argsortFlatDesc_mem {corr : Mat} {v : ℕ} :
    v ∈ argsortFlatDesc corr ↔ v < corr.p * corr.p := by
  rw [(argsortFlatDesc_perm corr).mem_iff, List.mem_range]

instance flatLeIsTrans (corr : Mat) : IsTrans ℕ (flatLe corr) := by
  refine ⟨fun a b c hab hbc => ?_⟩
  unfold flatLe at hab hbc ⊢
  rcases hab with h1 | ⟨h1, h1'⟩ <;> rcases hbc with h2 | ⟨h2, h2'⟩
  · exact Or.inl (h1.trans h2)
  · exact Or.inl (h2 ▸ h1)
  · exact Or.inl (h1 ▸ h2)
  · exact Or.inr ⟨h1.trans h2, h1'.trans h2'⟩

instance flatLeIsTotal (corr : Mat) : IsTotal ℕ (flatLe corr) := by
  refine ⟨fun a b => ?_⟩
  unfold flatLe
  rcases lt_trichotomy (flatKey corr a) (flatKey corr b) with h | h | h
  · exact Or.inl (Or.inl h)
  · rcases Nat.le_total a b with hab | hab
    · exact Or.inl (Or.inr ⟨h, hab⟩)
    · exact Or.inr (Or.inr ⟨h.symm, hab⟩)
  · exact Or.inr (Or.inl h)

/-- Along the argsort output, values are nonincreasing. -/
theorem argsortFlatDesc_sorted (corr : Mat) :
    (argsortFlatDesc corr).Pairwise (fun a b => flatKey corr b ≤ flatKey corr a) := by
  unfold argsortFlatDesc
  rw [List.pairwise_reverse]
  have hs := List.sorted_insertionSort (flatLe corr) (List.range (corr.p * corr.p))
  refine hs.imp ?_
  intro a b hab
  unfold flatLe at hab
  rcases hab with h | ⟨h, _⟩
  · exact le_of_lt h
  · exact le_of_eq h

/-! ### Comparing partitions: refinement has at least as many components -/

theorem partValid_nodup {p : ℕ} {P : Partition} (h : PartValid p P) : P.Nodup := by
  have := h.2.2.2
  refine List.Pairwise.imp_of_mem ?_ this
  intro c d hc _ hdisj
  intro heq
  subst heq
  rw [disjoint_self] at hdisj
  obtain ⟨x, hx⟩ := h.1 c hc
  rw [hdisj] at hx
  exact absurd hx (by simp)

/-- If every component relation of `P1` is contained in that of `P2`, then
`P2` has no more components than `P1`. -/
theorem part_length_le {p : ℕ} {P1 P2 : Partition} (h1 : PartValid p P1)
    (h2 : PartValid p P2)
    (himp : ∀ u v, sameComp P1 u v → sameComp P2 u v) : P2.length ≤ P1.length := by
  classical
  set g : Finset ℕ → Finset ℕ :=
    fun c => (P2.find? (fun d => decide (c ∩ d).Nonempty)).getD ∅ with hg
  have hsub : P2.toFinset ⊆ P1.toFinset.image g := by
    intro d hd
    rw [List.mem_toFinset] at hd
    obtain ⟨x, hxd⟩ := h2.1 d hd
    have hxp : x < p := h2.2.1 d hd x hxd
    obtain ⟨c, hcP, hxc⟩ := h1.2.2.1 x hxp
    refine Finset.mem_image.mpr ⟨c, List.mem_toFinset.mpr hcP, ?_⟩
    -- every part of P2 meeting c is d
    have huniq : ∀ d' ∈ P2, (c ∩ d').Nonempty → d' = d := by
      intro d' hd' ⟨y, hy⟩
      rw [Finset.mem_inter] at hy
      have hsc : sameComp P1 x y := ⟨c, hcP, hxc, hy.1⟩
      obtain ⟨e, heP, hxe, hye⟩ := himp x y hsc
      have hed : e = d := part_mem_unique h2.2.2.2 heP hd hxe hxd
      exact part_mem_unique h2.2.2.2 hd' hd hy.2 (hed ▸ hye)
    have hex : (P2.find? (fun d => decide (c ∩ d).Nonempty)).isSome = true := by
      rw [List.find?_isSome]
      exact ⟨d, hd, by simp; exact ⟨x, Finset.mem_inter.mpr ⟨hxc, hxd⟩⟩⟩
    obtain ⟨d', hd'⟩ := Option.isSome_iff_exists.mp hex
    have hmem := List.mem_of_find?_eq_some hd'
    have hpred := List.find?_some hd'
    rw [decide_eq_true_eq] at hpred
    rw [hg]
    simp only [hd', Option.getD_some]
    exact huniq d' hmem hpred
  calc P2.length = P2.toFinset.card := (List.toFinset_card_of_nodup (partValid_nodup h2)).symm
    _ ≤ (P1.toFinset.image g).card := Finset.card_le_card hsub
    _ ≤ P1.toFinset.card := Finset.card_image_le
    _ = P1.length := List.toFinset_card_of_nodup (partValid_nodup h1)

/-! ### The spanning-tree run: structure of the result -/

theorem mst_run (corr : Mat) :
    MstInv corr (partsAfter corr (argsortFlatDesc corr) (singletonParts corr.p)) (mst corr) ∧
    mst corr = kruskalNoBreak corr (argsortFlatDesc corr) (singletonParts corr.p)
      NXGraph.emptyGraph := by
  have hb : ∀ v ∈ argsortFlatDesc corr, v < corr.p * corr.p :=
    fun v hv => argsortFlatDesc_mem.mp hv
  have heq : mst corr = kruskalNoBreak corr (argsortFlatDesc corr)
      (singletonParts corr.p) NXGraph.emptyGraph :=
    mstLoop_eq_noBreak (mstInv_base corr) hb
  refine ⟨?_, heq⟩
  rw [heq]
  exact kruskalNoBreak_inv (mstInv_base corr) hb

theorem mst_parts_connected (corr : Mat) :
    ∀ u, u < corr.p → ∀ v, v < corr.p →
      sameComp (partsAfter corr (argsortFlatDesc corr) (singletonParts corr.p)) u v :=
  partsAfter_all_connected (singletonParts_valid corr.p)
    (fun v hv => argsortFlatDesc_mem.mp hv)
    (fun f hf => argsortFlatDesc_mem.mpr hf)

theorem mst_parts_length_one (corr : Mat) (hp : 0 < corr.p) :
    (partsAfter corr (argsortFlatDesc corr) (singletonParts corr.p)).length = 1 :=
  part_length_one (mst_run corr).1.1 (mst_parts_connected corr) hp

theorem mst_edgeCount (corr : Mat) (hp : 0 < corr.p) :
    (mst corr).edgeCount = corr.p - 1 := by
  have h1 := (mst_run corr).1.2.2.2.1
  have h2 := mst_parts_length_one corr hp
  omega

theorem mst_connected (corr : Mat) : (mst corr).ConnectedOn corr.p := by
  intro u hu v hv
  exact ((mst_run corr).1.2.1 u v).mpr (Or.inr (mst_parts_connected corr u hu v hv))

theorem mst_acyclic (corr : Mat) : (mst corr).Acyclic := (mst_run corr).1.2.2.1

theorem mst_nodes (corr : Mat) (hp2 : 2 ≤ corr.p) :
    ∀ u, u ∈ (mst corr).nodes ↔ u < corr.p := by
  intro u
  constructor
  · intro hu
    obtain ⟨e, he, hue⟩ := ((mst_run corr).1.2.2.2.2.2 u).mp hu
    obtain ⟨he1, he2, _, _⟩ := (mst_run corr).1.2.2.2.2.1 e he
    rcases hue with rfl | rfl
    · exact he1
    · exact he2
  · intro hu
    set v := if u = 0 then 1 else 0 with hv
    have hvp : v < corr.p := by
      rw [hv]
      split_ifs <;> omega
    have huv : u ≠ v := by
      rw [hv]
      split_ifs with h
    -- u = 0 → v = 1
      · omega
      · omega
    have hr := mst_connected corr u hu v hvp
    rcases Relation.ReflTransGen.cases_head hr with h | ⟨c, hadj, _⟩
    · exact absurd h (by omega)
    · unfold NXGraph.Adj NXGraph.hasEdgeB at hadj
      rw [List.any_eq_true] at hadj
      obtain ⟨e, he, hm⟩ := hadj
      rcases e with ⟨a, b, w⟩
      rw [edgeMatches_triple] at hm
      refine ((mst_run corr).1.2.2.2.2.2 u).mpr ⟨(a, b, w), he, ?_⟩
      rcases hm with ⟨h1, _⟩ | ⟨h2, _⟩
      · exact Or.inl h1
      · exact Or.inr h2

/-! ### Running the greedy fold over an acyclic edge set -/

theorem pairAdj_mono {S T : Finset (ℕ × ℕ)} (h : S ⊆ T) {a b : ℕ}
    (hadj : pairAdj S a b) : pairAdj T a b := by
  rcases hadj with h1 | h1
  · exact Or.inl (h h1)
  · exact Or.inr (h h1)

theorem rtg_partRel {p : ℕ} {Q : Partition} (hQ : PartValid p Q) {r : ℕ → ℕ → Prop}
    (h : ∀ a b, r a b → sameComp Q a b) {u v : ℕ}
    (hr : Relation.ReflTransGen r u v) : PartRel Q u v := by
  induction hr with
  | refl => exact Or.inl rfl
  | tail _ hbc ih => exact partRel_trans hQ ih (Or.inr (h _ _ hbc))

theorem encPair_decode {p : ℕ} {e : ℕ × ℕ} (h1 : e.1 < p) (h2 : e.2 < p) :
    flatI p (encPair p e) = e.1 ∧ flatJ p (encPair p e) = e.2 :=
  flat_encode_decode h1 h2

theorem encPair_lt {p : ℕ} {e : ℕ × ℕ} (h1 : e.1 < p) (h2 : e.2 < p) :
    encPair p e < p * p :=
  flat_encode_lt h1 h2

/-- Processing a duplicate-free list of edges of an acyclic edge set, the
greedy loop accepts every one of them (none ever closes a cycle).  The last
hypothesis couples the graph built so far to the already-processed edges. -/
theorem acceptedFrom_all_of_acyclic {corr : Mat} {S : Finset (ℕ × ℕ)}
    (hacy : PairAcyclic S)
    (hbd : ∀ e ∈ S, e.1 < corr.p ∧ e.2 < corr.p ∧ e.1 ≠ e.2) :
    ∀ (l : List (ℕ × ℕ)), l.Nodup → (∀ e ∈ l, e ∈ S) →
      ∀ (P : Partition) (G : NXGraph), MstInv corr P G →
      (∀ a b, G.Adj a b → pairAdj (S \ l.toFinset) a b) →
      acceptedFrom corr (l.map (encPair corr.p)) P = l.map (encPair corr.p)
  | [], _, _, P, G, _, _ => rfl
  | e :: tl, hnd, hlS, P, G, hInv, hAdj => by
    have heS : e ∈ S := hlS e (by simp)
    obtain ⟨he1, he2, hene⟩ := hbd e heS
    obtain ⟨hd1, hd2⟩ := @encPair_decode corr.p _ he1 he2
    rw [List.map_cons, acceptedFrom_cons, hd1, hd2]
    have h2' : ¬ sameComp P e.1 e.2 := by
      intro hsc
      have hre : G.Reach e.1 e.2 := (hInv.2.1 e.1 e.2).mpr (Or.inr hsc)
      have hsub : S \ (e :: tl).toFinset ⊆ S.erase e := by
        intro x hx
        rw [Finset.mem_sdiff] at hx
        rw [Finset.mem_erase]
        refine ⟨?_, hx.1⟩
        intro hxe
        exact hx.2 (by simp [hxe])
      have : pairReach (S.erase e) e.1 e.2 :=
        Relation.ReflTransGen.mono
          (fun a b hab => pairAdj_mono hsub (hAdj a b hab)) hre
      exact hacy e heS this
    rw [if_neg hene, if_neg (by simpa [inSame_iff] using h2')]
    congr 1
    have hInv' := mstInv_accept hInv he1 he2 hene h2'
    have hndtl : tl.Nodup := (List.nodup_cons.mp hnd).2
    have hetl : e ∉ tl := (List.nodup_cons.mp hnd).1
    refine acceptedFrom_all_of_acyclic hacy hbd tl hndtl
      (fun f hf => hlS f (by simp [hf])) _ _ hInv' ?_
    intro a b hab
    rcases (hasEdgeB_addEdge G e.1 e.2 (corr.entry e.1 e.2) a b).mp hab with h | h
    · refine pairAdj_mono ?_ (hAdj a b h)
      intro x hx
      rw [Finset.mem_sdiff] at hx ⊢
      refine ⟨hx.1, ?_⟩
      intro hxtl
      exact hx.2 (by simp [List.mem_toFinset.mp hxtl])
    · have heS' : e ∈ S \ tl.toFinset := by
        rw [Finset.mem_sdiff]
        exact ⟨heS, fun hc => hetl (List.mem_toFinset.mp hc)⟩
      rcases h with ⟨rfl, rfl⟩ | ⟨rfl, rfl⟩
      · exact Or.inl (by simpa using heS')
      · exact Or.inr (by simpa using heS')

/-- The bookkeeping of one full run over an acyclic edge set, starting from
singletons: the final partition, the final graph, and what its edges are. -/
theorem acyclic_run {corr : Mat} {S : Finset (ℕ × ℕ)}
    (hacy : PairAcyclic S)
    (hbd : ∀ e ∈ S, e.1 < corr.p ∧ e.2 < corr.p ∧ e.1 ≠ e.2) :
    S.card + (partsAfter corr (S.toList.map (encPair corr.p)) (singletonParts corr.p)).length
        = corr.p ∧
    MstInv corr (partsAfter corr (S.toList.map (encPair corr.p)) (singletonParts corr.p))
      (kruskalNoBreak corr (S.toList.map (encPair corr.p)) (singletonParts corr.p)
        NXGraph.emptyGraph) ∧
    (kruskalNoBreak corr (S.toList.map (encPair corr.p)) (singletonParts corr.p)
        NXGraph.emptyGraph).edges =
      S.toList.map (fun e => (e.1, e.2, corr.entry e.1 e.2)) := by
  have hb : ∀ v ∈ S.toList.map (encPair corr.p), v < corr.p * corr.p := by
    intro v hv
    obtain ⟨e, he, rfl⟩ := List.mem_map.mp hv
    have := hbd e (Finset.mem_toList.mp he)
    exact encPair_lt this.1 this.2.1
  have hAdj0 : ∀ a b, NXGraph.emptyGraph.Adj a b → pairAdj (S \ S.toList.toFinset) a b := by
    intro a b hab
    unfold NXGraph.Adj NXGraph.hasEdgeB NXGraph.emptyGraph at hab
    simp at hab
  have hall := acceptedFrom_all_of_acyclic hacy hbd S.toList (Finset.nodup_toList S)
    (fun f hf => Finset.mem_toList.mp hf) (singletonParts corr.p) NXGraph.emptyGraph
    (mstInv_base corr) hAdj0
  refine ⟨?_, kruskalNoBreak_inv (mstInv_base corr) hb, ?_⟩
  · have := @acceptedFrom_length corr _ _ (singletonParts_valid corr.p) hb
    rw [hall] at this
    rw [List.length_map] at this
    rw [Finset.length_toList] at this
    rw [this, singletonParts_length]
  · rw [kruskalNoBreak_edges (mstInv_base corr) hb, hall]
    rw [List.map_map]
    show [] ++ _ = _
    rw [List.nil_append]
    apply List.map_congr_left
    intro e he
    have hbe := hbd e (Finset.mem_toList.mp he)
    obtain ⟨h1, h2⟩ := @encPair_decode corr.p _ hbe.1 hbe.2.1
    simp only [Function.comp_apply, h1, h2]

/-- The run over an acyclic edge set only identifies nodes the edge set
identifies: its final partition refines any valid partition in which every
edge of the set joins equals. -/
theorem acyclic_refines {corr : Mat} {S : Finset (ℕ × ℕ)}
    (hacy : PairAcyclic S)
    (hbd : ∀ e ∈ S, e.1 < corr.p ∧ e.2 < corr.p ∧ e.1 ≠ e.2)
    {Q : Partition} (hQ : PartValid corr.p Q)
    (hSQ : ∀ e ∈ S, sameComp Q e.1 e.2) :
    ∀ u v, sameComp (partsAfter corr (S.toList.map (encPair corr.p))
      (singletonParts corr.p)) u v → sameComp Q u v := by
  intro u v hsc
  obtain ⟨_, hInvS, hedgesS⟩ := acyclic_run hacy hbd
  obtain ⟨c, hc, huc, hvc⟩ := hsc
  have hu : u < corr.p := hInvS.1.2.1 c hc u huc
  have hre : (kruskalNoBreak corr (S.toList.map (encPair corr.p)) (singletonParts corr.p)
      NXGraph.emptyGraph).Reach u v :=
    (hInvS.2.1 u v).mpr (Or.inr ⟨c, hc, huc, hvc⟩)
  have hstep : ∀ a b, (kruskalNoBreak corr (S.toList.map (encPair corr.p))
      (singletonParts corr.p) NXGraph.emptyGraph).Adj a b → sameComp Q a b := by
    intro a b hab
    unfold NXGraph.Adj NXGraph.hasEdgeB at hab
    rw [List.any_eq_true] at hab
    obtain ⟨ed, hmem, hmatch⟩ := hab
    rw [hedgesS] at hmem
    obtain ⟨e, heS, rfl⟩ := List.mem_map.mp hmem
    rw [edgeMatches_triple] at hmatch
    have hSQ' := hSQ e (Finset.mem_toList.mp heS)
    rcases hmatch with ⟨rfl, rfl⟩ | ⟨rfl, rfl⟩
    · exact hSQ'
    · exact sameComp_symm hSQ'
  rcases rtg_partRel hQ hstep hre with h | h
  · exact h ▸ sameComp_refl_of_lt hQ hu
  · exact h

/-- A spanning tree of the complete graph on `p` nodes has `p − 1` edges. -/
theorem isSpanningTree_card {corr : Mat} {T : Finset (ℕ × ℕ)}
    (hT : IsSpanningTree corr.p T) (hp : 0 < corr.p) : T.card + 1 = corr.p := by
  obtain ⟨hbd0, hconn, hacy⟩ := hT
  have hbd : ∀ e ∈ T, e.1 < corr.p ∧ e.2 < corr.p ∧ e.1 ≠ e.2 := fun e he =>
    ⟨lt_trans (hbd0 e he).1 (hbd0 e he).2, (hbd0 e he).2, ne_of_lt (hbd0 e he).1⟩
  obtain ⟨hcount, hInvT, hedgesT⟩ := acyclic_run hacy hbd
  have hadjT : ∀ a b, pairAdj T a b → (kruskalNoBreak corr (T.toList.map (encPair corr.p))
      (singletonParts corr.p) NXGraph.emptyGraph).Adj a b := by
    intro a b hab
    unfold NXGraph.Adj NXGraph.hasEdgeB
    rw [List.any_eq_true]
    rcases hab with h | h
    · refine ⟨(a, b, corr.entry a b), ?_, ?_⟩
      · rw [hedgesT]
        exact List.mem_map.mpr ⟨(a, b), Finset.mem_toList.mpr h, rfl⟩
      · rw [edgeMatches_triple]
        simp
    · refine ⟨(b, a, corr.entry b a), ?_, ?_⟩
      · rw [hedgesT]
        exact List.mem_map.mpr ⟨(b, a), Finset.mem_toList.mpr h, rfl⟩
      · rw [edgeMatches_triple]
        simp
  have hall : ∀ u, u < corr.p → ∀ v, v < corr.p →
      sameComp (partsAfter corr (T.toList.map (encPair corr.p))
        (singletonParts corr.p)) u v := by
    intro u hu v hv
    have hre := Relation.ReflTransGen.mono (hadjT) (hconn u hu v hv)
    rcases (hInvT.2.1 u v).mp hre with h | h
    · exact h ▸ sameComp_refl_of_lt hInvT.1 hu
    · exact h
  have hone := part_length_one hInvT.1 hall hp
  omega

theorem pairAcyclic_subset {S T : Finset (ℕ × ℕ)} (hacy : PairAcyclic T)
    (hsub : S ⊆ T) : PairAcyclic S := by
  intro e he hre
  refine hacy e (hsub he) ?_
  exact Relation.ReflTransGen.mono
    (fun a b hab => pairAdj_mono (Finset.erase_subset_erase _ hsub) hab) hre

/-- Per-prefix dominance: at every point of the descending sweep, the greedy
loop has accepted at least as many edges as any spanning (indeed any
acyclic) edge set has among the candidates already seen. -/
theorem prefix_dominance {corr : Mat} {T : Finset (ℕ × ℕ)}
    (hacyT : PairAcyclic T)
    (hbdT : ∀ e ∈ T, e.1 < corr.p ∧ e.2 < corr.p ∧ e.1 ≠ e.2) (j : ℕ) :
    (T.filter (fun e => encPair corr.p e ∈ (argsortFlatDesc corr).take j ∨
        encPair corr.p (e.2, e.1) ∈ (argsortFlatDesc corr).take j)).card ≤
      (acceptedFrom corr ((argsortFlatDesc corr).take j) (singletonParts corr.p)).length := by
  classical
  set vals := argsortFlatDesc corr with hvals
  set Socc := T.filter (fun e => encPair corr.p e ∈ vals.take j ∨
      encPair corr.p (e.2, e.1) ∈ vals.take j) with hSocc
  have hsub : Socc ⊆ T := Finset.filter_subset _ _
  have hacyS : PairAcyclic Socc := pairAcyclic_subset hacyT hsub
  have hbdS : ∀ e ∈ Socc, e.1 < corr.p ∧ e.2 < corr.p ∧ e.1 ≠ e.2 :=
    fun e he => hbdT e (hsub he)
  have hbtake : ∀ v ∈ vals.take j, v < corr.p * corr.p :=
    fun v hv => argsortFlatDesc_mem.mp (List.mem_of_mem_take hv)
  -- the prefix partition
  have hPjvalid : PartValid corr.p (partsAfter corr (vals.take j) (singletonParts corr.p)) := by
    rw [partsAfter_eq_partFoldPairs]
    refine partFoldPairs_valid (singletonParts_valid corr.p) ?_
    intro e he
    obtain ⟨x, hx, rfl⟩ := List.mem_map.mp he
    exact flat_bounds (hbtake x hx)
  -- every occurred edge is connected in the prefix partition
  have hSQ : ∀ e ∈ Socc, sameComp (partsAfter corr (vals.take j)
      (singletonParts corr.p)) e.1 e.2 := by
    intro e he
    rw [hSocc, Finset.mem_filter] at he
    obtain ⟨heT, hocc⟩ := he
    obtain ⟨hb1, hb2, hbne⟩ := hbdT e heT
    have hbp : ∀ f ∈ (vals.take j).map (fun v => (flatI corr.p v, flatJ corr.p v)),
        f.1 < corr.p ∧ f.2 < corr.p := by
      intro f hf
      obtain ⟨x, hx, rfl⟩ := List.mem_map.mp hf
      exact flat_bounds (hbtake x hx)
    rw [partsAfter_eq_partFoldPairs]
    rcases hocc with hocc | hocc
    · refine sameComp_partFoldPairs_of_mem (singletonParts_valid corr.p) hbp ?_ hbne
      refine List.mem_map.mpr ⟨encPair corr.p e, hocc, ?_⟩
      obtain ⟨h1, h2⟩ := @encPair_decode corr.p _ hb1 hb2
      rw [h1, h2]
    · refine sameComp_symm ?_
      refine sameComp_partFoldPairs_of_mem (singletonParts_valid corr.p) hbp ?_ (Ne.symm hbne)
      refine List.mem_map.mpr ⟨encPair corr.p (e.2, e.1), hocc, ?_⟩
      obtain ⟨h1, h2⟩ := @encPair_decode corr.p (e.2, e.1) hb2 hb1
      rw [h1, h2]
  obtain ⟨hcountS, hInvS, _⟩ := acyclic_run hacyS hbdS
  have hrefine := acyclic_refines hacyS hbdS hPjvalid hSQ
  have hlen_le := part_length_le hInvS.1 hPjvalid hrefine
  have hacc := @acceptedFrom_length corr _ _ (singletonParts_valid corr.p) hbtake
  rw [singletonParts_length] at hacc
  omega

/-! ### Abel-style dominance: prefix-dominated positions with nonincreasing
weights give a dominated sum -/

theorem dominance_sum (w : ℕ → ℚ) : ∀ (N : ℕ) (A B : Finset ℕ),
    A ⊆ Finset.range N → B ⊆ Finset.range N →
    (∀ i k, i ≤ k → k < N → w k ≤ w i) →
    (∀ j, (B ∩ Finset.range j).card ≤ (A ∩ Finset.range j).card) →
    B.card = A.card →
    ∑ q ∈ B, w q ≤ ∑ q ∈ A, w q := by
  intro N
  induction N with
  | zero =>
    intro A B hA hB _ _ _
    have : A = ∅ := Finset.subset_empty.mp (by simpa using hA)
    have hB' : B = ∅ := Finset.subset_empty.mp (by simpa using hB)
    rw [this, hB']
  | succ N ih =>
    intro A B hA hB hanti hdom hcard
    have hanti' : ∀ i k, i ≤ k → k < N → w k ≤ w i :=
      fun i k hik hk => hanti i k hik (by omega)
    by_cases hNA : N ∈ A <;> by_cases hNB : N ∈ B
    · -- both contain N: erase it on both sides
      have hA' : A.erase N ⊆ Finset.range N := by
        intro a ha
        rw [Finset.mem_erase] at ha
        have := hA ha.2
        rw [Finset.mem_range] at this ⊢
        omega
      have hB' : B.erase N ⊆ Finset.range N := by
        intro a ha
        rw [Finset.mem_erase] at ha
        have := hB ha.2
        rw [Finset.mem_range] at this ⊢
        omega
      have hdom' : ∀ j, ((B.erase N) ∩ Finset.range j).card ≤
          ((A.erase N) ∩ Finset.range j).card := by
        intro j
        rcases Nat.le_total j N with hj | hj
        · have e1 : (B.erase N) ∩ Finset.range j = B ∩ Finset.range j := by
            ext x
            simp only [Finset.mem_inter, Finset.mem_erase, Finset.mem_range]
            constructor
            · rintro ⟨⟨_, h2⟩, h3⟩; exact ⟨h2, h3⟩
            · rintro ⟨h2, h3⟩; exact ⟨⟨by omega, h2⟩, h3⟩
          have e2 : (A.erase N) ∩ Finset.range j = A ∩ Finset.range j := by
            ext x
            simp only [Finset.mem_inter, Finset.mem_erase, Finset.mem_range]
            constructor
            · rintro ⟨⟨_, h2⟩, h3⟩; exact ⟨h2, h3⟩
            · rintro ⟨h2, h3⟩; exact ⟨⟨by omega, h2⟩, h3⟩
          rw [e1, e2]
          exact hdom j
        · have e1 : (B.erase N) ∩ Finset.range j = B.erase N :=
            Finset.inter_eq_left.mpr (hB'.trans (Finset.range_subset.mpr hj))
          have e2 : (A.erase N) ∩ Finset.range j = A.erase N :=
            Finset.inter_eq_left.mpr (hA'.trans (Finset.range_subset.mpr hj))
          rw [e1, e2, Finset.card_erase_of_mem hNB, Finset.card_erase_of_mem hNA, hcard]
      have hcard' : (B.erase N).card = (A.erase N).card := by
        rw [Finset.card_erase_of_mem hNB, Finset.card_erase_of_mem hNA, hcard]
      have hs := ih (A.erase N) (B.erase N) hA' hB' hanti' hdom' hcard'
      have hsb := Finset.sum_erase_add B w hNB
      have hsa := Finset.sum_erase_add A w hNA
      linarith
    · -- N ∈ A, N ∉ B: contradiction with dominance at N
      exfalso
      have e1 : B ∩ Finset.range N = B := by
        refine Finset.inter_eq_left.mpr ?_
        intro b hb
        have := hB hb
        rw [Finset.mem_range] at this ⊢
        rcases Nat.lt_succ_iff_lt_or_eq.mp this with h | h
        · exact h
        · exact absurd (h ▸ hb) hNB
      have e2 : (A ∩ Finset.range N).card < A.card := by
        refine Finset.card_lt_card ?_
        rw [Finset.ssubset_iff_of_subset (Finset.inter_subset_left)]
        exact ⟨N, hNA, by simp⟩
      have := hdom N
      rw [e1, hcard] at this
      omega
    · -- N ∉ A, N ∈ B: replace N in B by the largest missing element of A
      have hAr : A ⊆ Finset.range N := by
        intro a ha
        have := hA ha
        rw [Finset.mem_range] at this ⊢
        rcases Nat.lt_succ_iff_lt_or_eq.mp this with h | h
        · exact h
        · exact absurd (h ▸ ha) hNA
      have hB' : B.erase N ⊆ Finset.range N := by
        intro a ha
        rw [Finset.mem_erase] at ha
        have := hB ha.2
        rw [Finset.mem_range] at this ⊢
        omega
      have hcardB' : (B.erase N).card + 1 = A.card := by
        rw [Finset.card_erase_of_mem hNB]
        have : 0 < B.card := Finset.card_pos.mpr ⟨N, hNB⟩
        omega
      have hD : (A \ B.erase N).Nonempty := by
        rw [← Finset.card_pos]
        by_contra hc
        push_neg at hc
        have h0 : (A \ B.erase N).card = 0 := by omega
        have : A ⊆ B.erase N := by
          intro a ha
          by_contra hab
          have : a ∈ A \ B.erase N := Finset.mem_sdiff.mpr ⟨ha, hab⟩
          have := Finset.card_pos.mpr ⟨a, this⟩
          omega
        have := Finset.card_le_card this
        omega
      set m := (A \ B.erase N).max' hD with hm
      have hmD : m ∈ A \ B.erase N := Finset.max'_mem _ hD
      have hmA : m ∈ A := (Finset.mem_sdiff.mp hmD).1
      have hmB' : m ∉ B.erase N := (Finset.mem_sdiff.mp hmD).2
      have hmN : m < N := by
        have := hAr hmA
        rwa [Finset.mem_range] at this
      set B2 := insert m (B.erase N) with hB2
      have hB2r : B2 ⊆ Finset.range N := by
        intro b hb
        rw [hB2, Finset.mem_insert] at hb
        rcases hb with rfl | hb
        · rw [Finset.mem_range]; exact hmN
        · exact hB' hb
      have hcard2 : B2.card = A.card := by
        rw [hB2, Finset.card_insert_of_not_mem hmB']
        omega
      have hdom2 : ∀ j, (B2 ∩ Finset.range j).card ≤ (A ∩ Finset.range j).card := by
        intro j
        rcases le_or_lt j m with hj | hj
        · -- m ∉ range j, N ∉ range j
          have e1 : B2 ∩ Finset.range j = B ∩ Finset.range j := by
            ext x
            simp only [hB2, Finset.mem_inter, Finset.mem_insert, Finset.mem_erase,
              Finset.mem_range]
            constructor
            · rintro ⟨rfl | ⟨_, h2⟩, h3⟩
              · omega
              · exact ⟨h2, h3⟩
            · rintro ⟨h2, h3⟩
              refine ⟨Or.inr ⟨?_, h2⟩, h3⟩
              omega
          rw [e1]
          exact hdom j
        · -- j > m: count via the split along B.erase N
          have hsplit : (A ∩ Finset.range j).card ≥
              ((A ∩ B.erase N) ∩ Finset.range j).card + ((A \ B.erase N) ∩ Finset.range j).card := by
            rw [← Finset.card_union_of_disjoint]
            · refine Finset.card_le_card ?_
              intro x hx
              rw [Finset.mem_union] at hx
              rw [Finset.mem_inter]
              rcases hx with hx | hx
              · obtain ⟨h1, h2⟩ := Finset.mem_inter.mp hx
                exact ⟨(Finset.mem_inter.mp h1).1, h2⟩
              · obtain ⟨h1, h2⟩ := Finset.mem_inter.mp hx
                exact ⟨(Finset.mem_sdiff.mp h1).1, h2⟩
            · refine Finset.disjoint_left.mpr ?_
              intro x hx1 hx2
              rw [Finset.mem_inter, Finset.mem_inter] at hx1
              rw [Finset.mem_inter, Finset.mem_sdiff] at hx2
              exact hx2.1.2 hx1.1.2
          have hDfull : (A \ B.erase N) ∩ Finset.range j = A \ B.erase N := by
            refine Finset.inter_eq_left.mpr ?_
            intro x hx
            have hxm : x ≤ m := Finset.le_max' _ x hx
            rw [Finset.mem_range]
            omega
          have hBsplit : (B2 ∩ Finset.range j).card ≤
              ((A ∩ B.erase N) ∩ Finset.range j).card + ((B.erase N) \ A).card + 1 := by
            have hsub : B2 ∩ Finset.range j ⊆
                insert m (((A ∩ B.erase N) ∩ Finset.range j) ∪ ((B.erase N) \ A)) := by
              intro x hx
              rw [Finset.mem_inter, hB2, Finset.mem_insert] at hx
              rcases hx with ⟨rfl | hx1, hx2⟩
              · exact Finset.mem_insert_self _ _
              · rw [Finset.mem_insert, Finset.mem_union]
                by_cases hxA : x ∈ A
                · exact Or.inr (Or.inl (by
                    rw [Finset.mem_inter, Finset.mem_inter]
                    exact ⟨⟨hxA, hx1⟩, hx2⟩))
                · exact Or.inr (Or.inr (Finset.mem_sdiff.mpr ⟨hx1, hxA⟩))
            calc (B2 ∩ Finset.range j).card ≤ _ := Finset.card_le_card hsub
              _ ≤ (((A ∩ B.erase N) ∩ Finset.range j) ∪ ((B.erase N) \ A)).card + 1 :=
                Finset.card_insert_le _ _
              _ ≤ ((A ∩ B.erase N) ∩ Finset.range j).card + ((B.erase N) \ A).card + 1 :=
                Nat.add_le_add_right (Finset.card_union_le
                  (((A ∩ B.erase N) ∩ Finset.range j)) (((B.erase N) \ A))) 1
          have hBA : ((B.erase N) \ A).card + (A ∩ B.erase N).card = (B.erase N).card := by
            rw [Finset.inter_comm]
            rw [Finset.card_sdiff_add_card_inter]
          have hDA : (A \ B.erase N).card + (A ∩ B.erase N).card = A.card :=
            Finset.card_sdiff_add_card_inter _ _
          have hmono : ((A ∩ B.erase N) ∩ Finset.range j).card ≤ (A ∩ B.erase N).card :=
            Finset.card_le_card (Finset.inter_subset_left)
          rw [hDfull] at hsplit
          omega
      have hsum2 := ih A B2 hAr hB2r hanti' hdom2 hcard2
      have hwNm : w N ≤ w m := hanti m N (by omega) (by omega)
      have hsb : ∑ q ∈ B.erase N, w q + w N = ∑ q ∈ B, w q := Finset.sum_erase_add B w hNB
      have hsb2 : ∑ q ∈ B2, w q = w m + ∑ q ∈ B.erase N, w q := by
        rw [hB2, Finset.sum_insert hmB']
      linarith
    · -- N in neither: restrict and recurse
      have hAr : A ⊆ Finset.range N := by
        intro a ha
        have := hA ha
        rw [Finset.mem_range] at this ⊢
        rcases Nat.lt_succ_iff_lt_or_eq.mp this with h | h
        · exact h
        · exact absurd (h ▸ ha) hNA
      have hBr : B ⊆ Finset.range N := by
        intro a ha
        have := hB ha
        rw [Finset.mem_range] at this ⊢
        rcases Nat.lt_succ_iff_lt_or_eq.mp this with h | h
        · exact h
        · exact absurd (h ▸ ha) hNB
      exact ih A B hAr hBr hanti' hdom hcard

/-! ### Position bookkeeping along the sorted sweep -/

theorem indexOf_lt_of_mem_take {l : List ℕ} (hnd : l.Nodup) {a j : ℕ}
    (h : a ∈ l.take j) : List.indexOf a l < j := by
  obtain ⟨i, hm, hia⟩ := List.mem_take_iff_getElem.mp h
  have hil : i < l.length := lt_of_lt_of_le hm inf_le_right
  have hij : i < j := lt_of_lt_of_le hm inf_le_left
  have : List.indexOf a l = i := by
    rw [← hia]
    exact List.indexOf_getElem hnd i hil
  omega

theorem mem_take_of_indexOf_lt {l : List ℕ} {a j : ℕ} (hmem : a ∈ l)
    (h : List.indexOf a l < j) : a ∈ l.take j := by
  have hl : List.indexOf a l < l.length := List.indexOf_lt_length.mpr hmem
  exact List.mem_take_iff_getElem.mpr
    ⟨List.indexOf a l, lt_min h hl, List.getElem_indexOf hl⟩

theorem accepted_nodup (corr : Mat) :
    (acceptedFrom corr (argsortFlatDesc corr) (singletonParts corr.p)).Nodup :=
  (argsortFlatDesc_nodup corr).sublist (acceptedFrom_sublist _ _)

theorem accepted_mem_vals {corr : Mat} {v : ℕ}
    (h : v ∈ acceptedFrom corr (argsortFlatDesc corr) (singletonParts corr.p)) :
    v ∈ argsortFlatDesc corr :=
  (acceptedFrom_sublist _ _).mem h

/-- The accepted positions among the first `j` candidates are exactly the
acceptances of the prefix run. -/
theorem accepted_prefix_card (corr : Mat) (j : ℕ) :
    (((acceptedFrom corr (argsortFlatDesc corr) (singletonParts corr.p)).toFinset.image
        (fun v => List.indexOf v (argsortFlatDesc corr))) ∩ Finset.range j).card =
      (acceptedFrom corr ((argsortFlatDesc corr).take j) (singletonParts corr.p)).length := by
  classical
  set vals := argsortFlatDesc corr with hvals
  set A := acceptedFrom corr vals (singletonParts corr.p) with hA
  set A1 := acceptedFrom corr (vals.take j) (singletonParts corr.p) with hA1
  set A2 := acceptedFrom corr (vals.drop j)
    (partsAfter corr (vals.take j) (singletonParts corr.p)) with hA2
  have hnd : vals.Nodup := argsortFlatDesc_nodup corr
  have hsplit : A = A1 ++ A2 := by
    have := @acceptedFrom_append corr (vals.take j) (vals.drop j)
      (singletonParts corr.p)
    rw [List.take_append_drop] at this
    exact this
  have hA1take : ∀ v ∈ A1, v ∈ vals.take j := fun v hv => (acceptedFrom_sublist _ _).mem hv
  have hA1nodup : A1.Nodup := ((hnd.sublist (List.take_sublist j vals)).sublist
    (acceptedFrom_sublist _ _))
  have hEq : ((A.toFinset.image (fun v => List.indexOf v vals)) ∩ Finset.range j) =
      A1.toFinset.image (fun v => List.indexOf v vals) := by
    ext q
    simp only [Finset.mem_inter, Finset.mem_image, List.mem_toFinset, Finset.mem_range]
    constructor
    · rintro ⟨⟨v, hvA, rfl⟩, hqj⟩
      have hvv : v ∈ vals := (acceptedFrom_sublist _ _).mem hvA
      have hvtake : v ∈ vals.take j := mem_take_of_indexOf_lt hvv hqj
      rw [hsplit, List.mem_append] at hvA
      rcases hvA with hv1 | hv2
      · exact ⟨v, hv1, rfl⟩
      · exfalso
        have hvdrop : v ∈ vals.drop j := (acceptedFrom_sublist _ _).mem hv2
        exact (List.disjoint_take_drop hnd le_rfl) hvtake hvdrop
    · rintro ⟨v, hv1, rfl⟩
      have hvtake := hA1take v hv1
      refine ⟨⟨v, ?_, rfl⟩, indexOf_lt_of_mem_take hnd hvtake⟩
      rw [hsplit, List.mem_append]
      exact Or.inl hv1
  rw [hEq]
  have hinj : Set.InjOn (fun v => List.indexOf v vals) ↑A1.toFinset := by
    intro v1 hv1 v2 hv2 heq
    simp only [List.coe_toFinset, Set.mem_setOf_eq] at hv1 hv2
    have hm1 : v1 ∈ vals := List.mem_of_mem_take (hA1take v1 hv1)
    have hm2 : v2 ∈ vals := List.mem_of_mem_take (hA1take v2 hv2)
    have hl1 : List.indexOf v1 vals < vals.length := List.indexOf_lt_length.mpr hm1
    have hl2 : List.indexOf v2 vals < vals.length := List.indexOf_lt_length.mpr hm2
    calc v1 = vals[List.indexOf v1 vals] := (List.getElem_indexOf hl1).symm
      _ = vals[List.indexOf v2 vals] := by simp only [heq]
      _ = v2 := List.getElem_indexOf hl2
  rw [Finset.card_image_of_injOn hinj, List.toFinset_card_of_nodup hA1nodup]

/-- The accepted positions as a whole count the accepted edges. -/
theorem accepted_total_card (corr : Mat) :
    ((acceptedFrom corr (argsortFlatDesc corr) (singletonParts corr.p)).toFinset.image
        (fun v => List.indexOf v (argsortFlatDesc corr))).card =
      (acceptedFrom corr (argsortFlatDesc corr) (singletonParts corr.p)).length := by
  classical
  set vals := argsortFlatDesc corr with hvals
  set A := acceptedFrom corr vals (singletonParts corr.p) with hA
  have hinj : Set.InjOn (fun v => List.indexOf v vals) ↑A.toFinset := by
    intro v1 hv1 v2 hv2 heq
    simp only [List.coe_toFinset, Set.mem_setOf_eq] at hv1 hv2
    have hm1 : v1 ∈ vals := accepted_mem_vals hv1
    have hm2 : v2 ∈ vals := accepted_mem_vals hv2
    have hl1 : List.indexOf v1 vals < vals.length := List.indexOf_lt_length.mpr hm1
    have hl2 : List.indexOf v2 vals < vals.length := List.indexOf_lt_length.mpr hm2
    calc v1 = vals[List.indexOf v1 vals] := (List.getElem_indexOf hl1).symm
      _ = vals[List.indexOf v2 vals] := by simp only [heq]
      _ = v2 := List.getElem_indexOf hl2
  rw [Finset.card_image_of_injOn hinj, List.toFinset_card_of_nodup (accepted_nodup corr)]

/-- Summing the key over the accepted positions gives the tree's total
weight. -/
theorem accepted_sum (corr : Mat) :
    ∑ q ∈ ((acceptedFrom corr (argsortFlatDesc corr) (singletonParts corr.p)).toFinset.image
        (fun v => List.indexOf v (argsortFlatDesc corr))),
      flatKey corr ((argsortFlatDesc corr).getD q 0) = (mst corr).totalWeight := by
  classical
  set vals := argsortFlatDesc corr with hvals
  set A := acceptedFrom corr vals (singletonParts corr.p) with hA
  have hsum1 : ∑ q ∈ (A.toFinset.image (fun v => List.indexOf v vals)),
      flatKey corr (vals.getD q 0) =
      ∑ v ∈ A.toFinset, flatKey corr (vals.getD (List.indexOf v vals) 0) := by
    refine Finset.sum_image ?_
    intro v1 hv1 v2 hv2 heq
    have hm1 : v1 ∈ vals := accepted_mem_vals (List.mem_toFinset.mp hv1)
    have hm2 : v2 ∈ vals := accepted_mem_vals (List.mem_toFinset.mp hv2)
    have hl1 : List.indexOf v1 vals < vals.length := List.indexOf_lt_length.mpr hm1
    have hl2 : List.indexOf v2 vals < vals.length := List.indexOf_lt_length.mpr hm2
    calc v1 = vals[List.indexOf v1 vals] := (List.getElem_indexOf hl1).symm
      _ = vals[List.indexOf v2 vals] := by simp only [heq]
      _ = v2 := List.getElem_indexOf hl2
  rw [hsum1]
  have hsum2 : ∑ v ∈ A.toFinset, flatKey corr (vals.getD (List.indexOf v vals) 0) =
      ∑ v ∈ A.toFinset, flatKey corr v := by
    refine Finset.sum_congr rfl ?_
    intro v hv
    have hm : v ∈ vals := accepted_mem_vals (List.mem_toFinset.mp hv)
    have hl : List.indexOf v vals < vals.length := List.indexOf_lt_length.mpr hm
    rw [List.getD_eq_getElem vals 0 hl, List.getElem_indexOf hl]
  rw [hsum2, List.sum_toFinset _ (accepted_nodup corr)]
  -- now compare with the graph's total weight
  have hb : ∀ v ∈ vals, v < corr.p * corr.p := fun v hv => argsortFlatDesc_mem.mp hv
  have hedges : (mst corr).edges = A.map
      (fun v => (flatI corr.p v, flatJ corr.p v,
        corr.entry (flatI corr.p v) (flatJ corr.p v))) := by
    rw [(mst_run corr).2, kruskalNoBreak_edges (mstInv_base corr) hb]
    rfl
  unfold NXGraph.totalWeight
  rw [hedges, List.map_map]
  rfl

theorem encPair_inj {p : ℕ} {e f : ℕ × ℕ} (he1 : e.1 < p) (he2 : e.2 < p)
    (hf1 : f.1 < p) (hf2 : f.2 < p) (h : encPair p e = encPair p f) : e = f := by
  obtain ⟨a1, a2⟩ := @encPair_decode p _ he1 he2
  obtain ⟨b1, b2⟩ := @encPair_decode p _ hf1 hf2
  refine Prod.ext_iff.mpr ⟨?_, ?_⟩
  · rw [← a1, h, b1]
  · rw [← a2, h, b2]

/-- C2: for every symmetric correlation matrix with `p ≥ 2`, `mst` returns a
connected acyclic graph with exactly `p − 1` edges whose total weight is
maximal among all spanning trees of the weighted complete graph on
`{0, …, p−1}`. -/
theorem C2_mst_maximum_spanning_tree (corr : Mat)
    (hsym : ∀ i j, i < corr.p → j < corr.p → corr.entry i j = corr.entry j i)
    (hp : 2 ≤ corr.p) :
    (mst corr).ConnectedOn corr.p ∧ (mst corr).Acyclic ∧
    (mst corr).edgeCount = corr.p - 1 ∧
    (∀ T : Finset (ℕ × ℕ), IsSpanningTree corr.p T →
      pairWeight corr T ≤ (mst corr).totalWeight) := by
  have hp0 : 0 < corr.p := by omega
  refine ⟨mst_connected corr, mst_acyclic corr, mst_edgeCount corr hp0, ?_⟩
  intro T hT
  classical
  set vals := argsortFlatDesc corr with hvals
  set posOf : ℕ × ℕ → ℕ := fun e => min (List.indexOf (encPair corr.p e) vals)
    (List.indexOf (encPair corr.p (e.2, e.1)) vals) with hposOf
  obtain ⟨hbd0, hconn, hacyT⟩ := hT
  have hbdT : ∀ e ∈ T, e.1 < corr.p ∧ e.2 < corr.p ∧ e.1 ≠ e.2 := fun e he =>
    ⟨lt_trans (hbd0 e he).1 (hbd0 e he).2, (hbd0 e he).2, ne_of_lt (hbd0 e he).1⟩
  have hnd : vals.Nodup := argsortFlatDesc_nodup corr
  have hmemenc : ∀ e ∈ T, encPair corr.p e ∈ vals ∧ encPair corr.p (e.2, e.1) ∈ vals := by
    intro e he
    obtain ⟨h1, h2, _⟩ := hbdT e he
    exact ⟨argsortFlatDesc_mem.mpr (encPair_lt h1 h2),
      argsortFlatDesc_mem.mpr (@encPair_lt _ (e.2, e.1) h2 h1)⟩
  have hval_at : ∀ e ∈ T, vals.getD (posOf e) 0 = encPair corr.p e ∨
      vals.getD (posOf e) 0 = encPair corr.p (e.2, e.1) := by
    intro e he
    obtain ⟨hm1, hm2⟩ := hmemenc e he
    have hl1 : List.indexOf (encPair corr.p e) vals < vals.length :=
      List.indexOf_lt_length.mpr hm1
    have hl2 : List.indexOf (encPair corr.p (e.2, e.1)) vals < vals.length :=
      List.indexOf_lt_length.mpr hm2
    rcases min_choice (List.indexOf (encPair corr.p e) vals)
        (List.indexOf (encPair corr.p (e.2, e.1)) vals) with hmin | hmin
    · left
      rw [hposOf]
      simp only
      rw [hmin, List.getD_eq_getElem vals 0 hl1, List.getElem_indexOf hl1]
    · right
      rw [hposOf]
      simp only
      rw [hmin, List.getD_eq_getElem vals 0 hl2, List.getElem_indexOf hl2]
  have hkey : ∀ e ∈ T, flatKey corr (vals.getD (posOf e) 0) = corr.entry e.1 e.2 := by
    intro e he
    obtain ⟨h1, h2, hne⟩ := hbdT e he
    rcases hval_at e he with h | h <;> rw [h]
    · unfold flatKey
      obtain ⟨d1, d2⟩ := @encPair_decode corr.p _ h1 h2
      rw [d1, d2]
    · unfold flatKey
      obtain ⟨d1, d2⟩ := @encPair_decode corr.p (e.2, e.1) h2 h1
      rw [d1, d2]
      exact hsym e.2 e.1 h2 h1
  have hinj : Set.InjOn posOf ↑T := by
    intro e heT f hfT heq
    simp only [Finset.coe_mem, Set.mem_setOf_eq, Finset.mem_coe] at heT hfT
    obtain ⟨he1, he2, hene⟩ := hbdT e heT
    obtain ⟨hf1, hf2, hfne⟩ := hbdT f hfT
    have hvale := hval_at e heT
    have hvalf := hval_at f hfT
    rw [heq] at hvale
    have hcan_e := (hbd0 e heT).1
    have hcan_f := (hbd0 f hfT).1
    rcases hvale with h | h <;> rcases hvalf with h' | h' <;> rw [h'] at h
    · exact (encPair_inj hf1 hf2 he1 he2 h).symm
    · exfalso
      have := @encPair_inj corr.p _ _ hf2 hf1 he1 he2 h
      rw [Prod.ext_iff] at this
      simp only at this
      omega
    · exfalso
      have := @encPair_inj corr.p _ _ hf1 hf2 he2 he1 h
      rw [Prod.ext_iff] at this
      simp only at this
      omega
    · have := @encPair_inj corr.p _ _ hf2 hf1 he2 he1 h
      rw [Prod.ext_iff] at this
      simp only at this
      exact Prod.ext_iff.mpr ⟨this.2.symm, this.1.symm⟩
  have hposlt : ∀ e ∈ T, ∀ j, (posOf e < j ↔ (encPair corr.p e ∈ vals.take j ∨
      encPair corr.p (e.2, e.1) ∈ vals.take j)) := by
    intro e he j
    obtain ⟨hm1, hm2⟩ := hmemenc e he
    rw [hposOf]
    simp only
    rw [min_lt_iff]
    constructor
    · rintro (h | h)
      · exact Or.inl (mem_take_of_indexOf_lt hm1 h)
      · exact Or.inr (mem_take_of_indexOf_lt hm2 h)
    · rintro (h | h)
      · exact Or.inl (indexOf_lt_of_mem_take hnd h)
      · exact Or.inr (indexOf_lt_of_mem_take hnd h)
  -- per-prefix dominance in position form
  have hdom : ∀ j, ((T.image posOf) ∩ Finset.range j).card ≤
      (((acceptedFrom corr vals (singletonParts corr.p)).toFinset.image
        (fun v => List.indexOf v vals)) ∩ Finset.range j).card := by
    intro j
    rw [accepted_prefix_card corr j]
    set Socc := T.filter (fun e => encPair corr.p e ∈ vals.take j ∨
      encPair corr.p (e.2, e.1) ∈ vals.take j) with hSocc
    have hEq : (T.image posOf) ∩ Finset.range j = Socc.image posOf := by
      ext q
      simp only [Finset.mem_inter, Finset.mem_image, Finset.mem_range, hSocc,
        Finset.mem_filter]
      constructor
      · rintro ⟨⟨e, heT, rfl⟩, hqj⟩
        exact ⟨e, ⟨heT, (hposlt e heT j).mp hqj⟩, rfl⟩
      · rintro ⟨e, ⟨heT, hocc⟩, rfl⟩
        exact ⟨⟨e, heT, rfl⟩, (hposlt e heT j).mpr hocc⟩
    rw [hEq]
    have hinjS : Set.InjOn posOf ↑Socc := fun a ha b hb hab =>
      hinj (by exact Finset.mem_coe.mpr (Finset.filter_subset _ _ (Finset.mem_coe.mp ha)))
        (by exact Finset.mem_coe.mpr (Finset.filter_subset _ _ (Finset.mem_coe.mp hb))) hab
    rw [Finset.card_image_of_injOn hinjS]
    exact prefix_dominance hacyT hbdT j
  -- totals agree
  have hTcard : T.card + 1 = corr.p := isSpanningTree_card ⟨hbd0, hconn, hacyT⟩ hp0
  have hb : ∀ v ∈ vals, v < corr.p * corr.p := fun v hv => argsortFlatDesc_mem.mp hv
  have hAlen : (acceptedFrom corr vals (singletonParts corr.p)).length + 1 = corr.p := by
    have h1 := @acceptedFrom_length corr _ _ (singletonParts_valid corr.p) hb
    rw [singletonParts_length] at h1
    have h2 := mst_parts_length_one corr hp0
    rw [← hvals] at h2
    omega
  have hcards : ((T.image posOf)).card =
      ((acceptedFrom corr vals (singletonParts corr.p)).toFinset.image
        (fun v => List.indexOf v vals)).card := by
    rw [Finset.card_image_of_injOn hinj, accepted_total_card corr]
    rw [← hvals]
    omega
  -- subsets of range N
  have hTsub : T.image posOf ⊆ Finset.range vals.length := by
    intro q hq
    obtain ⟨e, he, rfl⟩ := Finset.mem_image.mp hq
    obtain ⟨hm1, _⟩ := hmemenc e he
    rw [Finset.mem_range, hposOf]
    simp only
    exact lt_of_le_of_lt (min_le_left _ _) (List.indexOf_lt_length.mpr hm1)
  have hAsub : ((acceptedFrom corr vals (singletonParts corr.p)).toFinset.image
      (fun v => List.indexOf v vals)) ⊆ Finset.range vals.length := by
    intro q hq
    obtain ⟨v, hv, rfl⟩ := Finset.mem_image.mp hq
    rw [Finset.mem_range]
    exact List.indexOf_lt_length.mpr (accepted_mem_vals (List.mem_toFinset.mp hv))
  -- antitone weights along positions
  have hanti : ∀ i k, i ≤ k → k < vals.length →
      flatKey corr (vals.getD k 0) ≤ flatKey corr (vals.getD i 0) := by
    intro i k hik hk
    have hi : i < vals.length := lt_of_le_of_lt (by omega) hk
    rcases Nat.lt_or_ge i k with hlt | hge
    · have := (List.pairwise_iff_getElem.mp (argsortFlatDesc_sorted corr)) i k hi hk hlt
      rwa [List.getD_eq_getElem vals 0 hi, List.getD_eq_getElem vals 0 hk]
    · have : i = k := by omega
      subst this
      exact le_refl _
  have hdsum := dominance_sum (fun q => flatKey corr (vals.getD q 0)) vals.length
    ((acceptedFrom corr vals (singletonParts corr.p)).toFinset.image
      (fun v => List.indexOf v vals))
    (T.image posOf) hAsub hTsub hanti hdom hcards
  -- identify the two sums
  have hsumT : ∑ q ∈ T.image posOf, flatKey corr (vals.getD q 0) = pairWeight corr T := by
    rw [Finset.sum_image (fun a ha b hb hab => hinj (Finset.mem_coe.mpr ha)
      (Finset.mem_coe.mpr hb) hab)]
    unfold pairWeight
    exact Finset.sum_congr rfl (fun e he => hkey e he)
  rw [hsumT] at hdsum
  rw [accepted_sum corr] at hdsum
  exact hdsum

theorem rtg_eq_of_no_rel {r : ℕ → ℕ → Prop} (h : ∀ a b, ¬ r a b) {u v : ℕ}
    (hr : Relation.ReflTransGen r u v) : u = v := by
  induction hr with
  | refl => rfl
  | tail _ hbc _ => exact absurd hbc (h _ _)

/-! ### PMFG lemmas -/

theorem addNode_noop {G : NXGraph} {u : ℕ} (h : u ∈ G.nodes) : G.addNode u = G := by
  unfold NXGraph.addNode
  rw [if_pos h]

theorem addEdge_nodes_noop {G : NXGraph} {i j : ℕ} {w : ℚ}
    (hi : i ∈ G.nodes) (hj : j ∈ G.nodes) : (G.addEdge i j w).nodes = G.nodes := by
  unfold NXGraph.addEdge
  rw [addNode_noop hi, addNode_noop hj]
  split_ifs <;> rfl

theorem removeEdge_nodes (G : NXGraph) (a b : ℕ) : (G.removeEdge a b).nodes = G.nodes := rfl

theorem edgeCount_addEdge_le (G : NXGraph) (i j : ℕ) (w : ℚ) :
    (G.addEdge i j w).edgeCount ≤ G.edgeCount + 1 := by
  unfold NXGraph.edgeCount
  by_cases h : G.hasEdgeB i j = true
  · rw [addEdge_edges_update G i j w h, List.length_map]
    omega
  · rw [Bool.not_eq_true] at h
    rw [addEdge_edges G i j w h, List.length_append]
    simp

theorem edgeCount_removeEdge_le (G : NXGraph) (a b : ℕ) :
    (G.removeEdge a b).edgeCount ≤ G.edgeCount :=
  List.length_filter_le _ _

theorem skeleton_addEdge_update {G : NXGraph} {i j : ℕ} {w : ℚ}
    (h : G.hasEdgeB i j = true) (hi : i ∈ G.nodes) (hj : j ∈ G.nodes) :
    (G.addEdge i j w).skeleton = G.skeleton := by
  unfold NXGraph.skeleton
  rw [addEdge_nodes_noop hi hj, addEdge_edges_update G i j w h, List.map_map]
  refine congrArg _ ?_
  refine congrArg (fun f => List.map f G.edges) ?_
  funext e
  simp only [Function.comp_apply]
  split_ifs <;> rfl

theorem skeleton_revert {G : NXGraph} {i j : ℕ} {w : ℚ}
    (h : G.hasEdgeB i j = false) (hi : i ∈ G.nodes) (hj : j ∈ G.nodes) :
    ((G.addEdge i j w).removeEdge i j).skeleton = G.skeleton := by
  unfold NXGraph.skeleton
  rw [removeEdge_nodes, addEdge_nodes_noop hi hj, removeEdge_addEdge_new G i j w h]

theorem addNodesFrom_fresh : ∀ (l : List ℕ) (G : NXGraph), (∀ x ∈ l, x ∉ G.nodes) →
    l.Nodup → (G.addNodesFrom l).nodes = G.nodes ++ l
  | [], G, _, _ => by simp [NXGraph.addNodesFrom]
  | x :: tl, G, hfresh, hnd => by
    unfold NXGraph.addNodesFrom
    simp only [List.foldl_cons]
    have hx : x ∉ G.nodes := hfresh x (by simp)
    have hstep : (G.addNode x).nodes = G.nodes ++ [x] := by
      unfold NXGraph.addNode
      rw [if_neg hx]
    have hfresh' : ∀ y ∈ tl, y ∉ (G.addNode x).nodes := by
      intro y hy
      rw [hstep]
      rw [List.mem_append, List.mem_singleton]
      push_neg
      exact ⟨hfresh y (by simp [hy]), fun hyx => (List.nodup_cons.mp hnd).1 (hyx ▸ hy)⟩
    have := addNodesFrom_fresh tl (G.addNode x) hfresh' (List.nodup_cons.mp hnd).2
    unfold NXGraph.addNodesFrom at this
    rw [this, hstep]
    simp

theorem pmfg_initial_nodes (p : ℕ) :
    (NXGraph.emptyGraph.addNodesFrom (List.range p)).nodes = List.range p := by
  have := addNodesFrom_fresh (List.range p) NXGraph.emptyGraph
    (fun x _ => by simp [NXGraph.emptyGraph]) (List.nodup_range p)
  rw [this]
  simp [NXGraph.emptyGraph]

theorem pmfgLoop_cons (oracle : List ℕ × List (ℕ × ℕ) → Bool) (corr : Mat) (v : ℕ)
    (rest : List ℕ) (G : NXGraph) :
    pmfgLoop oracle corr (v :: rest) G =
      (if flatI corr.p v = flatJ corr.p v then pmfgLoop oracle corr rest G
       else
         (if (if oracle (G.addEdge (flatI corr.p v) (flatJ corr.p v)
                  (corr.entry (flatI corr.p v) (flatJ corr.p v))).skeleton then
                G.addEdge (flatI corr.p v) (flatJ corr.p v)
                  (corr.entry (flatI corr.p v) (flatJ corr.p v))
              else (G.addEdge (flatI corr.p v) (flatJ corr.p v)
                  (corr.entry (flatI corr.p v) (flatJ corr.p v))).removeEdge
                  (flatI corr.p v) (flatJ corr.p v)).edgeCount = 3 * (corr.p - 2) then
            (if oracle (G.addEdge (flatI corr.p v) (flatJ corr.p v)
                  (corr.entry (flatI corr.p v) (flatJ corr.p v))).skeleton then
                G.addEdge (flatI corr.p v) (flatJ corr.p v)
                  (corr.entry (flatI corr.p v) (flatJ corr.p v))
              else (G.addEdge (flatI corr.p v) (flatJ corr.p v)
                  (corr.entry (flatI corr.p v) (flatJ corr.p v))).removeEdge
                  (flatI corr.p v) (flatJ corr.p v))
          else pmfgLoop oracle corr rest
            (if oracle (G.addEdge (flatI corr.p v) (flatJ corr.p v)
                  (corr.entry (flatI corr.p v) (flatJ corr.p v))).skeleton then
                G.addEdge (flatI corr.p v) (flatJ corr.p v)
                  (corr.entry (flatI corr.p v) (flatJ corr.p v))
              else (G.addEdge (flatI corr.p v) (flatJ corr.p v)
                  (corr.entry (flatI corr.p v) (flatJ corr.p v))).removeEdge
                  (flatI corr.p v) (flatJ corr.p v)))) := rfl

theorem pmfgTrace_cons (oracle : List ℕ × List (ℕ × ℕ) → Bool) (corr : Mat) (v : ℕ)
    (rest : List ℕ) (G : NXGraph) :
    pmfgTrace oracle corr (v :: rest) G =
      (if flatI corr.p v = flatJ corr.p v then pmfgTrace oracle corr rest G
       else
         (if oracle (G.addEdge (flatI corr.p v) (flatJ corr.p v)
              (corr.entry (flatI corr.p v) (flatJ corr.p v))).skeleton then
            G.addEdge (flatI corr.p v) (flatJ corr.p v)
              (corr.entry (flatI corr.p v) (flatJ corr.p v))
          else (G.addEdge (flatI corr.p v) (flatJ corr.p v)
              (corr.entry (flatI corr.p v) (flatJ corr.p v))).removeEdge
              (flatI corr.p v) (flatJ corr.p v)) ::
         (if (if oracle (G.addEdge (flatI corr.p v) (flatJ corr.p v)
                  (corr.entry (flatI corr.p v) (flatJ corr.p v))).skeleton then
                G.addEdge (flatI corr.p v) (flatJ corr.p v)
                  (corr.entry (flatI corr.p v) (flatJ corr.p v))
              else (G.addEdge (flatI corr.p v) (flatJ corr.p v)
                  (corr.entry (flatI corr.p v) (flatJ corr.p v))).removeEdge
                  (flatI corr.p v) (flatJ corr.p v)).edgeCount = 3 * (corr.p - 2) then
            ([] : List NXGraph)
          else pmfgTrace oracle corr rest
            (if oracle (G.addEdge (flatI corr.p v) (flatJ corr.p v)
                  (corr.entry (flatI corr.p v) (flatJ corr.p v))).skeleton then
                G.addEdge (flatI corr.p v) (flatJ corr.p v)
                  (corr.entry (flatI corr.p v) (flatJ corr.p v))
              else (G.addEdge (flatI corr.p v) (flatJ corr.p v)
                  (corr.entry (flatI corr.p v) (flatJ corr.p v))).removeEdge
                  (flatI corr.p v) (flatJ corr.p v)))) := rfl

/-- Each step of the `pmfg` loop preserves the planarity verdict of the
oracle and the node list, on every intermediate graph. -/
theorem pmfgLoop_oracle {oracle : List ℕ × List (ℕ × ℕ) → Bool} {corr : Mat} :
    ∀ {vs : List ℕ} {G : NXGraph}, (∀ v ∈ vs, v < corr.p * corr.p) →
    G.nodes = List.range corr.p → oracle G.skeleton = true →
    oracle (pmfgLoop oracle corr vs G).skeleton = true ∧
      (pmfgLoop oracle corr vs G).nodes = List.range corr.p ∧
      (∀ H ∈ pmfgTrace oracle corr vs G, oracle H.skeleton = true)
  | [], G, _, hn, ho => ⟨ho, hn, by simp [pmfgTrace]⟩
  | v :: rest, G, hb, hn, ho => by
    have hv := hb v (by simp)
    obtain ⟨hi, hj⟩ := flat_bounds hv
    have hbrest : ∀ x ∈ rest, x < corr.p * corr.p := fun x hx => hb x (by simp [hx])
    have hin : flatI corr.p v ∈ G.nodes := by rw [hn]; exact List.mem_range.mpr hi
    have hjn : flatJ corr.p v ∈ G.nodes := by rw [hn]; exact List.mem_range.mpr hj
    rw [pmfgLoop_cons, pmfgTrace_cons]
    by_cases h1 : flatI corr.p v = flatJ corr.p v
    · rw [if_pos h1, if_pos h1]
      exact pmfgLoop_oracle hbrest hn ho
    · rw [if_neg h1, if_neg h1]
      set i := flatI corr.p v
      set j := flatJ corr.p v
      set G1 := G.addEdge i j (corr.entry i j) with hG1
      by_cases hor : oracle G1.skeleton = true
      · -- kept
        rw [if_pos hor]
        have hn1 : G1.nodes = List.range corr.p := by
          rw [hG1, addEdge_nodes_noop hin hjn, hn]
        by_cases hbreak : G1.edgeCount = 3 * (corr.p - 2)
        · rw [if_pos hbreak, if_pos hbreak]
          exact ⟨hor, hn1, by
            intro H hH
            rcases List.mem_cons.mp hH with rfl | hH
            · exact hor
            · simp at hH⟩
        · rw [if_neg hbreak, if_neg hbreak]
          obtain ⟨ha, hb', hc⟩ := pmfgLoop_oracle hbrest hn1 hor
          refine ⟨ha, hb', ?_⟩
          intro H hH
          rcases List.mem_cons.mp hH with rfl | hH
          · exact hor
          · exact hc H hH
      · -- reverted: the graph returns to its previous (oracle-true) state
        rw [if_neg hor]
        have hhasf : G.hasEdgeB i j = false := by
          by_contra hc
          rw [Bool.not_eq_false] at hc
          have : G1.skeleton = G.skeleton := skeleton_addEdge_update hc hin hjn
          rw [this, ho] at hor
          exact hor rfl
        set G2 := G1.removeEdge i j with hG2
        have hsk : G2.skeleton = G.skeleton := skeleton_revert hhasf hin hjn
        have hor2 : oracle G2.skeleton = true := by rw [hsk]; exact ho
        have hn2 : G2.nodes = List.range corr.p := by
          rw [hG2, removeEdge_nodes, hG1, addEdge_nodes_noop hin hjn, hn]
        by_cases hbreak : G2.edgeCount = 3 * (corr.p - 2)
        · rw [if_pos hbreak, if_pos hbreak]
          exact ⟨hor2, hn2, by
            intro H hH
            rcases List.mem_cons.mp hH with rfl | hH
            · exact hor2
            · simp at hH⟩
        · rw [if_neg hbreak, if_neg hbreak]
          obtain ⟨ha, hb', hc⟩ := pmfgLoop_oracle hbrest hn2 hor2
          refine ⟨ha, hb', ?_⟩
          intro H hH
          rcases List.mem_cons.mp hH with rfl | hH
          · exact hor2
          · exact hc H hH

/-- The `pmfg` loop never exceeds `3(p−2)` edges once below that bound. -/
theorem pmfgLoop_bound {oracle : List ℕ × List (ℕ × ℕ) → Bool} {corr : Mat} :
    ∀ {vs : List ℕ} {G : NXGraph}, G.edgeCount < 3 * (corr.p - 2) →
    (pmfgLoop oracle corr vs G).edgeCount ≤ 3 * (corr.p - 2)
  | [], G, h => le_of_lt h
  | v :: rest, G, h => by
    rw [pmfgLoop_cons]
    by_cases h1 : flatI corr.p v = flatJ corr.p v
    · rw [if_pos h1]
      exact pmfgLoop_bound h
    · rw [if_neg h1]
      set i := flatI corr.p v
      set j := flatJ corr.p v
      set G1 := G.addEdge i j (corr.entry i j) with hG1
      set G2 := if oracle G1.skeleton then G1 else G1.removeEdge i j with hG2
      have hcount : G2.edgeCount ≤ G.edgeCount + 1 := by
        rw [hG2]
        split_ifs
        · exact edgeCount_addEdge_le G i j _
        · exact le_trans (edgeCount_removeEdge_le G1 i j) (edgeCount_addEdge_le G i j _)
      by_cases hbreak : G2.edgeCount = 3 * (corr.p - 2)
      · rw [if_pos hbreak]
        omega
      · rw [if_neg hbreak]
        exact pmfgLoop_bound (by omega)

theorem addNodesFrom_edges : ∀ (l : List ℕ) (G : NXGraph),
    (G.addNodesFrom l).edges = G.edges
  | [], G => rfl
  | x :: tl, G => by
    unfold NXGraph.addNodesFrom
    simp only [List.foldl_cons]
    have := addNodesFrom_edges tl (G.addNode x)
    unfold NXGraph.addNodesFrom at this
    rw [this]
    unfold NXGraph.addNode
    split_ifs <;> rfl

/-- C3 counterexample: on a 2×2 correlation matrix, `pmfg` returns one edge
although `3p − 6 = 0`, so the edge bound of the claim fails for `p = 2`.
Every graph on two nodes is planar, so the constant-true oracle agrees with
the real planarity test on every graph this run queries. -/
theorem C3_pmfg_bound_fails_p2 :
    (pmfg (fun _ => true) mat2ex).edgeCount = 1 ∧ 3 * mat2ex.p - 6 = 0 := by
  constructor
  · decide
  · rfl

/-- C3 (amended): for every planarity oracle and matrix, the graph after
every processed candidate — in particular the returned graph — passes the
planarity test whenever the initial edgeless graph does (the tentative edge
is reverted whenever the test fails), and for `p ≥ 3` the result has at
most `3p − 6` edges.  (The counterexample forces the restriction to
`p ≥ 3` for the edge bound.) -/
theorem C3_pmfg_planar_bounded (oracle : List ℕ × List (ℕ × ℕ) → Bool) (corr : Mat)
    (hinit : oracle (NXGraph.emptyGraph.addNodesFrom (List.range corr.p)).skeleton = true) :
    oracle (pmfg oracle corr).skeleton = true ∧
    (∀ H ∈ pmfgTrace oracle corr (argsortFlatDesc corr)
        (NXGraph.emptyGraph.addNodesFrom (List.range corr.p)),
      oracle H.skeleton = true) ∧
    (3 ≤ corr.p → (pmfg oracle corr).edgeCount ≤ 3 * corr.p - 6) := by
  have hb : ∀ v ∈ argsortFlatDesc corr, v < corr.p * corr.p :=
    fun v hv => argsortFlatDesc_mem.mp hv
  obtain ⟨ha, _, hc⟩ := pmfgLoop_oracle hb (pmfg_initial_nodes corr.p) hinit
  refine ⟨ha, hc, ?_⟩
  intro hp3
  have h0 : (NXGraph.emptyGraph.addNodesFrom (List.range corr.p)).edgeCount = 0 := by
    unfold NXGraph.edgeCount
    rw [addNodesFrom_edges]
    rfl
  have hlt : (NXGraph.emptyGraph.addNodesFrom (List.range corr.p)).edgeCount <
      3 * (corr.p - 2) := by omega
  have := @pmfgLoop_bound oracle corr (argsortFlatDesc corr) _ hlt
  unfold pmfg
  omega

/-- C3 witness: the amended theorem at a concrete 3×3 matrix with the
constant-true oracle (sound for every planar graph). -/
theorem C3_pmfg_planar_bounded_witness :
    (fun (_ : List ℕ × List (ℕ × ℕ)) => true) (pmfg (fun _ => true) mat3ex).skeleton = true ∧
    (∀ H ∈ pmfgTrace (fun _ => true) mat3ex (argsortFlatDesc mat3ex)
        (NXGraph.emptyGraph.addNodesFrom (List.range mat3ex.p)),
      (fun (_ : List ℕ × List (ℕ × ℕ)) => true) H.skeleton = true) ∧
    (3 ≤ mat3ex.p → (pmfg (fun _ => true) mat3ex).edgeCount ≤ 3 * mat3ex.p - 6) :=
  C3_pmfg_planar_bounded (fun _ => true) mat3ex rfl

/-! ### The TMFG seeding: failure below four nodes (claim C6) -/

/-- The argsort permutes `range p`, so `ind` has length `p`. -/
theorem tmfgInd_length (corr : Mat) (absolute : Bool) :
    (tmfgInd corr absolute).length = corr.p := by
  unfold tmfgInd
  rw [List.length_reverse,
    (List.perm_insertionSort (centAsc corr absolute) (List.range corr.p)).length_eq,
    List.length_range]

/-- C6: for an input with `p < 4` the TMFG builder fails with numpy's
`IndexError` (the spec's `InvalidInput`): the seeding reads `ind[0..3]` from
the argsorted centrality vector, which has only `p` entries. -/
theorem C6_tmfg_small_p_fails (corr : Mat) (absolute : Bool) (h : corr.p < 4) :
    tmfg corr absolute = .error .indexError := by
  unfold tmfg
  rw [if_neg]
  rw [tmfgInd_length]
  omega

/-- C6 witness: the theorem at the concrete 2×2 matrix. -/
theorem C6_tmfg_small_p_fails_witness :
    mat2ex.p < 4 ∧ tmfg mat2ex false = .error .indexError :=
  ⟨by decide, C6_tmfg_small_p_fails mat2ex false (by decide)⟩

/-! ### The face-insertion guards (claim C7) -/

/-- A scalar node with a face of at most 3 members is accepted: the routine
folds `add_edge` over the face. -/
theorem addTri_ok (G : NXGraph) (n : ℕ) (old_set : List ℕ) (C : Mat)
    (faces : List (Finset ℕ)) (h : old_set.length ≤ 3) :
    _add_triangular_face G (.int n) old_set C faces =
      .ok (old_set.foldl (fun H j => H.addEdge n j (C.entry n j)) G) := by
  unfold _add_triangular_face
  dsimp only
  rw [if_neg (by omega : ¬ old_set.length > 3)]

/-- C7 counterexample: a 2-member face — arity other than 3 — is accepted
without any `ValueError`: the guard only rejects faces of more than 3
members. -/
theorem C7_small_face_accepted :
    _add_triangular_face NXGraph.emptyGraph (.int 0) [1, 2] mat2ex [] =
      .ok ((NXGraph.emptyGraph.addEdge 0 1 (mat2ex.entry 0 1)).addEdge 0 2
        (mat2ex.entry 0 2)) := by
  rfl

/-- C7 (amended): the insertion routine rejects a sized node argument with
`ValueError("New should be a scaler")` and a face of **more than** 3 members
with `ValueError("Old set is not the right size!")`; every face of at most 3
members is accepted and its members are connected to the new node. -/
theorem C7_face_insertion_guards (G : NXGraph) (new : PyVal) (old_set : List ℕ)
    (C : Mat) (faces : List (Finset ℕ)) :
    (∀ xs, new = .arr xs →
      _add_triangular_face G new old_set C faces =
        .error (.valueError "New should be a scaler")) ∧
    (∀ n, new = .int n → 3 < old_set.length →
      _add_triangular_face G new old_set C faces =
        .error (.valueError "Old set is not the right size!")) ∧
    (∀ n, new = .int n → old_set.length ≤ 3 →
      _add_triangular_face G new old_set C faces =
        .ok (old_set.foldl (fun H j => H.addEdge n j (C.entry n j)) G)) := by
  refine ⟨fun xs hxs => ?_, fun n hn hlen => ?_, fun n hn hlen => ?_⟩
  · subst hxs; rfl
  · subst hn
    unfold _add_triangular_face
    dsimp only
    rw [if_pos hlen]
  · subst hn
    exact addTri_ok G n old_set C faces hlen

/-- C7 witness: the amended theorem applied to a 4-member face. -/
theorem C7_face_insertion_guards_witness :
    _add_triangular_face NXGraph.emptyGraph (.int 0) [0, 1, 2, 3] mat2ex [] =
      .error (.valueError "Old set is not the right size!") :=
  (C7_face_insertion_guards NXGraph.emptyGraph (.int 0) [0, 1, 2, 3] mat2ex
    []).2.1 0 rfl (by decide)

/-! ### The partial-correlation network (claim C5) -/

/-- C5: on an invertible matrix the partial-correlation network exists and
has unit diagonal (the `fill_diagonal` write); on a singular matrix the
inversion collaborator's `SingularMatrixError` propagates. -/
theorem C5_partial_correlation_diag_singular {p : ℕ} (sqrt : ℚ → ℚ)
    (A : Matrix (Fin p) (Fin p) ℚ) :
    (A.det ≠ 0 → ∃ M, partial_correlation sqrt A = .ok M ∧ ∀ i, M i i = 1) ∧
    (A.det = 0 → partial_correlation sqrt A = .error .singularMatrix) := by
  constructor
  · intro h
    refine ⟨Matrix.of fun i j =>
        if i = j then 1
        else - (A.det⁻¹ • A.adjugate) i j /
          sqrt ((A.det⁻¹ • A.adjugate) i i * (A.det⁻¹ • A.adjugate) j j), ?_, ?_⟩
    · unfold partial_correlation npLinalgInv
      rw [if_neg h]
    · intro i
      simp
  · intro h
    unfold partial_correlation npLinalgInv
    rw [if_pos h]

/-- C5 witness: the theorem at the invertible `[[2]]` and the singular
`[[0]]`. -/
theorem C5_partial_correlation_diag_singular_witness :
    (∃ M, partial_correlation id (oneMat 2) = .ok M ∧ ∀ i, M i i = 1) ∧
    partial_correlation id (oneMat 0) = .error .singularMatrix := by
  constructor
  · exact (C5_partial_correlation_diag_singular id (oneMat 2)).1
      (by simp [Matrix.det_fin_one, oneMat])
  · exact (C5_partial_correlation_diag_singular id (oneMat 0)).2
      (by simp [Matrix.det_fin_one, oneMat])

/-! ### The dependency network (claim C9) -/

/-- C9: off the diagonal, the dependency network's entry at `(k, i)` is the
`(p−1)`-averaged sum over `j ≠ i` of the specification's dependency tensor
(sentinel `D[i,j,j] = 1`, partial-correlation differences at distinct
triples). -/
theorem C9_dependency_network_refines (sqrt : ℚ → ℚ) (corr : Mat) (k i : ℕ)
    (hk : k < corr.p) (hi : i < corr.p) (hne : k ≠ i) :
    (dependency_network sqrt corr).entry k i =
      (1 / ((corr.p : ℚ) - 1)) *
        (((List.range corr.p).filter (fun j => j ≠ i)).map
          (fun j => depD_spec sqrt corr i j k)).sum := by
  unfold dependency_network
  dsimp only
  rw [if_pos ⟨hk, hi, fun hh => hne hh.symm⟩, div_eq_mul_inv, ← one_div, mul_comm]
  congr 1
  congr 1
  apply List.map_congr_left
  intro j hj
  rw [List.mem_filter] at hj
  obtain ⟨hjr, hjib⟩ := hj
  rw [List.mem_range] at hjr
  have hji : j ≠ i := by simpa using hjib
  by_cases hkj : k = j
  · subst hkj
    unfold depTensor2 depD_spec
    rw [if_pos ⟨hi, hjr, rfl⟩, if_pos rfl]
  · unfold depTensor2 depTensor1 depD_spec
    have h1 : ¬ (i < corr.p ∧ j < corr.p ∧ k = j) := fun hh => hkj hh.2.2
    have h2 : ¬ (j = k) := fun hh => hkj hh.symm
    have h3 : i < corr.p ∧ j < corr.p ∧ k < corr.p := ⟨hi, hjr, hk⟩
    have h4 : ¬ (i = j ∨ i = k ∨ j = k) := by
      rintro (hh | hh | hh)
      · exact hji hh.symm
      · exact hne hh.symm
      · exact hkj hh.symm
    have h5 : i ≠ j ∧ i ≠ k ∧ j ≠ k := ⟨Ne.symm hji, Ne.symm hne, h2⟩
    rw [if_neg h1, if_neg h2, if_pos h3, if_neg h4, if_pos h5]

/-- C9 witness: the theorem at the 2×2 identity, `k = 1`, `i = 0`. -/
theorem C9_dependency_network_refines_witness :
    (dependency_network id mat2ex).entry 1 0 =
      (1 / ((mat2ex.p : ℚ) - 1)) *
        (((List.range mat2ex.p).filter (fun j => j ≠ 0)).map
          (fun j => depD_spec id mat2ex 0 j 1)).sum :=
  C9_dependency_network_refines id mat2ex 1 0 (by decide) (by decide) (by decide)

/-! ### The frame property on the store (claim C10) -/

/-- Writing a fresh cell does not change an older cell. -/
theorem store_write1_preserve (σ : Store) (c c1 : Cell) (r : ℕ) (h : r < σ.length) :
    (storeWrite (σ ++ [c]) σ.length c1)[r]? = σ[r]? := by
  unfold storeWrite
  rw [List.getElem?_set_ne (by omega)]
  exact List.getElem?_append_left h

/-- Two successive writes to a fresh cell do not change an older cell. -/
theorem store_write2_preserve (σ : Store) (c c1 c2 : Cell) (r : ℕ) (h : r < σ.length) :
    (storeWrite (storeWrite (σ ++ [c]) σ.length c1) σ.length c2)[r]? = σ[r]? := by
  unfold storeWrite
  rw [List.getElem?_set_ne (by omega), List.getElem?_set_ne (by omega)]
  exact List.getElem?_append_left h

/-- C10: the argument cell of each public operation holds exactly the same
value after the call: `threshold` writes only into its fresh copy,
`partial_correlation` and `dependency_network` only into their fresh
allocations, and the graph builders write nothing. -/
theorem C10_no_argument_mutation (σ : Store) (r : ℕ) (t : ℚ) (binary absolute : Bool)
    (k : ℕ) (sqrt : ℚ → ℚ) (oracle : List ℕ × List (ℕ × ℕ) → Bool)
    (h : r < σ.length) :
    (thresholdSt σ r t binary absolute).1[r]? = σ[r]? ∧
    (mstSt σ r).1[r]? = σ[r]? ∧
    (pmfgSt oracle σ r).1[r]? = σ[r]? ∧
    (tmfgSt σ r absolute).1[r]? = σ[r]? ∧
    (knnSt σ r k).1[r]? = σ[r]? ∧
    (partial_correlationSt sqrt σ r).1[r]? = σ[r]? ∧
    (dependency_networkSt sqrt σ r).1[r]? = σ[r]? := by
  refine ⟨?_, ?_, ?_, ?_, ?_, ?_, ?_⟩
  · unfold thresholdSt
    cases hc : σ[r]? with
    | none => exact hc
    | some c =>
      cases c with
      | mat m =>
        dsimp only [storeAlloc]
        rw [← hc]
        cases binary
        · simpa using store_write1_preserve σ _ _ r h
        · simpa using store_write2_preserve σ _ _ _ r h
      | finmat p A => exact hc
      | tensor p f => exact hc
  · unfold mstSt
    cases hc : σ[r]? with
    | none => exact hc
    | some c => cases c <;> exact hc
  · unfold pmfgSt
    cases hc : σ[r]? with
    | none => exact hc
    | some c => cases c <;> exact hc
  · unfold tmfgSt
    cases hc : σ[r]? with
    | none => exact hc
    | some c => cases c <;> exact hc
  · unfold knnSt
    cases hc : σ[r]? with
    | none => exact hc
    | some c => cases c <;> exact hc
  · unfold partial_correlationSt
    cases hc : σ[r]? with
    | none => exact hc
    | some c =>
      cases c with
      | mat m => exact hc
      | finmat p A =>
        dsimp only [storeAlloc]
        rw [← hc]
        cases hinv : npLinalgInv A with
        | error e => rfl
        | ok prec => simpa using store_write2_preserve σ _ _ _ r h
      | tensor p f => exact hc
  · unfold dependency_networkSt
    cases hc : σ[r]? with
    | none => exact hc
    | some c =>
      cases c with
      | mat m =>
        dsimp only [storeAlloc]
        rw [← hc]
        have h2 : r < (storeWrite (storeWrite (σ ++ [Cell.tensor m.p fun _ _ _ => 0])
            σ.length (.tensor m.p (depTensor1 sqrt m))) σ.length
            (.tensor m.p (depTensor2 sqrt m))).length := by
          unfold storeWrite
          simpa using Nat.lt_succ_of_lt h
        calc _ = (storeWrite (storeWrite (σ ++ [Cell.tensor m.p fun _ _ _ => 0])
              σ.length (.tensor m.p (depTensor1 sqrt m))) σ.length
              (.tensor m.p (depTensor2 sqrt m)))[r]? := by
              apply store_write1_preserve _ _ _ _ h2
          _ = σ[r]? := store_write2_preserve σ _ _ _ r h
      | finmat p A => exact hc
      | tensor p f => exact hc

/-- C10 witness: the theorem at a one-cell store. -/
theorem C10_no_argument_mutation_witness :
    (thresholdSt [Cell.mat matTwo] 0 1 true true).1[0]? = [Cell.mat matTwo][0]? ∧
    (mstSt [Cell.mat matTwo] 0).1[0]? = [Cell.mat matTwo][0]? ∧
    (pmfgSt (fun _ => true) [Cell.mat matTwo] 0).1[0]? = [Cell.mat matTwo][0]? ∧
    (tmfgSt [Cell.mat matTwo] 0 true).1[0]? = [Cell.mat matTwo][0]? ∧
    (knnSt [Cell.mat matTwo] 0 1).1[0]? = [Cell.mat matTwo][0]? ∧
    (partial_correlationSt id [Cell.mat matTwo] 0).1[0]? = [Cell.mat matTwo][0]? ∧
    (dependency_networkSt id [Cell.mat matTwo] 0).1[0]? = [Cell.mat matTwo][0]? :=
  C10_no_argument_mutation [Cell.mat matTwo] 0 1 true true 1 id (fun _ => true)
    (by decide)

/-! ### Node sets of the graph builders (claim C8) -/

/-- Adding a node keeps every present node. -/
theorem addNode_mem {G : NXGraph} {u : ℕ} (v : ℕ) (h : u ∈ G.nodes) :
    u ∈ (G.addNode v).nodes := by
  unfold NXGraph.addNode
  split_ifs
  · exact h
  · exact List.mem_append_left _ h

/-- The added node is present. -/
theorem addNode_self (G : NXGraph) (v : ℕ) : v ∈ (G.addNode v).nodes := by
  unfold NXGraph.addNode
  split_ifs with h
  · exact h
  · exact List.mem_append_right _ (by simp)

/-- A node added by `addNode` is the old set plus possibly `v`. -/
theorem addNode_sub {G : NXGraph} {u v : ℕ} (h : u ∈ (G.addNode v).nodes) :
    u ∈ G.nodes ∨ u = v := by
  unfold NXGraph.addNode at h
  split_ifs at h
  · exact Or.inl h
  · rcases List.mem_append.mp h with h | h
    · exact Or.inl h
    · simp at h
      exact Or.inr h

/-- `add_edge` keeps every present node. -/
theorem addEdge_mem_nodes {G : NXGraph} {u : ℕ} (a b : ℕ) (w : ℚ) (h : u ∈ G.nodes) :
    u ∈ (G.addEdge a b w).nodes := by
  unfold NXGraph.addEdge
  split_ifs <;> exact addNode_mem b (addNode_mem a h)

/-- The left endpoint of `add_edge` is present afterwards. -/
theorem addEdge_self_left (G : NXGraph) (a b : ℕ) (w : ℚ) :
    a ∈ (G.addEdge a b w).nodes := by
  unfold NXGraph.addEdge
  split_ifs <;> exact addNode_mem b (addNode_self G a)

/-- New nodes can only be the edge's endpoints. -/
theorem addEdge_nodes_sub {G : NXGraph} {u : ℕ} (a b : ℕ) (w : ℚ)
    (h : u ∈ (G.addEdge a b w).nodes) : u ∈ G.nodes ∨ u = a ∨ u = b := by
  unfold NXGraph.addEdge at h
  have h' : u ∈ ((G.addNode a).addNode b).nodes := by
    split_ifs at h <;> exact h
  rcases addNode_sub h' with h'' | h''
  · rcases addNode_sub h'' with h3 | h3
    · exact Or.inl h3
    · exact Or.inr (Or.inl h3)
  · exact Or.inr (Or.inr h'')

/-- A default-0 list lookup stays below `p` when the list does and `p` is
positive. -/
theorem getD_lt {l : List ℕ} {p : ℕ} (n : ℕ) (hl : ∀ x ∈ l, x < p) (hp : 0 < p) :
    l.getD n 0 < p := by
  rw [List.getD_eq_getElem?_getD]
  cases h : l[n]? with
  | none => simpa using hp
  | some x => simpa using hl x (List.getElem?_mem h)

/-- The PMFG loop never changes the node list: every candidate endpoint is
below `p` and hence already a node. -/
theorem pmfgLoop_nodes (oracle : List ℕ × List (ℕ × ℕ) → Bool) (corr : Mat) :
    ∀ (l : List ℕ) (G : NXGraph), (∀ v ∈ l, v < corr.p * corr.p) →
      G.nodes = List.range corr.p →
      (pmfgLoop oracle corr l G).nodes = List.range corr.p
  | [], G, _, hn => hn
  | v :: rest, G, hb, hn => by
    rw [pmfgLoop_cons]
    have hv := hb v (by simp)
    obtain ⟨hi, hj⟩ := flat_bounds hv
    have hbrest : ∀ x ∈ rest, x < corr.p * corr.p := fun x hx => hb x (by simp [hx])
    have hin : flatI corr.p v ∈ G.nodes := by rw [hn]; exact List.mem_range.mpr hi
    have hjn : flatJ corr.p v ∈ G.nodes := by rw [hn]; exact List.mem_range.mpr hj
    have hG1 : (G.addEdge (flatI corr.p v) (flatJ corr.p v)
        (corr.entry (flatI corr.p v) (flatJ corr.p v))).nodes = List.range corr.p := by
      rw [addEdge_nodes_noop hin hjn]; exact hn
    by_cases h1 : flatI corr.p v = flatJ corr.p v
    · rw [if_pos h1]
      exact pmfgLoop_nodes oracle corr rest G hbrest hn
    · rw [if_neg h1]
      split_ifs
      · exact hG1
      · exact pmfgLoop_nodes oracle corr rest _ hbrest hG1
      · rw [removeEdge_nodes]
        exact hG1
      · exact pmfgLoop_nodes oracle corr rest _ hbrest
          (by rw [removeEdge_nodes]; exact hG1)

/-- The PMFG's node set is exactly `{0, …, p−1}`, for every oracle. -/
theorem pmfg_nodes (oracle : List ℕ × List (ℕ × ℕ) → Bool) (corr : Mat) :
    ∀ u, u ∈ (pmfg oracle corr).nodes ↔ u < corr.p := by
  intro u
  unfold pmfg
  rw [pmfgLoop_nodes oracle corr _ _ (fun v hv => argsortFlatDesc_mem.mp hv)
    (pmfg_initial_nodes corr.p), List.mem_range]

/-- Membership in the k-NN column argsort. -/
theorem knnSort_mem (corr : Mat) (i j : ℕ) : j ∈ knnSort corr i ↔ j < corr.p := by
  unfold knnSort
  rw [List.mem_reverse, (List.perm_insertionSort _ _).mem_iff, List.mem_range]

/-- The k-NN inner loop keeps every present node. -/
theorem knnInner_mono (corr : Mat) (k i : ℕ) :
    ∀ (l : List ℕ) (num : ℕ) (G : NXGraph) (u : ℕ),
      u ∈ G.nodes → u ∈ (knnInner corr k i l num G).nodes
  | [], _, _, _, h => h
  | j :: rest, num, G, u, h => by
    unfold knnInner
    split_ifs
    · exact h
    · exact knnInner_mono corr k i rest num G u h
    · exact knnInner_mono corr k i rest (num + 1) _ u (addEdge_mem_nodes _ _ _ h)

/-- The k-NN inner loop only creates nodes below `p`. -/
theorem knnInner_nodes_lt (corr : Mat) (k i : ℕ) (hi : i < corr.p) :
    ∀ (l : List ℕ) (num : ℕ) (G : NXGraph),
      (∀ u ∈ G.nodes, u < corr.p) → (∀ j ∈ l, j < corr.p) →
      ∀ u ∈ (knnInner corr k i l num G).nodes, u < corr.p
  | [], _, _, hG, _ => hG
  | j :: rest, num, G, hG, hl => by
    unfold knnInner
    split_ifs
    · exact hG
    · exact knnInner_nodes_lt corr k i hi rest num G hG
        (fun x hx => hl x (List.mem_cons_of_mem _ hx))
    · refine knnInner_nodes_lt corr k i hi rest (num + 1) _ ?_
        (fun x hx => hl x (List.mem_cons_of_mem _ hx))
      intro u hu
      rcases addEdge_nodes_sub _ _ _ hu with h | h | h
      · exact hG u h
      · exact h ▸ hi
      · exact h ▸ hl j (List.mem_cons_self _ _)

/-- When fewer than `k` edges are used and some non-diagonal index remains,
the pivot node `i` ends up in the graph. -/
theorem knnInner_self (corr : Mat) (k i : ℕ) :
    ∀ (l : List ℕ) (num : ℕ) (G : NXGraph), num < k → (∃ j ∈ l, j ≠ i) →
      i ∈ (knnInner corr k i l num G).nodes
  | [], _, _, _, hex => absurd hex (by simp)
  | j :: rest, num, G, hnum, hex => by
    unfold knnInner
    split_ifs with h1 h2
    · exact absurd h1 (by omega)
    · apply knnInner_self corr k i rest num G hnum
      obtain ⟨j', hj', hne⟩ := hex
      rcases List.mem_cons.mp hj' with rfl | hmem
      · exact absurd h2 hne
      · exact ⟨j', hmem, hne⟩
    · exact knnInner_mono corr k i rest (num + 1) _ i (addEdge_self_left G i j _)

/-- The k-NN fold: nodes stay below `p`, every processed pivot is present,
and present nodes persist. -/
theorem knn_fold_nodes (corr : Mat) (k : ℕ) (hk : 1 ≤ k) (hp : 2 ≤ corr.p) :
    ∀ (l : List ℕ) (G : NXGraph), (∀ i ∈ l, i < corr.p) →
      (∀ u ∈ G.nodes, u < corr.p) →
      (∀ u ∈ (List.foldl (fun H i => knnInner corr k i (knnSort corr i) 0 H) G l).nodes,
          u < corr.p) ∧
      (∀ i ∈ l, i ∈ (List.foldl (fun H i => knnInner corr k i (knnSort corr i) 0 H)
          G l).nodes) ∧
      (∀ u ∈ G.nodes, u ∈ (List.foldl (fun H i => knnInner corr k i (knnSort corr i) 0 H)
          G l).nodes)
  | [], G, _, hG => ⟨hG, by simp, fun _ h => h⟩
  | i :: rest, G, hl, hG => by
    rw [List.foldl_cons]
    have hi : i < corr.p := hl i (List.mem_cons_self _ _)
    have hG' : ∀ u ∈ (knnInner corr k i (knnSort corr i) 0 G).nodes, u < corr.p :=
      knnInner_nodes_lt corr k i hi (knnSort corr i) 0 G hG
        (fun j hj => (knnSort_mem corr i j).mp hj)
    obtain ⟨ih1, ih2, ih3⟩ := knn_fold_nodes corr k hk hp rest _
      (fun x hx => hl x (List.mem_cons_of_mem _ hx)) hG'
    refine ⟨ih1, ?_, ?_⟩
    · intro x hx
      rcases List.mem_cons.mp hx with rfl | hmem
      · apply ih3
        apply knnInner_self corr k x (knnSort corr x) 0 G (by omega)
        by_cases h0 : x = 0
        · exact ⟨1, (knnSort_mem corr x 1).mpr (by omega), by omega⟩
        · exact ⟨0, (knnSort_mem corr x 0).mpr (by omega), fun hh => h0 hh.symm⟩
      · exact ih2 x hmem
    · intro u hu
      exact ih3 u (knnInner_mono corr k i _ 0 G u hu)

/-- For `k ≥ 1` and `p ≥ 2` the k-NN node set is exactly `{0, …, p−1}`. -/
theorem knn_nodes (corr : Mat) (k : ℕ) (hk : 1 ≤ k) (hp : 2 ≤ corr.p) :
    ∀ u, u ∈ (knn corr k).nodes ↔ u < corr.p := by
  unfold knn
  obtain ⟨h1, h2, _⟩ := knn_fold_nodes corr k hk hp (List.range corr.p) NXGraph.emptyGraph
    (fun i hi => List.mem_range.mp hi)
    (fun u hu => absurd hu (by simp [NXGraph.emptyGraph]))
  exact fun u => ⟨fun hu => h1 u hu, fun hu => h2 u (List.mem_range.mpr hu)⟩

/-- Membership in the TMFG centrality argsort. -/
theorem tmfgInd_mem (corr : Mat) (absolute : Bool) (x : ℕ) :
    x ∈ tmfgInd corr absolute ↔ x < corr.p := by
  unfold tmfgInd
  rw [List.mem_reverse, (List.perm_insertionSort _ _).mem_iff, List.mem_range]

/-- The argmax model returns an element of the list together with its
key. -/
theorem argmaxLast_mem (key : ℕ → ℚ) :
    ∀ (l : List ℕ) (c : ℕ) (kc : ℚ), argmaxLast key l = some (c, kc) →
      c ∈ l ∧ kc = key c
  | [], c, kc, h => by simp [argmaxLast] at h
  | x :: xs, c, kc, h => by
    unfold argmaxLast at h
    cases hrec : argmaxLast key xs with
    | none =>
      rw [hrec] at h
      simp only [Option.some.injEq, Prod.mk.injEq] at h
      obtain ⟨rfl, rfl⟩ := h
      exact ⟨List.mem_cons_self _ _, rfl⟩
    | some pr =>
      obtain ⟨y, ky⟩ := pr
      rw [hrec] at h
      dsimp only at h
      split_ifs at h <;> simp only [Option.some.injEq, Prod.mk.injEq] at h <;>
        obtain ⟨rfl, rfl⟩ := h
      · exact ⟨List.mem_cons_self _ _, rfl⟩
      · obtain ⟨hmem, hky⟩ := argmaxLast_mem key xs y ky hrec
        exact ⟨List.mem_cons_of_mem _ hmem, hky⟩

/-- Whatever the greedy selection fold returns beyond its accumulator came
from a face of the list and a candidate of `not_in`. -/
theorem tmfgSelect_fold_some (wc : ℕ → ℕ → ℚ) (not_in : List ℕ) :
    ∀ (fs : List (Finset ℕ)) (acc : ℚ × Option (ℕ × List ℕ)) (c : ℕ) (l : List ℕ),
      (List.foldl (fun acc face =>
          let ind := face.sort (· ≤ ·)
          match argmaxLast (fun c => (ind.map (fun r => wc r c)).sum) not_in with
          | none => acc
          | some (c, kc) => if acc.1 < kc then (kc, some (c, ind)) else acc) acc fs).2 =
        some (c, l) →
      acc.2 = some (c, l) ∨ (c ∈ not_in ∧ ∃ face ∈ fs, l = face.sort (· ≤ ·))
  | [], acc, c, l, h => Or.inl h
  | face :: fs, acc, c, l, h => by
    rw [List.foldl_cons] at h
    rcases tmfgSelect_fold_some wc not_in fs _ c l h with hacc | ⟨hc, face', hmem, hl⟩
    · dsimp only at hacc
      cases hm : argmaxLast (fun c => ((face.sort (· ≤ ·)).map (fun r => wc r c)).sum)
          not_in with
      | none =>
        rw [hm] at hacc
        exact Or.inl hacc
      | some pr =>
        obtain ⟨c0, kc⟩ := pr
        rw [hm] at hacc
        dsimp only at hacc
        split_ifs at hacc
        · simp only [Option.some.injEq, Prod.mk.injEq] at hacc
          obtain ⟨rfl, rfl⟩ := hacc
          exact Or.inr ⟨(argmaxLast_mem _ _ _ _ hm).1,
            face, List.mem_cons_self _ _, rfl⟩
        · exact Or.inl hacc
    · exact Or.inr ⟨hc, face', List.mem_cons_of_mem _ hmem, hl⟩

/-- A successful greedy selection picks a candidate of `not_in` and the
sorted member list of one of the current faces. -/
theorem tmfgSelect_some_spec (wc : ℕ → ℕ → ℚ) (not_in : List ℕ)
    (faces : List (Finset ℕ)) (max_i : ℕ) (ncw : List ℕ)
    (h : tmfgSelect wc not_in faces = some (max_i, ncw)) :
    max_i ∈ not_in ∧ ∃ face ∈ faces, ncw = face.sort (· ≤ ·) := by
  unfold tmfgSelect at h
  rcases tmfgSelect_fold_some wc not_in faces _ max_i ncw h with hacc | h2
  · simp at hacc
  · exact h2

/-- The two-member specialization of the face insertion (the tetrahedron
seeding always passes two-member sets). -/
theorem addTri_ok2 (G : NXGraph) (n a b : ℕ) (C : Mat) (faces : List (Finset ℕ)) :
    _add_triangular_face G (.int n) [a, b] C faces =
      .ok ((G.addEdge n a (C.entry n a)).addEdge n b (C.entry n b)) := by
  rw [addTri_ok G n [a, b] C faces (by simp)]
  rfl

/-- Folding edges from a present node to present nodes keeps the node
list. -/
theorem addTri_nodes (C : Mat) (n : ℕ) :
    ∀ (l : List ℕ) (G : NXGraph), n ∈ G.nodes → (∀ x ∈ l, x ∈ G.nodes) →
      (l.foldl (fun H j => H.addEdge n j (C.entry n j)) G).nodes = G.nodes
  | [], _, _, _ => rfl
  | j :: rest, G, hn, hl => by
    rw [List.foldl_cons]
    have hnoop : (G.addEdge n j (C.entry n j)).nodes = G.nodes :=
      addEdge_nodes_noop hn (hl j (List.mem_cons_self _ _))
    rw [addTri_nodes C n rest (G.addEdge n j (C.entry n j))
      (by rw [hnoop]; exact hn)
      (fun x hx => by rw [hnoop]; exact hl x (List.mem_cons_of_mem _ hx)), hnoop]

/-- Membership in a `faceAdd` result. -/
theorem faceAdd_mem {l : List (Finset ℕ)} {g f : Finset ℕ} (h : f ∈ faceAdd l g) :
    f ∈ l ∨ f = g := by
  unfold faceAdd at h
  split_ifs at h
  · exact Or.inl h
  · rcases List.mem_append.mp h with h | h
    · exact Or.inl h
    · simp at h
      exact Or.inr h

/-- A three-element face literal is small and in range. -/
theorem newFace_inv {new a b p : ℕ} (hnew : new < p) (ha : a < p) (hb : b < p) :
    ({new, a, b} : Finset ℕ).card ≤ 3 ∧ ∀ x ∈ ({new, a, b} : Finset ℕ), x < p := by
  constructor
  · calc ({new, a, b} : Finset ℕ).card ≤ ({a, b} : Finset ℕ).card + 1 :=
        Finset.card_insert_le _ _
      _ ≤ (({b} : Finset ℕ).card + 1) + 1 :=
        Nat.add_le_add_right (Finset.card_insert_le _ _) 1
      _ = 3 := by simp
  · intro x hx
    rcases Finset.mem_insert.mp hx with rfl | hx
    · exact hnew
    · rcases Finset.mem_insert.mp hx with rfl | hx
      · exact ha
      · rw [Finset.mem_singleton.mp hx]
        exact hb

/-- The recomputed face list keeps the cards-at-most-3, in-range
invariant. -/
theorem calc_new_faces_inv {faces : List (Finset ℕ)} {new : ℕ} {old : List ℕ} {p : ℕ}
    (hfaces : ∀ f ∈ faces, f.card ≤ 3 ∧ ∀ x ∈ f, x < p)
    (hnew : new < p) (hold : ∀ x ∈ old, x < p) (hp : 0 < p) :
    ∀ f ∈ _calculate_new_faces faces new old, f.card ≤ 3 ∧ ∀ x ∈ f, x < p := by
  intro f hf
  unfold _calculate_new_faces at hf
  dsimp only at hf
  have h0 := getD_lt 0 hold hp
  have h1 := getD_lt 1 hold hp
  have h2 := getD_lt 2 hold hp
  rcases faceAdd_mem hf with hf' | rfl
  · rcases faceAdd_mem hf' with hf'' | rfl
    · rcases faceAdd_mem hf'' with hf3 | rfl
      · exact hfaces f (List.mem_of_mem_erase hf3)
      · exact newFace_inv hnew h1 h0
    · exact newFace_inv hnew h0 h2
  · exact newFace_inv hnew h1 h2

/-- The TMFG growth loop keeps the node list equal to `{0, …, p−1}`
whenever it terminates normally. -/
theorem tmfgLoop_nodes (corr : Mat) (wc : ℕ → ℕ → ℚ) :
    ∀ (fuel : ℕ) (G : NXGraph) (faces : List (Finset ℕ)) (starters : Finset ℕ)
      (not_in : List ℕ) (Gout : NXGraph),
      tmfgLoop corr wc fuel G faces starters not_in = .ok Gout →
      G.nodes = List.range corr.p →
      (∀ f ∈ faces, f.card ≤ 3 ∧ ∀ x ∈ f, x < corr.p) →
      (∀ x ∈ not_in, x < corr.p) →
      Gout.nodes = List.range corr.p
  | 0, G, faces, starters, not_in, Gout, heq, _, _, _ => by simp [tmfgLoop] at heq
  | fuel + 1, G, faces, starters, not_in, Gout, heq, hG, hf, hn => by
    unfold tmfgLoop at heq
    by_cases hie : not_in.isEmpty = true
    · rw [if_pos hie] at heq
      injection heq with h
      exact h ▸ hG
    · rw [if_neg hie] at heq
      cases hsel : tmfgSelect wc not_in faces with
      | none =>
        rw [hsel] at heq
        exact Except.noConfusion heq
      | some pr =>
        obtain ⟨max_i, ncw⟩ := pr
        rw [hsel] at heq
        dsimp only at heq
        obtain ⟨hmax, face, hfmem, hncw⟩ :=
          tmfgSelect_some_spec wc not_in faces max_i ncw hsel
        have hp0 : 0 < corr.p := by
          obtain ⟨x, hx⟩ := List.exists_mem_of_ne_nil not_in
            (fun hh => hie (by simp [hh]))
          exact lt_of_le_of_lt (Nat.zero_le x) (hn x hx)
        have hlen : ncw.length ≤ 3 := by
          rw [hncw, Finset.length_sort]
          exact (hf face hfmem).1
        have hmax_lt : max_i < corr.p := hn max_i hmax
        have hncw_lt : ∀ x ∈ ncw, x < corr.p := by
          intro x hx
          rw [hncw] at hx
          exact (hf face hfmem).2 x ((Finset.mem_sort _).mp hx)
        rw [addTri_ok G max_i ncw corr faces hlen] at heq
        dsimp only at heq
        refine tmfgLoop_nodes corr wc fuel _ _ _ _ _ heq ?_ ?_ ?_
        · rw [addTri_nodes corr max_i ncw G
            (by rw [hG]; exact List.mem_range.mpr hmax_lt)
            (fun x hx => by rw [hG]; exact List.mem_range.mpr (hncw_lt x hx))]
          exact hG
        · exact calc_new_faces_inv hf hmax_lt hncw_lt hp0
        · intro x hx
          exact hn x (List.mem_of_mem_filter hx)

/-- Adding an in-range edge to a graph on `{0, …, p−1}` keeps the node
list. -/
theorem addEdge_nodes_range {G : NXGraph} {p a b : ℕ} (hG : G.nodes = List.range p)
    (ha : a < p) (hb : b < p) (w : ℚ) : (G.addEdge a b w).nodes = List.range p := by
  rw [addEdge_nodes_noop (by rw [hG]; exact List.mem_range.mpr ha)
    (by rw [hG]; exact List.mem_range.mpr hb)]
  exact hG

/-- Whenever `tmfg` returns a graph, its node set is exactly
`{0, …, p−1}`. -/
theorem tmfg_nodes (corr : Mat) (absolute : Bool) (G : NXGraph)
    (hok : tmfg corr absolute = .ok G) : ∀ u, u ∈ G.nodes ↔ u < corr.p := by
  unfold tmfg at hok
  by_cases h4 : 4 ≤ (tmfgInd corr absolute).length
  · rw [if_pos h4] at hok
    have hgd : ∀ m, m < 4 → (tmfgInd corr absolute).getD m 0 < corr.p := by
      intro m hm
      have hlt : m < (tmfgInd corr absolute).length := by omega
      rw [List.getD_eq_getElem (tmfgInd corr absolute) 0 hlt]
      exact (tmfgInd_mem corr absolute _).mp (List.getElem_mem hlt)
    have h0 := hgd 0 (by omega)
    have h1 := hgd 1 (by omega)
    have h2 := hgd 2 (by omega)
    have h3 := hgd 3 (by omega)
    simp only [addTri_ok2] at hok
    have hGout : G.nodes = List.range corr.p := by
      refine tmfgLoop_nodes corr (weightCorr corr absolute) _ _ _ _ _ _ hok ?_ ?_ ?_
      · exact addEdge_nodes_range (addEdge_nodes_range (addEdge_nodes_range
          (addEdge_nodes_range (addEdge_nodes_range (addEdge_nodes_range
          (addEdge_nodes_range (addEdge_nodes_range (pmfg_initial_nodes corr.p)
          h0 h1 _) h0 h3 _) h1 h2 _) h1 h3 _) h0 h2 _) h0 h3 _) h2 h1 _) h2 h3 _
      · intro f hf
        rcases faceAdd_mem hf with hf1 | rfl
        · rcases faceAdd_mem hf1 with hf2 | rfl
          · rcases faceAdd_mem hf2 with hf3 | rfl
            · rcases faceAdd_mem hf3 with hf4 | rfl
              · simp at hf4
              · exact newFace_inv h0 h1 h3
            · exact newFace_inv h1 h2 h3
          · exact newFace_inv h0 h2 h3
        · exact newFace_inv h0 h1 h2
      · intro x hx
        exact List.mem_range.mp (List.mem_of_mem_filter hx)
    intro u
    rw [hGout, List.mem_range]
  · rw [if_neg h4] at hok
    simp at hok

/-- C8 counterexample: with `k = 0` — a valid `k` in the spec's `[0, p)`
range — the k-NN builder returns a graph with no nodes at all although
`p = 2`: the graph learns nodes only through `add_edge`, and no edge is
added. -/
theorem C8_knn_zero_has_no_nodes : mat2ex.p = 2 ∧ (knn mat2ex 0).nodes = [] := by
  constructor
  · rfl
  · decide

/-- C8 (amended): the spanning-tree builder for `p ≥ 2`, the PMFG builder
unconditionally, the TMFG builder whenever it returns a graph, and the k-NN
builder for `k ≥ 1` and `p ≥ 2` all produce graphs whose node set is
exactly `{0, …, p−1}`.  The builders learn nodes only through `add_edge`
(plus the initial `add_nodes_from` of pmfg/tmfg), so the degenerate
parameters excluded here genuinely return fewer nodes. -/
theorem C8_builder_node_sets (corr : Mat) (k : ℕ) (absolute : Bool)
    (oracle : List ℕ × List (ℕ × ℕ) → Bool) (G : NXGraph) :
    (2 ≤ corr.p → ∀ u, u ∈ (mst corr).nodes ↔ u < corr.p) ∧
    (∀ u, u ∈ (pmfg oracle corr).nodes ↔ u < corr.p) ∧
    (tmfg corr absolute = .ok G → ∀ u, u ∈ G.nodes ↔ u < corr.p) ∧
    (1 ≤ k → 2 ≤ corr.p → ∀ u, u ∈ (knn corr k).nodes ↔ u < corr.p) :=
  ⟨fun hp => mst_nodes corr hp, pmfg_nodes oracle corr,
   fun hok => tmfg_nodes corr absolute G hok, fun hk hp => knn_nodes corr k hk hp⟩

/-- C8 witness: the amended theorem at the 2×2 identity with `k = 1`. -/
theorem C8_builder_node_sets_witness :
    (∀ u, u ∈ (mst mat2ex).nodes ↔ u < mat2ex.p) ∧
    (∀ u, u ∈ (pmfg (fun _ => true) mat2ex).nodes ↔ u < mat2ex.p) ∧
    (∀ u, u ∈ (knn mat2ex 1).nodes ↔ u < mat2ex.p) :=
  ⟨(C8_builder_node_sets mat2ex 1 false (fun _ => true) NXGraph.emptyGraph).1
      (by decide),
   (C8_builder_node_sets mat2ex 1 false (fun _ => true) NXGraph.emptyGraph).2.1,
   (C8_builder_node_sets mat2ex 1 false (fun _ => true) NXGraph.emptyGraph).2.2.2
      (by decide) (by decide)⟩

/-! ### The TMFG growth loop crash (claim C1) -/

/-- The sum over a face's sorted member list is the `Finset` sum. -/
theorem sort_map_sum (face : Finset ℕ) (f : ℕ → ℚ) :
    ((face.sort (· ≤ ·)).map f).sum = ∑ r ∈ face, f r := by
  rw [((Finset.sort_perm_toList (· ≤ ·) face).map f).sum_eq, Finset.sum_to_list]

/-- When every face-to-candidate weight sum stays at most the `-1`
sentinel, the selection fold never updates its accumulator. -/
theorem tmfgSelect_none_aux (wc : ℕ → ℕ → ℚ) (not_in : List ℕ) :
    ∀ (fs : List (Finset ℕ)),
      (∀ face ∈ fs, ∀ c ∈ not_in, (∑ r ∈ face, wc r c) ≤ -1) →
      List.foldl (fun acc face =>
          let ind := face.sort (· ≤ ·)
          match argmaxLast (fun c => (ind.map (fun r => wc r c)).sum) not_in with
          | none => acc
          | some (c, kc) => if acc.1 < kc then (kc, some (c, ind)) else acc)
        ((-1 : ℚ), (none : Option (ℕ × List ℕ))) fs = ((-1 : ℚ), none)
  | [], _ => rfl
  | face :: fs, h => by
    rw [List.foldl_cons]
    dsimp only
    cases hm : argmaxLast (fun c => ((face.sort (· ≤ ·)).map (fun r => wc r c)).sum)
        not_in with
    | none =>
      exact tmfgSelect_none_aux wc not_in fs
        (fun f hf c hc => h f (List.mem_cons_of_mem _ hf) c hc)
    | some pr =>
      obtain ⟨c, kc⟩ := pr
      obtain ⟨hcmem, hkc⟩ := argmaxLast_mem _ _ _ _ hm
      have hkc' : kc = ((face.sort (· ≤ ·)).map (fun r => wc r c)).sum := hkc
      have hle : kc ≤ -1 := by
        rw [hkc', sort_map_sum]
        exact h face (List.mem_cons_self _ _) c hcmem
      dsimp only
      rw [if_neg (not_lt.mpr hle)]
      exact tmfgSelect_none_aux wc not_in fs
        (fun f hf c hc => h f (List.mem_cons_of_mem _ hf) c hc)

/-- The greedy selection finds nothing above the sentinel. -/
theorem tmfgSelect_none (wc : ℕ → ℕ → ℚ) (not_in : List ℕ) (faces : List (Finset ℕ))
    (h : ∀ face ∈ faces, ∀ c ∈ not_in, (∑ r ∈ face, wc r c) ≤ -1) :
    tmfgSelect wc not_in faces = none := by
  unfold tmfgSelect
  rw [tmfgSelect_none_aux wc not_in faces h]

/-- A failed selection with remaining nodes crashes the growth loop: the
source reaches `set(max_i)` with the integer sentinel `max_i = -1` and
raises `TypeError`. -/
theorem tmfgLoop_crash (corr : Mat) (wc : ℕ → ℕ → ℚ) (fuel : ℕ) (G : NXGraph)
    (faces : List (Finset ℕ)) (starters : Finset ℕ) (not_in : List ℕ)
    (hne : not_in.isEmpty = false) (hsel : tmfgSelect wc not_in faces = none) :
    tmfgLoop corr wc (fuel + 1) G faces starters not_in = .error .typeError := by
  unfold tmfgLoop
  rw [if_neg (by simp [hne]), hsel]

/-- `range 5`, spelled out. -/
theorem range5 : List.range 5 = [0, 1, 2, 3, 4] := rfl

/-- Column sum 0 of the crashing matrix. -/
theorem dcrash0 : degreeCentrality tmfgCrashMat false 0 = -54/100 := by
  norm_num [degreeCentrality, weightCorr, tmfgCrashMat, crashEntry, range5]

/-- Column sum 1 of the crashing matrix. -/
theorem dcrash1 : degreeCentrality tmfgCrashMat false 1 = 3 := by
  norm_num [degreeCentrality, weightCorr, tmfgCrashMat, crashEntry, range5]

/-- Column sum 2 of the crashing matrix. -/
theorem dcrash2 : degreeCentrality tmfgCrashMat false 2 = 301/100 := by
  norm_num [degreeCentrality, weightCorr, tmfgCrashMat, crashEntry, range5]

/-- Column sum 3 of the crashing matrix. -/
theorem dcrash3 : degreeCentrality tmfgCrashMat false 3 = 302/100 := by
  norm_num [degreeCentrality, weightCorr, tmfgCrashMat, crashEntry, range5]

/-- Column sum 4 of the crashing matrix. -/
theorem dcrash4 : degreeCentrality tmfgCrashMat false 4 = 303/100 := by
  norm_num [degreeCentrality, weightCorr, tmfgCrashMat, crashEntry, range5]

/-- The centralities of the crashing matrix ascend with the index. -/
theorem crash_sorted : List.Sorted (centAsc tmfgCrashMat false) [0, 1, 2, 3, 4] := by
  simp only [List.sorted_cons, List.mem_cons, List.not_mem_nil, or_false,
    List.mem_singleton, forall_eq_or_imp, forall_eq, List.sorted_nil, and_true]
  norm_num [centAsc, dcrash0, dcrash1, dcrash2, dcrash3, dcrash4]

/-- The centrality argsort of the crashing matrix. -/
theorem crash_ind : tmfgInd tmfgCrashMat false = [4, 3, 2, 1, 0] := by
  unfold tmfgInd
  rw [show tmfgCrashMat.p = 5 from rfl, range5, crash_sorted.insertionSort_eq]
  rfl

/-- Every seed-face-to-candidate weight sum of the crashing matrix is at
most the sentinel. -/
theorem crash_sums : ∀ face ∈ [({4, 3, 1} : Finset ℕ), {3, 2, 1}, {4, 2, 1}, {4, 3, 2}],
    ∀ c ∈ [(0 : ℕ)], (∑ r ∈ face, weightCorr tmfgCrashMat false r c) ≤ -1 := by
  intro face hface c hc
  rw [List.mem_singleton] at hc
  subst hc
  rcases List.mem_cons.mp hface with rfl | hface
  · norm_num [Finset.sum_insert, Finset.mem_insert, Finset.mem_singleton,
      Finset.sum_singleton, weightCorr, tmfgCrashMat, crashEntry]
  rcases List.mem_cons.mp hface with rfl | hface
  · norm_num [Finset.sum_insert, Finset.mem_insert, Finset.mem_singleton,
      Finset.sum_singleton, weightCorr, tmfgCrashMat, crashEntry]
  rcases List.mem_cons.mp hface with rfl | hface
  · norm_num [Finset.sum_insert, Finset.mem_insert, Finset.mem_singleton,
      Finset.sum_singleton, weightCorr, tmfgCrashMat, crashEntry]
  rcases List.mem_cons.mp hface with rfl | hface
  · norm_num [Finset.sum_insert, Finset.mem_insert, Finset.mem_singleton,
      Finset.sum_singleton, weightCorr, tmfgCrashMat, crashEntry]
  · exact absurd hface (List.not_mem_nil _)

/-- C1: on the concrete positive-definite 5×5 correlation matrix
`tmfgCrashMat` (a 4-clique at `0.8` with a fifth variable near `−0.4` to
each member), `tmfg(·, absolute=False)` raises `TypeError` instead of
returning a graph: all face-to-candidate sums lie below the `max_corr = -1`
sentinel, the selection keeps `max_i = -1`, and `set(-1)` raises.  The
spec's unconditional guarantee of a `p`-node, `3p−6`-edge connected planar
result is therefore false. -/
theorem C1_tmfg_crashes_on_pd_input : tmfg tmfgCrashMat false = .error .typeError := by
  unfold tmfg
  dsimp only
  rw [crash_ind]
  rw [if_pos (by norm_num : 4 ≤ ([4, 3, 2, 1, 0] : List ℕ).length)]
  rw [show ([4, 3, 2, 1, 0] : List ℕ).getD 0 0 = 4 from rfl,
    show ([4, 3, 2, 1, 0] : List ℕ).getD 1 0 = 3 from rfl,
    show ([4, 3, 2, 1, 0] : List ℕ).getD 2 0 = 2 from rfl,
    show ([4, 3, 2, 1, 0] : List ℕ).getD 3 0 = 1 from rfl]
  simp only [addTri_ok2]
  rw [show tmfgCrashMat.p = 5 from rfl,
    show (List.range 5).filter (fun x => x ∉ ({4, 3, 2, 1} : Finset ℕ)) = [0]
      from by decide,
    show faceAdd (faceAdd (faceAdd (faceAdd [] {4, 3, 1}) {3, 2, 1}) {4, 2, 1}) {4, 3, 2}
      = [({4, 3, 1} : Finset ℕ), {3, 2, 1}, {4, 2, 1}, {4, 3, 2}] from by decide]
  exact tmfgLoop_crash tmfgCrashMat (weightCorr tmfgCrashMat false) 5 _ _ _ _ rfl
    (tmfgSelect_none (weightCorr tmfgCrashMat false) [0] _ crash_sums)

/-- C2 witness: the theorem applied at the concrete symmetric 2×2 matrix
`mat2ex`, all hypotheses discharged there. -/
theorem C2_mst_maximum_spanning_tree_witness :
    (mst mat2ex).ConnectedOn mat2ex.p ∧ (mst mat2ex).Acyclic ∧
    (mst mat2ex).edgeCount = mat2ex.p - 1 ∧
    (∀ T : Finset (ℕ × ℕ), IsSpanningTree mat2ex.p T →
      pairWeight mat2ex T ≤ (mst mat2ex).totalWeight) := by
  refine C2_mst_maximum_spanning_tree mat2ex ?_ (by decide)
  intro i j _ _
  show (if i = j then (1 : ℚ) else 0) = (if j = i then (1 : ℚ) else 0)
  split_ifs with h1 h2 h3 <;> first | rfl | omega

end Topcorr
